import Mathlib

/-!
# Auryn: duplex (forward/backward) sparse matrices and STDP propagation

A shallow embedding of `DuplexConnection.cpp` and `STDPConnection.cpp`.

* `NeuronID` and `AurynLong` values are natural numbers (`Nat`).  A C++
  pointer into the forward column-index array (`NeuronID *`) is the offset of
  the element it points at; a pointer to a weight cell (`AurynWeight *`) is
  the offset of the cell in the forward weight array, or `none` for `NULL`.
* `AurynWeight` and `AurynFloat` values are IEEE 754 binary32 numbers (C++
  `float`), the type `F32`: a finite value is the rational it denotes, and
  there are `+∞`, `-∞` and not-a-number.  Every sum and product is rounded to
  the nearest binary32 value, ties to even, as the machine does; comparisons
  are exact and false on not-a-number.  The product that `dw_pre` and
  `dw_post` store in an `AurynDouble` is a product of two `float`s, so it is
  already a `float`, and its conversions to `double` and back are exact.
  The type names are those of `auryn_definitions.h` (`typedef float AurynFloat`,
  `typedef AurynFloat AurynWeight`, `typedef double AurynDouble`), and each
  operation is evaluated in its own type and rounded once.
* The logger is the list of the levels of the messages sent so far.
* The sparse-matrix classes are declared outside the two translated files;
  the members the translated code calls are modelled from the specification
  and say so in their doc comment.
-/

namespace Auryn

/-- Levels of the log messages that the translated code sends. -/
inductive LogMessageType where
  | NOTIFICATION
  | DEBUG
  | ERROR
  deriving DecidableEq, Repr

/-- An `AurynFloat` / `AurynWeight` value: an IEEE 754 binary32 number (C++
`float`).  `fin q` is the finite value `q` (the two zeros are one value), and
`pinf`, `ninf`, `nan` are `+∞`, `-∞` and not-a-number.  Only `fin q` with
`round q = fin q` is a value the machine can hold; the operations below
produce such values only. -/
inductive F32 where
  | fin (q : ℚ)
  | pinf
  | ninf
  | nan
  deriving DecidableEq, Repr

namespace F32

instance : Zero F32 := ⟨fin 0⟩

/-- Rounding of a rational to the nearest integer, ties to the even one. -/
def rne (y : ℚ) : ℤ :=
  if y - ⌊y⌋ < 1 / 2 then ⌊y⌋
  else if 1 / 2 < y - ⌊y⌋ then ⌊y⌋ + 1
  else if ⌊y⌋ % 2 = 0 then ⌊y⌋ else ⌊y⌋ + 1

/-- The binary exponent that binary32 gives a positive `x`: `⌊log₂ x⌋`, but
not below `-126`, where the subnormal numbers begin. -/
def expo (x : ℚ) : ℤ := max (Int.log 2 x) (-126)

/-- The binary32 value of a positive rational: the nearest multiple of
`2 ^ (expo x - 23)` (24 significant bits), ties to even, and `+∞` from
`2 ^ 128` on. -/
def roundPos (x : ℚ) : F32 :=
  if (2 : ℚ) ^ 128 ≤ (rne (x / (2 : ℚ) ^ (expo x - 23)) : ℚ) * (2 : ℚ) ^ (expo x - 23) then pinf
  else fin ((rne (x / (2 : ℚ) ^ (expo x - 23)) : ℚ) * (2 : ℚ) ^ (expo x - 23))

/-- Negation. -/
def neg : F32 → F32
  | fin q => fin (-q)
  | pinf => ninf
  | ninf => pinf
  | nan => nan

/-- The binary32 value of the exact result `x` of an operation (round to
nearest, ties to even). -/
def round (x : ℚ) : F32 :=
  if x = 0 then fin 0 else if 0 < x then roundPos x else neg (roundPos (-x))

/-- The binary32 sum, `a + b` on `float`. -/
def add : F32 → F32 → F32
  | fin a, fin b => round (a + b)
  | fin _, pinf => pinf
  | fin _, ninf => ninf
  | pinf, fin _ => pinf
  | pinf, pinf => pinf
  | ninf, fin _ => ninf
  | ninf, ninf => ninf
  | pinf, ninf => nan
  | ninf, pinf => nan
  | nan, _ => nan
  | _, nan => nan

/-- The product of an infinity with the sign `neg` and the finite value `b`. -/
def mulInf (neg : Bool) (b : ℚ) : F32 :=
  if b = 0 then nan else if (0 < b) = neg then ninf else pinf

/-- The binary32 product, `a * b` on `float`. -/
def mul : F32 → F32 → F32
  | fin a, fin b => round (a * b)
  | fin a, pinf => mulInf false a
  | fin a, ninf => mulInf true a
  | pinf, fin b => mulInf false b
  | ninf, fin b => mulInf true b
  | pinf, pinf => pinf
  | ninf, ninf => pinf
  | pinf, ninf => ninf
  | ninf, pinf => ninf
  | nan, _ => nan
  | _, nan => nan

/-- The comparison `a < b` on `float`: false when either side is not a number. -/
def lt : F32 → F32 → Bool
  | fin a, fin b => decide (a < b)
  | fin _, pinf => true
  | ninf, fin _ => true
  | ninf, pinf => true
  | _, _ => false

/-- The comparison `a <= b` on `float`: false when either side is not a number. -/
def le : F32 → F32 → Bool
  | fin a, fin b => decide (a ≤ b)
  | fin _, pinf => true
  | ninf, fin _ => true
  | ninf, pinf => true
  | pinf, pinf => true
  | ninf, ninf => true
  | _, _ => false

/-- What `if (x < mn) x = mn;` leaves in `x` ("clips too small weights"). -/
def clipBelow (x mn : F32) : F32 := if lt x mn then mn else x

/-- What `if (x > mx) x = mx;` leaves in `x` ("clips too large weights"). -/
def clipAbove (x mx : F32) : F32 := if lt mx x then mx else x

/-- The value is a finite number. -/
def IsFinite : F32 → Prop
  | fin _ => True
  | _ => False

instance (x : F32) : Decidable x.IsFinite := by
  unfold IsFinite
  cases x <;> infer_instance

/-- The value is a finite number that binary32 holds exactly. -/
def IsRep : F32 → Prop
  | fin q => round q = fin q
  | _ => False

instance (x : F32) : Decidable x.IsRep := by
  unfold IsRep
  cases x <;> infer_instance

end F32

/-- Modelled from the spec: the forward matrix class, whose declaration is not
part of the translated files.  "Forward matrix: row-pointer array (rows+1
entries), column-index array, weight-data array".  `rowptrs` holds offsets into
`colinds`; `coldata` is the weight store, cell `k` belonging to the element at
offset `k`. -/
structure ForwardMatrix where
  m_rows : Nat
  n_cols : Nat
  datasize : Nat
  n_nonzero : Nat
  rowptrs : List Nat
  colinds : List Nat
  coldata : List F32
  deriving DecidableEq, Repr

namespace ForwardMatrix

/-- Modelled from the spec: `get_rowptrs()[i]`, the offset where row `i` starts. -/
def get_rowptr (m : ForwardMatrix) (i : Nat) : Nat := m.rowptrs.getD i 0

/-- Modelled from the spec: `get_row_begin(i)`. -/
def get_row_begin (m : ForwardMatrix) (i : Nat) : Nat := m.get_rowptr i

/-- Modelled from the spec: `get_row_end(i)`, the start of row `i+1`. -/
def get_row_end (m : ForwardMatrix) (i : Nat) : Nat := m.get_rowptr (i + 1)

/-- Modelled from the spec: dereferencing a column-index pointer, `*c`. -/
def colAt (m : ForwardMatrix) (c : Nat) : Nat := m.colinds.getD c 0

/-- Modelled from the spec: `get_data_ptr(c)`, the weight cell that belongs to
the element a column-index pointer points at; cell and element share the offset. -/
def get_data_ptr (_m : ForwardMatrix) (c : Nat) : Nat := c

/-- Reading a weight cell, `*weight`. -/
def read (m : ForwardMatrix) (cell : Nat) : F32 := m.coldata.getD cell 0

/-- Writing a weight cell, `*weight = v`; the structure is untouched. -/
def write (m : ForwardMatrix) (cell : Nat) (v : F32) : ForwardMatrix :=
  { m with coldata := m.coldata.set cell v }

/-- The offsets a loop `for (c = get_row_begin(i); c != get_row_end(i); ++c)`
visits, in order. -/
def rowCells (m : ForwardMatrix) (i : Nat) : List Nat :=
  List.range' (m.get_row_begin i) (m.get_row_end i - m.get_row_begin i)

/-- Modelled from the spec: `get_ptr(i, j)`, the address of the weight cell of
the nonzero element in row `i` and column `j` ("appending
`(column, row, &weight_cell)`"): the first element of row `i` whose column is
`j`, `NULL` when the row has none. -/
def get_ptr (m : ForwardMatrix) (i j : Nat) : Option Nat :=
  (m.rowCells i).find? (fun k => m.colAt k == j)

/-- Modelled from the spec: `get_nonzero()`. -/
def get_nonzero (m : ForwardMatrix) : Nat := m.n_nonzero

/-- Modelled from the spec: `get_datasize()`, the capacity of the buffers. -/
def get_datasize (m : ForwardMatrix) : Nat := m.datasize

/-- The representation invariant of a finalized forward matrix: `rows+1` row
pointers, ascending from offset 0 to the nonzero count, and one column index
(below `n_cols`) and one weight cell per nonzero element. -/
def WF (m : ForwardMatrix) : Prop :=
  m.rowptrs.length = m.m_rows + 1 ∧
  m.rowptrs.Pairwise (· ≤ ·) ∧
  m.get_rowptr 0 = 0 ∧
  m.get_rowptr m.m_rows = m.n_nonzero ∧
  m.colinds.length = m.n_nonzero ∧
  m.coldata.length = m.n_nonzero ∧
  m.n_nonzero ≤ m.datasize ∧
  ∀ c ∈ m.colinds, c < m.n_cols

/-- "Within each row, column indices strictly increasing." -/
def RowsSorted (m : ForwardMatrix) : Prop :=
  ∀ i < m.m_rows, ∀ k ∈ m.rowCells i, ∀ k2 ∈ m.rowCells i, k < k2 → m.colAt k < m.colAt k2

instance (m : ForwardMatrix) : Decidable m.WF := by
  unfold WF
  infer_instance

instance (m : ForwardMatrix) : Decidable m.RowsSorted := by
  unfold RowsSorted
  infer_instance

/-- The forward matrix has a nonzero element in row `i`, column `j`. -/
def HasEntry (m : ForwardMatrix) (i j : Nat) : Prop :=
  i < m.m_rows ∧ ∃ k ∈ m.rowCells i, m.colAt k = j

instance (m : ForwardMatrix) (i j : Nat) : Decidable (m.HasEntry i j) := by
  unfold HasEntry
  infer_instance

end ForwardMatrix

/-- One element of the backward store: `(row, col, data)` is the destination
column `j`, the source row `i` and the address of the forward weight cell. -/
structure BkwEntry where
  row : Nat
  col : Nat
  data : Option Nat
  deriving DecidableEq, Repr

/-- Modelled from the spec: the backward matrix class
(`BackwardMatrix`, a sparse matrix of weight-cell addresses), whose
declaration is not part of the translated files.  The store is the sequence of
elements in the order `push_back` appended them. -/
structure BackwardMatrix where
  m_rows : Nat
  n_cols : Nat
  datasize : Nat
  entries : List BkwEntry
  deriving DecidableEq, Repr

namespace BackwardMatrix

/-- Modelled from the spec: `new BackwardMatrix(rows, cols, size)`. -/
def build (rows cols : Nat) (size : Nat) : BackwardMatrix :=
  { m_rows := rows, n_cols := cols, datasize := size, entries := [] }

/-- Modelled from the spec: `clear()` drops every element, keeps the buffer. -/
def clear (b : BackwardMatrix) : BackwardMatrix := { b with entries := [] }

/-- Modelled from the spec: `resize_buffer_and_clear(size)`. -/
def resize_buffer_and_clear (b : BackwardMatrix) (size : Nat) : BackwardMatrix :=
  { b with datasize := size, entries := [] }

/-- Modelled from the spec: `push_back(row, col, value)` "appends". -/
def push_back (b : BackwardMatrix) (i j : Nat) (value : Option Nat) : BackwardMatrix :=
  { b with entries := b.entries ++ [⟨i, j, value⟩] }

/-- Modelled from the spec: `fill_zeros()` "closes trailing empty rows"; it
adds and removes no element. -/
def fill_zeros (b : BackwardMatrix) : BackwardMatrix := b

/-- Modelled from the spec: `get_nonzero()`, the number of stored elements. -/
def get_nonzero (b : BackwardMatrix) : Nat := b.entries.length

/-- Modelled from the spec: `get_datasize()`. -/
def get_datasize (b : BackwardMatrix) : Nat := b.datasize

/-- Modelled from the spec: the elements a loop
`for (c = get_row_begin(j); c != get_row_end(j); ++c)` visits: the stored
elements of row `j`, in stored order. -/
def rowEntries (b : BackwardMatrix) (j : Nat) : List BkwEntry :=
  b.entries.filter (fun e => e.row == j)

/-- The backward matrix holds an element in row `j`, column `i`. -/
def HasEntry (b : BackwardMatrix) (j i : Nat) : Prop :=
  ∃ e ∈ b.entries, e.row = j ∧ e.col = i

instance (b : BackwardMatrix) (j i : Nat) : Decidable (b.HasEntry j i) := by
  unfold HasEntry
  infer_instance

end BackwardMatrix

/-- The state `compute_reverse_matrix` works on: the row cursors, the backward
matrix under construction. -/
structure Walk where
  rowwalker : List Nat
  bkw : BackwardMatrix
  deriving DecidableEq, Repr

/-- Body of the loop over `i` in `compute_reverse_matrix` (lines 129-134). -/
def walkRow (fwd : ForwardMatrix) (j : Nat) (s : Walk) (i : Nat) : Walk :=
  if s.rowwalker.getD i 0 < fwd.get_rowptr (i + 1) then
    if fwd.colAt (s.rowwalker.getD i 0) = j then
      { rowwalker := s.rowwalker.set i (s.rowwalker.getD i 0 + 1),
        bkw := s.bkw.push_back j i (fwd.get_ptr i j) }
    else s
  else s

/-- Body of the loop over `j` in `compute_reverse_matrix` (lines 127-136). -/
def walkCol (fwd : ForwardMatrix) (localrank : Nat → Bool) (maxrows : Nat)
    (s : Walk) (j : Nat) : Walk :=
  if localrank j then (List.range maxrows).foldl (walkRow fwd j) s else s

/-- The two nested loops of `compute_reverse_matrix` (lines 119-137), started
with the cursors copied from the row pointers; `get_m_rows()` and
`get_n_cols()` are the dimensions of the forward matrix. -/
def reverseWalk (fwd : ForwardMatrix) (localrank : Nat → Bool) (bkw : BackwardMatrix) : Walk :=
  (List.range fwd.n_cols).foldl (walkCol fwd localrank fwd.m_rows)
    { rowwalker := (List.range (fwd.m_rows + 1)).map fwd.get_rowptr, bkw := bkw }

/-- The method `DuplexConnection::compute_reverse_matrix()` on the forward matrix `fwd`,
the backward matrix `bkw` and the log; `localrank` is `dst->localrank`. -/
def compute_reverse_matrix (fwd : ForwardMatrix) (localrank : Nat → Bool)
    (bkw : BackwardMatrix) (log : List LogMessageType) : BackwardMatrix × List LogMessageType :=
  let r1 := if fwd.get_nonzero ≤ bkw.get_datasize then (bkw.clear, log)
    else (bkw.resize_buffer_and_clear fwd.get_datasize, log ++ [LogMessageType.NOTIFICATION])
  let log2 := r1.2 ++ [LogMessageType.NOTIFICATION]
  let bkw2 := (reverseWalk fwd localrank r1.1).bkw.fill_zeros
  if fwd.get_nonzero ≠ bkw2.get_nonzero then (bkw2, log2 ++ [LogMessageType.ERROR])
  else (bkw2, log2 ++ [LogMessageType.DEBUG])

/-- The state of a `DuplexConnection` object: the forward matrix `w` (to which
`fwd` is an alias), the pointer `bkw` (`none` while no backward matrix has
been assigned to it), the flag `allocated_bkw` and the log. -/
structure DuplexConnection where
  w : ForwardMatrix
  bkw : Option BackwardMatrix
  allocated_bkw : Bool
  log : List LogMessageType
  deriving DecidableEq, Repr

/-- The five constructors of `DuplexConnection`, in source order (lines 50,
58, 65, 76 and 83). -/
inductive Constructor where
  | fromFile
  | fromGroups
  | fromGroupsFile
  | fromDims
  | fromSparseness
  deriving DecidableEq, Repr

namespace DuplexConnection

/-- The method `DuplexConnection::init()`. -/
def init (c : DuplexConnection) (localrank : Nat → Bool) : DuplexConnection :=
  let bkw := BackwardMatrix.build c.w.n_cols c.w.m_rows c.w.get_nonzero
  let r := compute_reverse_matrix c.w localrank bkw c.log
  { c with bkw := some r.1, allocated_bkw := true, log := r.2 }

/-- The method `DuplexConnection::finalize()`; `none` when there is no backward matrix to
dereference. -/
def finalize (c : DuplexConnection) (localrank : Nat → Bool) : Option DuplexConnection :=
  match c.bkw with
  | none => none
  | some b =>
    let log1 := c.log ++ [LogMessageType.NOTIFICATION]
    let b1 := b.clear
    let b2 := if b1.get_nonzero > c.w.get_nonzero then b1.resize_buffer_and_clear c.w.get_nonzero
      else b1
    let r := compute_reverse_matrix c.w localrank b2 log1
    some { c with bkw := some r.1, log := r.2 }

/-- The constructors of `DuplexConnection` (lines 50-90).  `w` is the forward
matrix the base-class constructor built, `post_size` is
`dst->get_post_size()`, and `uninit` is the content of the member
`allocated_bkw` before the constructor body runs. -/
def construct (k : Constructor) (w : ForwardMatrix) (post_size : Nat)
    (localrank : Nat → Bool) (uninit : Bool) : DuplexConnection :=
  let c0 : DuplexConnection := { w := w, bkw := none, allocated_bkw := uninit, log := [] }
  match k with
  | .fromFile =>
    let c1 := { c0 with allocated_bkw := false }
    if post_size > 0 then c1.init localrank else c1
  | .fromGroups => { c0 with allocated_bkw := false }
  | .fromGroupsFile =>
    let c1 := { c0 with allocated_bkw := false }
    if post_size > 0 then c1.init localrank else c1
  | .fromDims =>
    let c1 := { c0 with allocated_bkw := false }
    c1.init localrank
  | .fromSparseness =>
    if post_size > 0 then c0.init localrank else c0

/-- The destructor `DuplexConnection::~DuplexConnection()` calls `free()`, which deletes
`bkw`, exactly when this holds. -/
def destructorFrees (c : DuplexConnection) : Bool := c.allocated_bkw

/-- This instance allocated a backward matrix: `init()` ran `new BackwardMatrix`. -/
def allocatedMirror (c : DuplexConnection) : Bool := c.bkw.isSome

end DuplexConnection

/-- What `propagate()` reads from the neuron groups in one tick:
`src->get_spikes()`, `dst->get_spikes_immediate()`, the traces `tr_pre` and
`tr_post`, and `dst->global2rank`. -/
structure Tick where
  src_spikes : List Nat
  dst_spikes_immediate : List Nat
  tr_pre : Nat → F32
  tr_post : Nat → F32
  global2rank : Nat → Nat

/-- The state of an `STDPConnection` whose backward matrix has been built: the
forward matrix `w`, the backward matrix `bkw`, the parameters, and the
synaptic events `transmit` has delivered so far (target, amplitude). -/
structure STDPConnection where
  w : ForwardMatrix
  bkw : BackwardMatrix
  A : F32
  B : F32
  min_weight : F32
  max_weight : F32
  stdp_active : Bool
  delivered : List (Nat × F32)
  deriving DecidableEq, Repr

namespace STDPConnection

/-- Modelled from the spec: `get_min_weight()` of the base connection class. -/
def get_min_weight (s : STDPConnection) : F32 := s.min_weight

/-- Modelled from the spec: `get_max_weight()` of the base connection class. -/
def get_max_weight (s : STDPConnection) : F32 := s.max_weight

/-- Modelled from the spec: `transmit(id, amount)`, "deliver the synaptic
event to the destination". -/
def transmit (s : STDPConnection) (id : Nat) (amount : F32) : STDPConnection :=
  { s with delivered := s.delivered ++ [(id, amount)] }

/-- The method `STDPConnection::dw_pre(post)`: the `float` product of `A` and
the post-trace. -/
def dw_pre (s : STDPConnection) (t : Tick) (post : Nat) : F32 :=
  let translated_spike := t.global2rank post
  F32.mul s.A (t.tr_post translated_spike)

/-- The method `STDPConnection::dw_post(pre)`: the `float` product of `B` and
the pre-trace. -/
def dw_post (s : STDPConnection) (t : Tick) (pre : Nat) : F32 :=
  F32.mul s.B (t.tr_pre pre)

/-- Body of the inner loop of `propagate_forward` (lines 121-133) at the
column-index pointer `c`. -/
def forwardCell (t : Tick) (s : STDPConnection) (c : Nat) : STDPConnection :=
  let weight := s.w.get_data_ptr c
  let s1 := s.transmit (s.w.colAt c) (s.w.read weight)
  if s1.stdp_active then
    let s2 := { s1 with
      w := s1.w.write weight (F32.add (s1.w.read weight) (s1.dw_pre t (s1.w.colAt c))) }
    if F32.lt (s2.w.read weight) s2.get_min_weight then
      { s2 with w := s2.w.write weight s2.get_min_weight }
    else s2
  else s1

/-- Body of the outer loop of `propagate_forward`: one spike of the source. -/
def forwardSpike (t : Tick) (s : STDPConnection) (spike : Nat) : STDPConnection :=
  (s.w.rowCells spike).foldl (forwardCell t) s

/-- The method `STDPConnection::propagate_forward()`. -/
def propagate_forward (s : STDPConnection) (t : Tick) : STDPConnection :=
  t.src_spikes.foldl (forwardSpike t) s

/-- Body of the inner loop of `propagate_backward` (lines 155-160) at the
backward element `e`; an element holding `NULL` has no cell to write. -/
def backwardEntry (t : Tick) (s : STDPConnection) (e : BkwEntry) : STDPConnection :=
  match e.data with
  | none => s
  | some weight =>
    let s1 := { s with w := s.w.write weight (F32.add (s.w.read weight) (s.dw_post t e.col)) }
    if F32.lt s1.get_max_weight (s1.w.read weight) then
      { s1 with w := s1.w.write weight s1.get_max_weight }
    else s1

/-- Body of the outer loop of `propagate_backward`: one spike of the
destination. -/
def backwardSpike (t : Tick) (s : STDPConnection) (spike : Nat) : STDPConnection :=
  (s.bkw.rowEntries spike).foldl (backwardEntry t) s

/-- The method `STDPConnection::propagate_backward()`. -/
def propagate_backward (s : STDPConnection) (t : Tick) : STDPConnection :=
  if s.stdp_active then t.dst_spikes_immediate.foldl (backwardSpike t) s else s

/-- The method `STDPConnection::propagate()`. -/
def propagate (s : STDPConnection) (t : Tick) : STDPConnection :=
  (s.propagate_forward t).propagate_backward t

/-- Any number of `propagate()` calls, one per tick. -/
def run (s : STDPConnection) (ticks : List Tick) : STDPConnection :=
  ticks.foldl propagate s

end STDPConnection

/-- Every element `(j, i)` of the backward matrix `bkw` holds the address of a
cell of row `i` of `fwd` whose column is `j`. -/
def MirrorSound (fwd : ForwardMatrix) (bkw : BackwardMatrix) : Prop :=
  ∀ e ∈ bkw.entries, e.col < fwd.m_rows ∧
    ∃ k ∈ e.data, k ∈ fwd.rowCells e.col ∧ fwd.colAt k = e.row

/-- The backward matrix `bkw` is a complete mirror of `fwd`: its elements hold
addresses of the right forward cells, no cell is held twice, and every forward
cell is held. -/
def IsMirror (fwd : ForwardMatrix) (bkw : BackwardMatrix) : Prop :=
  MirrorSound fwd bkw ∧
  (bkw.entries.map (fun e => e.data)).Nodup ∧
  ∀ i < fwd.m_rows, ∀ k ∈ fwd.rowCells i, ∃ e ∈ bkw.entries, e.data = some k

instance (fwd : ForwardMatrix) (bkw : BackwardMatrix) : Decidable (MirrorSound fwd bkw) := by
  unfold MirrorSound
  infer_instance

instance (fwd : ForwardMatrix) (bkw : BackwardMatrix) : Decidable (IsMirror fwd bkw) := by
  unfold IsMirror
  infer_instance

/-- One update `*weight = g (*weight)` of the weight store `l`; `w` is the
cell and `g`. -/
def applyWrite (l : List F32) (w : Nat × (F32 → F32)) : List F32 :=
  l.set w.1 (w.2 (l.getD w.1 0))

/-- A sequence of updates of the weight store, first to last. -/
def applyWrites (ws : List (Nat × (F32 → F32))) (l : List F32) : List F32 :=
  ws.foldl applyWrite l

/-- The synaptic events of a sequence of updates: before each update the
column `col c` of the cell is sent the weight the cell holds at that moment. -/
def eventsOf (col : Nat → Nat) : List (Nat × (F32 → F32)) → List F32 → List (Nat × F32)
  | [], _ => []
  | w :: ws, l => (col w.1, l.getD w.1 0) :: eventsOf col ws (applyWrite l w)

namespace STDPConnection

/-- What the forward pass makes of the weight `x` of the cell at offset `c`
(lines 126-133). -/
def forwardUpdate (s : STDPConnection) (t : Tick) (c : Nat) (x : F32) : F32 :=
  if s.stdp_active then
    F32.clipBelow (F32.add x (F32.mul s.A (t.tr_post (t.global2rank (s.w.colAt c)))))
      s.min_weight
  else x

/-- What the backward pass makes of the weight `x` of a cell whose source
neuron is `pre` (lines 157-160). -/
def backwardUpdate (s : STDPConnection) (t : Tick) (pre : Nat) (x : F32) : F32 :=
  F32.clipAbove (F32.add x (F32.mul s.B (t.tr_pre pre))) s.max_weight

/-- The offsets the forward pass visits, in order. -/
def forwardCells (s : STDPConnection) (t : Tick) : List Nat :=
  t.src_spikes.flatMap s.w.rowCells

/-- The updates of the forward pass, in order. -/
def forwardWrites (s : STDPConnection) (t : Tick) : List (Nat × (F32 → F32)) :=
  (s.forwardCells t).map (fun c => (c, s.forwardUpdate t c))

/-- The connection after a sequence of updates of the forward pass, each
preceded by its synaptic event. -/
def forwardResult (s : STDPConnection) (ws : List (Nat × (F32 → F32))) : STDPConnection :=
  { s with
    w := { s.w with coldata := applyWrites ws s.w.coldata },
    delivered := s.delivered ++ eventsOf s.w.colAt ws s.w.coldata }

/-- The connection after a sequence of updates of the backward pass. -/
def backwardResult (s : STDPConnection) (ws : List (Nat × (F32 → F32))) : STDPConnection :=
  { s with w := { s.w with coldata := applyWrites ws s.w.coldata } }

/-- The backward elements the backward pass visits, in order. -/
def backwardEntries (s : STDPConnection) (t : Tick) : List BkwEntry :=
  t.dst_spikes_immediate.flatMap s.bkw.rowEntries

/-- The updates a list of backward elements stands for. -/
def writesOf (s : STDPConnection) (t : Tick) (es : List BkwEntry) : List (Nat × (F32 → F32)) :=
  es.filterMap (fun e => e.data.map (fun p => (p, s.backwardUpdate t e.col)))

end STDPConnection

/-- What holds of the cursors and the backward store throughout
`compute_reverse_matrix`: each cursor stays inside its row, and the stored
elements are exactly the forward elements the cursors have passed, each
holding the address of the cell it was read from. -/
structure WalkInv (fwd : ForwardMatrix) (s : Walk) : Prop where
  len : s.rowwalker.length = fwd.m_rows + 1
  lo : ∀ i < fwd.m_rows, fwd.get_rowptr i ≤ s.rowwalker.getD i 0
  hi : ∀ i < fwd.m_rows, s.rowwalker.getD i 0 ≤ fwd.get_rowptr (i + 1)
  sound : ∀ e ∈ s.bkw.entries, e.col < fwd.m_rows ∧
    ∃ k, e.data = some k ∧ fwd.get_rowptr e.col ≤ k ∧ k < s.rowwalker.getD e.col 0 ∧
      fwd.colAt k = e.row ∧ fwd.get_ptr e.col e.row = some k
  complete : ∀ i < fwd.m_rows, ∀ k, fwd.get_rowptr i ≤ k → k < s.rowwalker.getD i 0 →
    (⟨fwd.colAt k, i, some k⟩ : BkwEntry) ∈ s.bkw.entries
  nodup : (s.bkw.entries.map (fun e => e.data)).Nodup

/-- How far the walk has come when the loop over `j` is at column `j` and the
loop over `i` at row `i0`: what a cursor has passed has a column that has
been dealt with. -/
def WalkPassed (fwd : ForwardMatrix) (j i0 : Nat) (s : Walk) : Prop :=
  ∀ i < fwd.m_rows, ∀ k, fwd.get_rowptr i ≤ k → k < s.rowwalker.getD i 0 →
    fwd.colAt k < (if i < i0 then j + 1 else j)

/-- The other half of the progress of the walk, which rows with increasing
columns have: what lies at or after the cursor of a row has a column that is
still to come. -/
def WalkFront (fwd : ForwardMatrix) (j i0 : Nat) (s : Walk) : Prop :=
  ∀ i < fwd.m_rows, ∀ k, s.rowwalker.getD i 0 ≤ k → k < fwd.get_rowptr (i + 1) →
    (if i < i0 then j + 1 else j) ≤ fwd.colAt k

/-- The order of the backward store: element `a` comes before element `b`
when its row (destination column) is smaller, or the rows agree and its
column (source row) is smaller. -/
def BkwEntry.before (a b : BkwEntry) : Prop :=
  a.row < b.row ∨ (a.row = b.row ∧ a.col < b.col)

instance (a b : BkwEntry) : Decidable (a.before b) := by
  unfold BkwEntry.before
  infer_instance

/-- The order of the store when the loop over `j` is at column `j` and the
loop over `i` at row `i0`: the elements are in order and all come before
`(j, i0)`. -/
def WalkOrder (j i0 : Nat) (s : Walk) : Prop :=
  s.bkw.entries.Pairwise BkwEntry.before ∧
    ∀ e ∈ s.bkw.entries, e.row < j ∨ (e.row = j ∧ e.col < i0)

/-- The element at offset `k` of row `i` is one "whose column is not strictly
greater than all earlier columns of the row or whose column is not local to
this rank". -/
def endsMirror (fwd : ForwardMatrix) (localrank : Nat → Bool) (i k : Nat) : Bool :=
  !(decide (∀ k2 ∈ fwd.rowCells i, k2 < k → fwd.colAt k2 < fwd.colAt k) &&
    localrank (fwd.colAt k))

/-- Where the mirrored part of row `i` ends, in the words of the claim about
it: at the first element of the row, in stored order, that `endsMirror`
describes, and at the end of the row when there is none. -/
def mirroredEnd (fwd : ForwardMatrix) (localrank : Nat → Bool) (i : Nat) : Nat :=
  ((fwd.rowCells i).find? (endsMirror fwd localrank i)).getD (fwd.get_row_end i)

/-- The progress of the walk towards `mirroredEnd`: no cursor is beyond it,
and what lies between a cursor and it has a column that is still to come. -/
def WalkAhead (fwd : ForwardMatrix) (localrank : Nat → Bool) (j i0 : Nat) (s : Walk) : Prop :=
  ∀ i < fwd.m_rows, s.rowwalker.getD i 0 ≤ mirroredEnd fwd localrank i ∧
    ∀ k, s.rowwalker.getD i 0 ≤ k → k < mirroredEnd fwd localrank i →
      (if i < i0 then j + 1 else j) ≤ fwd.colAt k

/-- A forward matrix with two rows and eight columns whose rows are not
sorted: row 0 holds the columns `5, 3, 7` and row 1 the columns `1, 2`. -/
def unsortedForward : ForwardMatrix :=
  { m_rows := 2, n_cols := 8, datasize := 5, n_nonzero := 5, rowptrs := [0, 3, 5],
    colinds := [5, 3, 7, 1, 2],
    coldata := [.fin 1, .fin 1, .fin 1, .fin 1, .fin 1] }

/-- A forward matrix with three rows and four columns and the nonzero elements
`(0,1) (0,3) (2,0) (2,1) (2,2)`; row 1 is empty. -/
def sampleForward : ForwardMatrix :=
  { m_rows := 3, n_cols := 4, datasize := 6, n_nonzero := 5, rowptrs := [0, 2, 2, 5],
    colinds := [1, 3, 0, 1, 2],
    coldata := [.fin 1, .fin 1, .fin 1, .fin 1, .fin 1] }

/-- An empty backward matrix for `sampleForward`, as `init()` allocates it. -/
def sampleBackward : BackwardMatrix := BackwardMatrix.build 4 3 5

/-- A plastic connection over `sampleForward` with the mirror that
`compute_reverse_matrix` builds for it, learning rates `1/8` and bounds
`[0, 2]`. -/
def sampleConnection : STDPConnection :=
  { w := sampleForward,
    bkw := (compute_reverse_matrix sampleForward (fun _ => true) sampleBackward []).1,
    A := .fin (1/8), B := .fin (1/8), min_weight := .fin 0, max_weight := .fin 2,
    stdp_active := true,
    delivered := [] }

/-- A plastic connection between two source and two destination neurons with
no synapse at all (density 0). -/
def emptyConnection : STDPConnection :=
  { w := { m_rows := 2, n_cols := 2, datasize := 0, n_nonzero := 0, rowptrs := [0, 0, 0],
           colinds := [], coldata := [] },
    bkw := { m_rows := 2, n_cols := 2, datasize := 0, entries := [] },
    A := .fin (1/8), B := .fin (1/8), min_weight := .fin 0, max_weight := .fin 2,
    stdp_active := true,
    delivered := [] }

/-- A two-neuron connection: one source neuron, one destination neuron and one
synapse of weight `w` between them, with its backward mirror, the learning
rates `A` and `B`, the bounds `[mn, mx]`, and plasticity switched by `act`. -/
def twoNeuron (w A B mn mx : F32) (act : Bool) : STDPConnection :=
  { w := { m_rows := 1, n_cols := 1, datasize := 1, n_nonzero := 1, rowptrs := [0, 1],
           colinds := [0], coldata := [w] },
    bkw := { m_rows := 1, n_cols := 1, datasize := 1, entries := [⟨0, 0, some 0⟩] },
    A := A, B := B, min_weight := mn, max_weight := mx, stdp_active := act, delivered := [] }

/-- A tick in which the neurons listed in `src` and `dst` spike, every
pre-trace has the value `pre` and every post-trace the value `post`. -/
def tickOf (src dst : List Nat) (pre post : F32) : Tick :=
  { src_spikes := src, dst_spikes_immediate := dst, tr_pre := fun _ => pre,
    tr_post := fun _ => post, global2rank := id }

end Auryn

namespace Auryn

namespace F32

/-! ## Rounding to binary32 -/

theorem floor_le_rne (y : ℚ) : ⌊y⌋ ≤ rne y := by
  unfold rne
  split_ifs <;> omega

theorem rne_le_floor_succ (y : ℚ) : rne y ≤ ⌊y⌋ + 1 := by
  unfold rne
  split_ifs <;> omega

theorem rne_int (n : ℤ) : rne (n : ℚ) = n := by
  unfold rne
  simp

/-- Rounding to the nearest integer does not pass an integer below. -/
theorem le_rne {n : ℤ} {y : ℚ} (h : (n : ℚ) ≤ y) : n ≤ rne y :=
  le_trans (Int.le_floor.mpr h) (floor_le_rne y)

/-- Rounding to the nearest integer does not pass an integer above. -/
theorem rne_le {n : ℤ} {y : ℚ} (h : y ≤ (n : ℚ)) : rne y ≤ n := by
  rcases eq_or_lt_of_le h with heq | hlt
  · rw [heq, rne_int]
  · have h1 : ⌊y⌋ < n := Int.floor_lt.mpr hlt
    have := rne_le_floor_succ y
    omega

theorem rne_eq_of_abs_lt {y : ℚ} {k : ℤ} (h : |y - k| < 1 / 2) : rne y = k := by
  rw [abs_lt] at h
  rcases le_or_lt (k : ℚ) y with hle | hlt
  · have hf : ⌊y⌋ = k := by
      rw [Int.floor_eq_iff]
      constructor
      · exact hle
      · linarith [h.2]
    unfold rne
    rw [hf, if_pos (by linarith [h.2])]
  · have hf : ⌊y⌋ = k - 1 := by
      rw [Int.floor_eq_iff]
      push_cast
      constructor
      · linarith [h.1]
      · linarith
    unfold rne
    rw [hf]
    push_cast
    rw [if_neg (by linarith [h.1]), if_pos (by linarith [h.1])]
    ring

theorem two_pos_zpow (e : ℤ) : (0 : ℚ) < (2 : ℚ) ^ e := zpow_pos (by norm_num) e

theorem expo_ge (x : ℚ) : -126 ≤ expo x := le_max_right _ _

theorem lt_expo_succ (x : ℚ) : x < (2 : ℚ) ^ (expo x + 1) := by
  have h1 : x < ((2 : ℕ) : ℚ) ^ (Int.log 2 x + 1) := Int.lt_zpow_succ_log_self (by norm_num) x
  have h2 : ((2 : ℕ) : ℚ) ^ (Int.log 2 x + 1) ≤ ((2 : ℕ) : ℚ) ^ (expo x + 1) :=
    zpow_le_zpow_right₀ (by norm_num) (by unfold expo; exact add_le_add_right (le_max_left _ _) 1)
  have := lt_of_lt_of_le h1 h2
  simpa using this

theorem expo_mono {x y : ℚ} (hx : 0 < x) (h : x ≤ y) : expo x ≤ expo y := by
  unfold expo
  exact max_le_max (Int.log_mono_right hx h) le_rfl

/-- Above the subnormal range the exponent is the true binade of `x`. -/
theorem expo_le_self {x : ℚ} (hx : 0 < x) (h : -126 < expo x) : (2 : ℚ) ^ expo x ≤ x := by
  have he : expo x = Int.log 2 x := by
    unfold expo at h ⊢
    rcases le_total (Int.log 2 x) (-126) with h1 | h1
    · rw [max_eq_right h1] at h; omega
    · exact max_eq_left h1
  rw [he]
  have := Int.zpow_log_le_self (R := ℚ) (b := 2) (by norm_num) hx
  simpa using this

theorem expo_eq {x : ℚ} {e : ℤ} (hx : 0 < x) (he : -126 ≤ e) (h1 : (2 : ℚ) ^ e ≤ x ∨ e = -126)
    (h2 : x < (2 : ℚ) ^ (e + 1)) : expo x = e := by
  have hlt : Int.log 2 x < e + 1 := by
    rw [← Int.lt_zpow_iff_log_lt (by norm_num) hx]
    simpa using h2
  unfold expo
  rcases h1 with h1 | h1
  · have hle : e ≤ Int.log 2 x := by
      rw [← Int.zpow_le_iff_le_log (by norm_num) hx]
      simpa using h1
    rw [max_eq_left (by omega)]
    omega
  · subst h1
    rcases le_total (Int.log 2 x) (-126) with h3 | h3
    · exact max_eq_right h3
    · rw [max_eq_left h3]; omega

/-- The multiple of the quantum that `roundPos` chooses, as a rational. -/
theorem roundPos_cases (x : ℚ) :
    roundPos x = pinf ∨
      (roundPos x = fin ((rne (x / (2 : ℚ) ^ (expo x - 23)) : ℚ) * (2 : ℚ) ^ (expo x - 23)) ∧
        (rne (x / (2 : ℚ) ^ (expo x - 23)) : ℚ) * (2 : ℚ) ^ (expo x - 23) < (2 : ℚ) ^ 128) := by
  unfold roundPos
  split_ifs with h
  · exact Or.inl rfl
  · exact Or.inr ⟨rfl, not_le.mp h⟩

theorem zpow_split (e : ℤ) : (2 : ℚ) ^ (e + 1) = 16777216 * (2 : ℚ) ^ (e - 23) := by
  have h : (2 : ℚ) ^ (e + 1) = (2 : ℚ) ^ (24 : ℤ) * (2 : ℚ) ^ (e - 23) := by
    rw [← zpow_add₀ (by norm_num)]
    congr 1
    ring
  rw [h]
  norm_num

theorem zpow_split' (e : ℤ) : (2 : ℚ) ^ e = 8388608 * (2 : ℚ) ^ (e - 23) := by
  have h : (2 : ℚ) ^ e = (2 : ℚ) ^ (23 : ℤ) * (2 : ℚ) ^ (e - 23) := by
    rw [← zpow_add₀ (by norm_num)]
    congr 1
    ring
  rw [h]
  norm_num

/-- The rounded value of `x` is at most the top of the binade of `x`. -/
theorem rounded_le_top (x : ℚ) :
    (rne (x / (2 : ℚ) ^ (expo x - 23)) : ℚ) * (2 : ℚ) ^ (expo x - 23) ≤ (2 : ℚ) ^ (expo x + 1) := by
  have hu := two_pos_zpow (expo x - 23)
  have h1 : x / (2 : ℚ) ^ (expo x - 23) ≤ ((16777216 : ℤ) : ℚ) := by
    rw [div_le_iff₀ hu]
    push_cast
    rw [← zpow_split]
    exact le_of_lt (lt_expo_succ x)
  have h2 : (rne (x / (2 : ℚ) ^ (expo x - 23)) : ℚ) ≤ ((16777216 : ℤ) : ℚ) := by
    exact_mod_cast rne_le h1
  rw [zpow_split]
  push_cast at h2
  exact mul_le_mul_of_nonneg_right h2 (le_of_lt hu)

/-- Above the subnormal range the rounded value of `x` is at least the bottom
of the binade of `x`. -/
theorem bottom_le_rounded {x : ℚ} (hx : 0 < x) (h : -126 < expo x) :
    (2 : ℚ) ^ expo x ≤ (rne (x / (2 : ℚ) ^ (expo x - 23)) : ℚ) * (2 : ℚ) ^ (expo x - 23) := by
  have hu := two_pos_zpow (expo x - 23)
  have h1 : ((8388608 : ℤ) : ℚ) ≤ x / (2 : ℚ) ^ (expo x - 23) := by
    rw [le_div_iff₀ hu]
    push_cast
    rw [← zpow_split']
    exact expo_le_self hx h
  have h2 : ((8388608 : ℤ) : ℚ) ≤ (rne (x / (2 : ℚ) ^ (expo x - 23)) : ℚ) := by
    exact_mod_cast le_rne h1
  rw [zpow_split']
  push_cast at h2
  exact mul_le_mul_of_nonneg_right h2 (le_of_lt hu)

theorem rounded_nonneg {x : ℚ} (hx : 0 < x) :
    0 ≤ (rne (x / (2 : ℚ) ^ (expo x - 23)) : ℚ) * (2 : ℚ) ^ (expo x - 23) := by
  have hu := two_pos_zpow (expo x - 23)
  have h1 : ((0 : ℤ) : ℚ) ≤ x / (2 : ℚ) ^ (expo x - 23) := by
    simpa using le_of_lt (div_pos hx hu)
  have h2 : ((0 : ℤ) : ℚ) ≤ (rne (x / (2 : ℚ) ^ (expo x - 23)) : ℚ) := by
    exact_mod_cast le_rne h1
  exact mul_nonneg (by simpa using h2) (le_of_lt hu)

/-- Rounding a positive `x` does not pass a binary32 value `m` above it. -/
theorem roundPos_le {x m : ℚ} (hx : 0 < x) (hxm : x ≤ m) (hm : roundPos m = fin m) :
    ∃ r, roundPos x = fin r ∧ 0 ≤ r ∧ r ≤ m := by
  have hmpos : 0 < m := lt_of_lt_of_le hx hxm
  rcases roundPos_cases m with h | ⟨hm1, hm2⟩
  · rw [h] at hm; exact absurd hm (by simp)
  rw [hm] at hm1
  have hmeq := F32.fin.inj hm1
  rw [← hmeq] at hm2
  have hle : (rne (x / (2 : ℚ) ^ (expo x - 23)) : ℚ) * (2 : ℚ) ^ (expo x - 23) ≤ m := by
    rcases eq_or_lt_of_le (expo_mono hx hxm) with he | he
    · have hu := two_pos_zpow (expo m - 23)
      rw [he]
      have h1 : x / (2 : ℚ) ^ (expo m - 23) ≤
          ((rne (m / (2 : ℚ) ^ (expo m - 23)) : ℤ) : ℚ) := by
        rw [div_le_iff₀ hu, ← hmeq]
        exact hxm
      have h2 : (rne (x / (2 : ℚ) ^ (expo m - 23)) : ℚ) ≤
          ((rne (m / (2 : ℚ) ^ (expo m - 23)) : ℤ) : ℚ) := by
        exact_mod_cast rne_le h1
      calc (rne (x / (2 : ℚ) ^ (expo m - 23)) : ℚ) * (2 : ℚ) ^ (expo m - 23)
          ≤ (rne (m / (2 : ℚ) ^ (expo m - 23)) : ℚ) * (2 : ℚ) ^ (expo m - 23) :=
            mul_le_mul_of_nonneg_right h2 (le_of_lt hu)
        _ = m := hmeq.symm
    · have h1 := rounded_le_top x
      have h2 : (2 : ℚ) ^ (expo x + 1) ≤ (2 : ℚ) ^ expo m :=
        zpow_le_zpow_right₀ (by norm_num) (by omega)
      have h3 := expo_le_self hmpos (lt_of_le_of_lt (expo_ge x) he)
      linarith
  rcases roundPos_cases x with h | ⟨hx1, -⟩
  · exfalso
    unfold roundPos at h
    split_ifs at h with hov
    linarith
  · exact ⟨_, hx1, rounded_nonneg hx, hle⟩

/-- Rounding a positive `x` does not pass a positive binary32 value `m`
below it. -/
theorem le_roundPos {x m : ℚ} (hm0 : 0 < m) (hmx : m ≤ x) (hm : roundPos m = fin m) :
    roundPos x = pinf ∨ ∃ r, roundPos x = fin r ∧ m ≤ r := by
  have hx : 0 < x := lt_of_lt_of_le hm0 hmx
  rcases roundPos_cases m with h | ⟨hm1, -⟩
  · rw [h] at hm; exact absurd hm (by simp)
  rw [hm] at hm1
  have hmeq := F32.fin.inj hm1
  rcases roundPos_cases x with h | ⟨hx1, -⟩
  · exact Or.inl h
  refine Or.inr ⟨_, hx1, ?_⟩
  rcases eq_or_lt_of_le (expo_mono hm0 hmx) with he | he
  · have hu := two_pos_zpow (expo x - 23)
    rw [he] at hmeq
    have h1 : ((rne (m / (2 : ℚ) ^ (expo x - 23)) : ℤ) : ℚ) ≤ x / (2 : ℚ) ^ (expo x - 23) := by
      rw [le_div_iff₀ hu, ← hmeq]
      exact hmx
    have h2 : ((rne (m / (2 : ℚ) ^ (expo x - 23)) : ℤ) : ℚ) ≤
        (rne (x / (2 : ℚ) ^ (expo x - 23)) : ℚ) := by
      exact_mod_cast le_rne h1
    calc m = (rne (m / (2 : ℚ) ^ (expo x - 23)) : ℚ) * (2 : ℚ) ^ (expo x - 23) := hmeq
      _ ≤ (rne (x / (2 : ℚ) ^ (expo x - 23)) : ℚ) * (2 : ℚ) ^ (expo x - 23) :=
          mul_le_mul_of_nonneg_right h2 (le_of_lt hu)
  · have h1 := bottom_le_rounded hx (lt_of_le_of_lt (expo_ge m) he)
    have h2 : (2 : ℚ) ^ (expo m + 1) ≤ (2 : ℚ) ^ expo x :=
      zpow_le_zpow_right₀ (by norm_num) (by omega)
    have h3 := lt_expo_succ m
    linarith

end F32

namespace F32

theorem neg_twice (x : F32) : neg (neg x) = x := by
  cases x <;> simp [neg]

theorem round_zero : round 0 = fin 0 := by
  simp [round]

theorem round_pos {x : ℚ} (h : 0 < x) : round x = roundPos x := by
  unfold round
  rw [if_neg (ne_of_gt h), if_pos h]

theorem round_neg (x : ℚ) : round (-x) = neg (round x) := by
  rcases lt_trichotomy x 0 with h | h | h
  · have h1 : 0 < -x := by linarith
    rw [round_pos h1]
    unfold round
    rw [if_neg (ne_of_lt h), if_neg (not_lt.mpr (le_of_lt h)), neg_twice]
  · subst h
    simp [round, neg]
  · rw [round_pos h]
    unfold round
    have h1 : ¬ (-x = 0) := by intro h2; linarith
    have h3 : ¬ (0 < -x) := by linarith
    rw [if_neg h1, if_neg h3, neg_neg]

theorem le_neg_neg (a b : F32) : le (neg a) (neg b) = le b a := by
  cases a <;> cases b <;> simp [le, neg]

theorem le_nan_left (a b : F32) (h : le a b = true) : a ≠ nan := by
  intro ha
  subst ha
  cases b <;> simp [le] at h

theorem le_nan_right (a b : F32) (h : le a b = true) : b ≠ nan := by
  intro hb
  subst hb
  cases a <;> simp [le] at h

/-- Rounding does not pass a binary32 value `m` above the exact result. -/
theorem round_le {x m : ℚ} (hxm : x ≤ m) (hm : round m = fin m) :
    le (round x) (fin m) = true := by
  rcases lt_trichotomy x 0 with hx | hx | hx
  · have hx1 : 0 < -x := by linarith
    have hr : round x = neg (roundPos (-x)) := by
      rw [← round_pos hx1, round_neg, neg_twice]
    rw [hr]
    rcases le_or_lt 0 m with hm0 | hm0
    · rcases roundPos_cases (-x) with h | ⟨h, -⟩
      · rw [h]; simp [le, neg]
      · rw [h]
        have := rounded_nonneg hx1
        simp only [le, neg, decide_eq_true_eq]
        linarith
    · have hm1 : 0 < -m := by linarith
      have hmr : roundPos (-m) = fin (-m) := by
        rw [← round_pos hm1, round_neg, hm]; rfl
      rcases le_roundPos (x := -x) hm1 (by linarith) hmr with h | ⟨r, h, hr2⟩
      · rw [h]; simp [le, neg]
      · rw [h]
        simp only [le, neg, decide_eq_true_eq]
        linarith
  · subst hx
    rw [round_zero]
    simpa [le] using hxm
  · have hm0 : 0 < m := lt_of_lt_of_le hx hxm
    rw [round_pos hx]
    obtain ⟨r, h, -, hr2⟩ := roundPos_le hx hxm (by rw [← round_pos hm0]; exact hm)
    rw [h]
    simpa [le] using hr2

/-- Rounding does not pass a binary32 value `m` below the exact result. -/
theorem le_round {x m : ℚ} (hmx : m ≤ x) (hm : round m = fin m) :
    le (fin m) (round x) = true := by
  have h1 : round (-m) = fin (-m) := by rw [round_neg, hm]; rfl
  have h2 := round_le (x := -x) (m := -m) (by linarith) h1
  rw [round_neg, show fin (-m) = neg (fin m) from rfl, le_neg_neg] at h2
  exact h2

/-- How to evaluate `round` at a positive rational: name the exponent `e` and
the integer `k` nearest to `x / 2 ^ (e - 23)`. -/
theorem round_eq {x : ℚ} (e k : ℤ) (hx : 0 < x) (he : -126 ≤ e)
    (h1 : (2 : ℚ) ^ e ≤ x ∨ e = -126) (h2 : x < (2 : ℚ) ^ (e + 1))
    (hk : |x / (2 : ℚ) ^ (e - 23) - k| < 1 / 2)
    (hov : (k : ℚ) * (2 : ℚ) ^ (e - 23) < (2 : ℚ) ^ 128) :
    round x = fin ((k : ℚ) * (2 : ℚ) ^ (e - 23)) := by
  rw [round_pos hx]
  unfold roundPos
  rw [expo_eq hx he h1 h2, rne_eq_of_abs_lt hk, if_neg (not_le.mpr hov)]

/-- The sum of a value not above the binary32 value `m` and a value that is
not positive is not above `m`. -/
theorem add_le_of_nonpos {w d : F32} {m : ℚ} (hm : round m = fin m)
    (hw : le w (fin m) = true) (hd : le d 0 = true) : le (add w d) (fin m) = true := by
  cases w with
  | fin q =>
    cases d with
    | fin c =>
      have h1 : q ≤ m := by simpa [le] using hw
      have h2 : c ≤ 0 := by
        have : le (fin c) (fin 0) = true := hd
        simpa [le] using this
      exact round_le (by linarith) hm
    | pinf => exact absurd hd (by simp [le, show (0 : F32) = fin 0 from rfl])
    | ninf => simp [add, le]
    | nan => exact absurd hd (by simp [le])
  | pinf => exact absurd hw (by simp [le])
  | ninf =>
    cases d with
    | fin c => simp [add, le]
    | pinf => exact absurd hd (by simp [le, show (0 : F32) = fin 0 from rfl])
    | ninf => simp [add, le]
    | nan => exact absurd hd (by simp [le])
  | nan => exact absurd hw (by simp [le])

/-- The sum of a value not below the binary32 value `m` and a value that is
not negative is not below `m`. -/
theorem le_add_of_nonneg {w d : F32} {m : ℚ} (hm : round m = fin m)
    (hw : le (fin m) w = true) (hd : le 0 d = true) : le (fin m) (add w d) = true := by
  cases w with
  | fin q =>
    cases d with
    | fin c =>
      have h1 : m ≤ q := by simpa [le] using hw
      have h2 : 0 ≤ c := by
        have : le (fin 0) (fin c) = true := hd
        simpa [le] using this
      exact le_round (by linarith) hm
    | pinf => simp [add, le]
    | ninf => exact absurd hd (by simp [le, show (0 : F32) = fin 0 from rfl])
    | nan => exact absurd hd (by simp [le, show (0 : F32) = fin 0 from rfl])
  | pinf =>
    cases d with
    | fin c => simp [add, le]
    | pinf => simp [add, le]
    | ninf => exact absurd hd (by simp [le, show (0 : F32) = fin 0 from rfl])
    | nan => exact absurd hd (by simp [le, show (0 : F32) = fin 0 from rfl])
  | ninf => exact absurd hw (by simp [le])
  | nan => exact absurd hw (by simp [le])

/-- The product of two finite values has the sign of the exact product. -/
theorem mul_nonneg_of {a p : ℚ} (h : 0 ≤ a * p) : le 0 (mul (fin a) (fin p)) = true :=
  le_round h round_zero

theorem mul_nonpos_of {a p : ℚ} (h : a * p ≤ 0) : le (mul (fin a) (fin p)) 0 = true :=
  round_le h round_zero

theorem le_of_lt_false {x : F32} {m : ℚ} (hx : x ≠ nan) (h : lt x (fin m) = false) :
    le (fin m) x = true := by
  cases x with
  | fin q => simp only [lt, decide_eq_false_iff_not, not_lt] at h; simpa [le] using h
  | pinf => simp [le]
  | ninf => simp [lt] at h
  | nan => exact absurd rfl hx

theorem le_of_gt_false {x : F32} {m : ℚ} (hx : x ≠ nan) (h : lt (fin m) x = false) :
    le x (fin m) = true := by
  cases x with
  | fin q => simp only [lt, decide_eq_false_iff_not, not_lt] at h; simpa [le] using h
  | pinf => simp [lt] at h
  | ninf => simp [le]
  | nan => exact absurd rfl hx

theorem le_refl_fin (m : ℚ) : le (fin m) (fin m) = true := by
  simp [le]

/-- Clipping a number from below at a finite `mn` leaves it not below `mn`. -/
theorem le_clipBelow {x : F32} {mn : ℚ} (hx : x ≠ nan) :
    le (fin mn) (clipBelow x (fin mn)) = true := by
  unfold clipBelow
  split_ifs with h
  · exact le_refl_fin mn
  · exact le_of_lt_false hx (by simpa using h)

theorem clipBelow_le {x mn mx : F32} (hx : le x mx = true) (hmm : le mn mx = true) :
    le (clipBelow x mn) mx = true := by
  unfold clipBelow
  split_ifs
  · exact hmm
  · exact hx

/-- Clipping a number from above at a finite `mx` leaves it not above `mx`. -/
theorem clipAbove_le {x : F32} {mx : ℚ} (hx : x ≠ nan) :
    le (clipAbove x (fin mx)) (fin mx) = true := by
  unfold clipAbove
  split_ifs with h
  · exact le_refl_fin mx
  · exact le_of_gt_false hx (by simpa using h)

theorem le_clipAbove {x mn mx : F32} (hx : le mn x = true) (hmm : le mn mx = true) :
    le mn (clipAbove x mx) = true := by
  unfold clipAbove
  split_ifs
  · exact hmm
  · exact hx

theorem clipBelow_fin (x m : ℚ) : clipBelow (fin x) (fin m) = fin (max x m) := by
  unfold clipBelow lt
  rw [max_def]
  by_cases h : x < m
  · simp [h, le_of_lt h]
  · rcases eq_or_lt_of_le (not_lt.mp h) with h2 | h2
    · simp [h2]
    · simp [h, not_le.mpr h2]

theorem clipAbove_fin (x m : ℚ) : clipAbove (fin x) (fin m) = fin (min x m) := by
  unfold clipAbove lt
  rw [min_def]
  by_cases h : m < x
  · simp [h, not_le.mpr h]
  · simp [h, not_lt.mp h]

theorem isFinite_exists {x : F32} (h : x.IsFinite) : ∃ q, x = fin q := by
  cases x with
  | fin q => exact ⟨q, rfl⟩
  | pinf => exact absurd h (by simp [IsFinite])
  | ninf => exact absurd h (by simp [IsFinite])
  | nan => exact absurd h (by simp [IsFinite])

/-- How to evaluate `round` at a positive rational, with the value named. -/
theorem round_eval {x r : ℚ} (e k : ℤ) (hx : 0 < x) (he : -126 ≤ e)
    (h1 : (2 : ℚ) ^ e ≤ x ∨ e = -126) (h2 : x < (2 : ℚ) ^ (e + 1))
    (hk : |x / (2 : ℚ) ^ (e - 23) - k| < 1 / 2)
    (hov : (k : ℚ) * (2 : ℚ) ^ (e - 23) < (2 : ℚ) ^ 128)
    (hr : r = (k : ℚ) * (2 : ℚ) ^ (e - 23)) : round x = fin r := by
  rw [hr]
  exact round_eq e k hx he h1 h2 hk hov

theorem rne_tie_even {y : ℚ} {k : ℤ} (h : y = k + 1 / 2) (hk : k % 2 = 0) : rne y = k := by
  have hf : ⌊y⌋ = k := by
    rw [Int.floor_eq_iff]
    constructor <;> linarith
  unfold rne
  rw [hf, if_neg (by rw [h]; norm_num), if_neg (by rw [h]; norm_num), if_pos hk]

/-- How to evaluate `round` at a positive rational half way between two
binary32 values: the one with the even significand is taken. -/
theorem round_eval_tie {x r : ℚ} (e k : ℤ) (hx : 0 < x) (he : -126 ≤ e)
    (h1 : (2 : ℚ) ^ e ≤ x ∨ e = -126) (h2 : x < (2 : ℚ) ^ (e + 1))
    (hk : x / (2 : ℚ) ^ (e - 23) = k + 1 / 2) (hev : k % 2 = 0)
    (hov : (k : ℚ) * (2 : ℚ) ^ (e - 23) < (2 : ℚ) ^ 128)
    (hr : r = (k : ℚ) * (2 : ℚ) ^ (e - 23)) : round x = fin r := by
  rw [hr, round_pos hx]
  unfold roundPos
  rw [expo_eq hx he h1 h2, rne_tie_even hk hev, if_neg (not_le.mpr hov)]

theorem isRep_exists {x : F32} (h : x.IsRep) : ∃ q, x = fin q ∧ round q = fin q := by
  cases x with
  | fin q => exact ⟨q, rfl, h⟩
  | pinf => exact absurd h (by simp [IsRep])
  | ninf => exact absurd h (by simp [IsRep])
  | nan => exact absurd h (by simp [IsRep])

end F32

/-! ## Loops over `0 .. n-1` -/

theorem foldl_range_inv {σ : Type} (f : σ → Nat → σ) (P : Nat → σ → Prop) (n : Nat) (s0 : σ)
    (h0 : P 0 s0) (hstep : ∀ i s, i < n → P i s → P (i + 1) (f s i)) :
    P n ((List.range n).foldl f s0) := by
  induction n with
  | zero => simpa using h0
  | succ n ih =>
    rw [List.range_succ, List.foldl_append]
    simp only [List.foldl_cons, List.foldl_nil]
    exact hstep n _ (Nat.lt_succ_self n)
      (ih (fun i s hi hP => hstep i s (Nat.lt_succ_of_lt hi) hP))

theorem getD_set_self {α : Type} (l : List α) (i : Nat) (v d : α) (h : i < l.length) :
    (l.set i v).getD i d = v := by
  simp [List.getD_eq_getElem?_getD, List.getElem?_set, h]

theorem getD_set_other {α : Type} (l : List α) (i i2 : Nat) (v d : α) (h : i ≠ i2) :
    (l.set i v).getD i2 d = l.getD i2 d := by
  simp [List.getD_eq_getElem?_getD, List.getElem?_set_ne h]

/-! ## The forward matrix -/

namespace ForwardMatrix

theorem mem_rowCells (m : ForwardMatrix) (i k : Nat) :
    k ∈ m.rowCells i ↔ m.get_rowptr i ≤ k ∧ k < m.get_rowptr (i + 1) := by
  unfold rowCells get_row_begin get_row_end
  rw [List.mem_range'_1]
  omega

theorem WF.rowptr_mono {m : ForwardMatrix} (h : m.WF) {a b : Nat} (hab : a ≤ b)
    (hb : b ≤ m.m_rows) : m.get_rowptr a ≤ m.get_rowptr b := by
  obtain ⟨hlen, hpw, -⟩ := h
  rcases Nat.eq_or_lt_of_le hab with rfl | hlt
  · exact le_rfl
  · unfold get_rowptr
    have hb2 : b < m.rowptrs.length := by omega
    have ha2 : a < m.rowptrs.length := by omega
    rw [List.getD_eq_getElem _ _ hb2, List.getD_eq_getElem _ _ ha2]
    exact List.pairwise_iff_getElem.mp hpw a b ha2 hb2 hlt

theorem WF.cell_lt {m : ForwardMatrix} (h : m.WF) {i k : Nat} (hi : i < m.m_rows)
    (hk : k < m.get_rowptr (i + 1)) : k < m.n_nonzero := by
  have h1 := h.rowptr_mono (a := i + 1) (b := m.m_rows) hi le_rfl
  have h2 := h.2.2.2.1
  omega

theorem WF.colAt_lt {m : ForwardMatrix} (h : m.WF) {k : Nat} (hk : k < m.n_nonzero) :
    m.colAt k < m.n_cols := by
  obtain ⟨-, -, -, -, hc, -, -, hcol⟩ := h
  unfold colAt
  have hk2 : k < m.colinds.length := by omega
  rw [List.getD_eq_getElem _ _ hk2]
  exact hcol _ (List.getElem_mem _)

end ForwardMatrix

end Auryn

namespace Auryn

/-! ## `compute_reverse_matrix` -/

theorem find?_range'_first (p : Nat → Bool) (n a c : Nat) (hac : a ≤ c) (hcn : c < a + n)
    (hpc : p c = true) (hbefore : ∀ k, a ≤ k → k < c → p k = false) :
    (List.range' a n).find? p = some c := by
  induction n generalizing a with
  | zero => omega
  | succ n ih =>
    rw [List.range'_succ, List.find?_cons]
    rcases Nat.eq_or_lt_of_le hac with rfl | hlt
    · simp [hpc]
    · rw [hbefore a le_rfl hlt]
      exact ih (a + 1) hlt (by omega) (fun k hk hkc => hbefore k (by omega) hkc)

theorem get_ptr_cursor (fwd : ForwardMatrix) (i j c : Nat)
    (hlo : fwd.get_rowptr i ≤ c) (hhi : c < fwd.get_rowptr (i + 1)) (hc : fwd.colAt c = j)
    (hbefore : ∀ k, fwd.get_rowptr i ≤ k → k < c → fwd.colAt k < j) :
    fwd.get_ptr i j = some c := by
  unfold ForwardMatrix.get_ptr ForwardMatrix.rowCells ForwardMatrix.get_row_begin
    ForwardMatrix.get_row_end
  apply find?_range'_first _ _ _ _ hlo (by omega) (by simpa using hc)
  intro k hk hkc
  have := hbefore k hk hkc
  simp only [beq_eq_false_iff_ne, ne_eq]
  omega

theorem walkRow_inv (fwd : ForwardMatrix) (hwf : fwd.WF) (j i0 : Nat) (s : Walk)
    (hi0 : i0 < fwd.m_rows) (inv : WalkInv fwd s) (ps : WalkPassed fwd j i0 s) :
    WalkInv fwd (walkRow fwd j s i0) ∧ WalkPassed fwd j (i0 + 1) (walkRow fwd j s i0) := by
  have hlen : i0 < s.rowwalker.length := by rw [inv.len]; omega
  unfold walkRow
  split_ifs with h1 h2
  · -- the cursor of row `i0` is at an element of column `j`
    have hptr : fwd.get_ptr i0 j = some (s.rowwalker.getD i0 0) :=
      get_ptr_cursor fwd i0 j _ (inv.lo i0 hi0) h1 h2
        (fun k hk hkc => by simpa using ps i0 hi0 k hk hkc)
    have hcur : ∀ i, (s.rowwalker.set i0 (s.rowwalker.getD i0 0 + 1)).getD i 0 =
        if i = i0 then s.rowwalker.getD i0 0 + 1 else s.rowwalker.getD i 0 := by
      intro i
      by_cases hi : i = i0
      · subst hi; simp only [if_true]; exact getD_set_self _ _ _ _ hlen
      · simp only [hi, if_false]; exact getD_set_other _ _ _ _ _ (Ne.symm hi)
    refine ⟨⟨?_, ?_, ?_, ?_, ?_, ?_⟩, ?_⟩
    · simpa using inv.len
    · intro i hi
      simp only [hcur]
      have := inv.lo i hi
      split_ifs with hii
      · subst hii; omega
      · exact this
    · intro i hi
      simp only [hcur]
      have := inv.hi i hi
      split_ifs with hii
      · subst hii; omega
      · exact this
    · intro e he
      simp only [BackwardMatrix.push_back, List.mem_append, List.mem_singleton] at he
      simp only [hcur]
      rcases he with he | rfl
      · obtain ⟨hc, k, hk1, hk2, hk3, hk4⟩ := inv.sound e he
        refine ⟨hc, k, hk1, hk2, ?_, hk4⟩
        split_ifs with hii
        · rw [hii] at hk3; omega
        · exact hk3
      · exact ⟨hi0, _, hptr, inv.lo i0 hi0, by simp, h2, hptr⟩
    · intro i hi k hk1 hk2
      simp only [hcur] at hk2
      simp only [BackwardMatrix.push_back, List.mem_append, List.mem_singleton]
      by_cases hii : i = i0
      · subst hii
        simp only [if_true] at hk2
        rcases Nat.eq_or_lt_of_le (Nat.le_of_lt_succ hk2) with hkc | hkc
        · right; rw [hptr, hkc, h2]
        · left; exact inv.complete i hi k hk1 hkc
      · simp only [hii, if_false] at hk2
        left; exact inv.complete i hi k hk1 hk2
    · simp only [BackwardMatrix.push_back, List.map_append, List.map_cons, List.map_nil]
      rw [List.nodup_append]
      refine ⟨inv.nodup, by simp, ?_⟩
      intro x hx1 hx2
      simp only [List.mem_singleton] at hx2
      subst hx2
      obtain ⟨e, he, hex⟩ := List.mem_map.mp hx1
      obtain ⟨hc, k, hk1, hk2, hk3, -⟩ := inv.sound e he
      rw [hptr] at hex
      rw [hk1] at hex
      have hkc : k = s.rowwalker.getD i0 0 := Option.some.inj hex
      have hlo0 := inv.lo i0 hi0
      have hhi := inv.hi e.col hc
      rcases Nat.lt_trichotomy e.col i0 with hlt | heq | hgt
      · have := hwf.rowptr_mono (a := e.col + 1) (b := i0) hlt (le_of_lt hi0)
        omega
      · rw [heq] at hk3; omega
      · have := hwf.rowptr_mono (a := i0 + 1) (b := e.col) hgt (le_of_lt hc)
        omega
    · intro i hi k hk1 hk2
      simp only [hcur] at hk2
      by_cases hii : i = i0
      · subst hii
        simp only [if_true] at hk2
        simp only [Nat.lt_succ_self, if_true]
        rcases Nat.eq_or_lt_of_le (Nat.le_of_lt_succ hk2) with hkc | hkc
        · rw [hkc, h2]; omega
        · have := ps i hi k hk1 hkc
          simp only [lt_irrefl, if_false] at this
          omega
      · simp only [hii, if_false] at hk2
        have := ps i hi k hk1 hk2
        have hiff : (i < i0 + 1) ↔ (i < i0) := by omega
        simpa only [hiff] using this
  all_goals
    refine ⟨inv, ?_⟩
    intro i hi k hk1 hk2
    have := ps i hi k hk1 hk2
    by_cases hii : i = i0
    · subst hii
      simp only [lt_irrefl, if_false] at this
      simp only [Nat.lt_succ_self, if_true]
      omega
    · have hiff : (i < i0 + 1) ↔ (i < i0) := by omega
      simpa only [hiff] using this

end Auryn

namespace Auryn

theorem walkRow_front (fwd : ForwardMatrix) (hs : fwd.RowsSorted) (j i0 : Nat) (s : Walk)
    (hi0 : i0 < fwd.m_rows) (inv : WalkInv fwd s) (fr : WalkFront fwd j i0 s) :
    WalkFront fwd j (i0 + 1) (walkRow fwd j s i0) := by
  have hlen : i0 < s.rowwalker.length := by rw [inv.len]; omega
  have hother : ∀ i, i ≠ i0 → ((i < i0 + 1) ↔ (i < i0)) := fun i hi => by omega
  have hrow : ∀ k, s.rowwalker.getD i0 0 ≤ k → k < fwd.get_rowptr (i0 + 1) →
      fwd.colAt k ≠ j → j + 1 ≤ fwd.colAt k := by
    intro k hk1 hk2 hne
    have h0 := fr i0 hi0 k hk1 hk2
    simp only [lt_irrefl, if_false] at h0
    omega
  unfold walkRow
  split_ifs with h1 h2
  · intro i hi k hk1 hk2
    by_cases hii : i = i0
    · subst hii
      rw [getD_set_self _ _ _ _ hlen] at hk1
      simp only [Nat.lt_succ_self, if_true]
      have hlo := inv.lo i hi
      have := hs i hi (s.rowwalker.getD i 0) ((fwd.mem_rowCells _ _).2 ⟨hlo, h1⟩) k
        ((fwd.mem_rowCells _ _).2 ⟨by omega, hk2⟩) (by omega)
      omega
    · rw [getD_set_other _ _ _ _ _ (Ne.symm hii)] at hk1
      simpa only [hother i hii] using fr i hi k hk1 hk2
  · intro i hi k hk1 hk2
    by_cases hii : i = i0
    · subst hii
      simp only [Nat.lt_succ_self, if_true]
      rcases Nat.eq_or_lt_of_le hk1 with hkc | hkc
      · exact hrow k hk1 hk2 (by rw [← hkc]; exact h2)
      · have hlo := inv.lo i hi
        have := hs i hi (s.rowwalker.getD i 0) ((fwd.mem_rowCells _ _).2 ⟨hlo, h1⟩) k
          ((fwd.mem_rowCells _ _).2 ⟨by omega, hk2⟩) hkc
        have h0 := fr i hi _ le_rfl h1
        simp only [lt_irrefl, if_false] at h0
        omega
    · simpa only [hother i hii] using fr i hi k hk1 hk2
  · intro i hi k hk1 hk2
    by_cases hii : i = i0
    · subst hii; omega
    · simpa only [hother i hii] using fr i hi k hk1 hk2

theorem walkCol_inv (fwd : ForwardMatrix) (hwf : fwd.WF) (localrank : Nat → Bool) (j : Nat)
    (s : Walk) (inv : WalkInv fwd s) (ps : WalkPassed fwd j 0 s) :
    WalkInv fwd (walkCol fwd localrank fwd.m_rows s j) ∧
      WalkPassed fwd (j + 1) 0 (walkCol fwd localrank fwd.m_rows s j) := by
  have key : ∀ s2, WalkInv fwd s2 ∧ WalkPassed fwd j fwd.m_rows s2 →
      WalkInv fwd s2 ∧ WalkPassed fwd (j + 1) 0 s2 := by
    rintro s2 ⟨h1, h2⟩
    refine ⟨h1, fun i hi k hk1 hk2 => ?_⟩
    have := h2 i hi k hk1 hk2
    simpa [hi] using this
  unfold walkCol
  split_ifs with hl
  · apply key
    exact foldl_range_inv (walkRow fwd j)
      (fun i s2 => WalkInv fwd s2 ∧ WalkPassed fwd j i s2) fwd.m_rows s ⟨inv, ps⟩
      (fun i s2 hi h => walkRow_inv fwd hwf j i s2 hi h.1 h.2)
  · refine ⟨inv, fun i hi k hk1 hk2 => ?_⟩
    have := ps i hi k hk1 hk2
    simp only [Nat.not_lt_zero, if_false] at this ⊢
    omega

theorem walkCol_front (fwd : ForwardMatrix) (hwf : fwd.WF) (hs : fwd.RowsSorted)
    (localrank : Nat → Bool) (j : Nat) (hl : localrank j = true)
    (s : Walk) (inv : WalkInv fwd s) (ps : WalkPassed fwd j 0 s) (fr : WalkFront fwd j 0 s) :
    WalkFront fwd (j + 1) 0 (walkCol fwd localrank fwd.m_rows s j) := by
  unfold walkCol
  rw [if_pos hl]
  have h := foldl_range_inv (walkRow fwd j)
    (fun i s2 => (WalkInv fwd s2 ∧ WalkPassed fwd j i s2) ∧ WalkFront fwd j i s2) fwd.m_rows s
    ⟨⟨inv, ps⟩, fr⟩
    (fun i s2 hi h => ⟨walkRow_inv fwd hwf j i s2 hi h.1.1 h.1.2,
      walkRow_front fwd hs j i s2 hi h.1.1 h.2⟩)
  intro i hi k hk1 hk2
  have := h.2 i hi k hk1 hk2
  simpa [hi] using this

theorem walk_start (fwd : ForwardMatrix) (hwf : fwd.WF) (bkw : BackwardMatrix)
    (hb : bkw.entries = []) :
    let s : Walk := { rowwalker := (List.range (fwd.m_rows + 1)).map fwd.get_rowptr, bkw := bkw }
    WalkInv fwd s ∧ WalkPassed fwd 0 0 s ∧ WalkFront fwd 0 0 s := by
  intro s
  have hcur : ∀ i, i < fwd.m_rows → s.rowwalker.getD i 0 = fwd.get_rowptr i := by
    intro i hi
    simp only [s, List.getD_eq_getElem?_getD]
    rw [List.getElem?_map, List.getElem?_range (by omega)]
    rfl
  refine ⟨⟨by simp [s], ?_, ?_, ?_, ?_, ?_⟩, ?_, ?_⟩
  · intro i hi; rw [hcur i hi]
  · intro i hi; rw [hcur i hi]; exact hwf.rowptr_mono (Nat.le_succ i) hi
  · intro e he; simp [s, hb] at he
  · intro i hi k hk1 hk2; rw [hcur i hi] at hk2; omega
  · simp [s, hb]
  · intro i hi k hk1 hk2; rw [hcur i hi] at hk2; omega
  · intro i hi k _ _; simp

/-- The walk of `compute_reverse_matrix` over any forward matrix and any
column ownership, begun on an empty store. -/
theorem reverseWalk_inv (fwd : ForwardMatrix) (hwf : fwd.WF) (localrank : Nat → Bool)
    (bkw : BackwardMatrix) (hb : bkw.entries = []) :
    WalkInv fwd (reverseWalk fwd localrank bkw) ∧
      WalkPassed fwd fwd.n_cols 0 (reverseWalk fwd localrank bkw) := by
  unfold reverseWalk
  exact foldl_range_inv (walkCol fwd localrank fwd.m_rows)
    (fun j s => WalkInv fwd s ∧ WalkPassed fwd j 0 s) fwd.n_cols _
    ⟨(walk_start fwd hwf bkw hb).1, (walk_start fwd hwf bkw hb).2.1⟩
    (fun j s _ h => walkCol_inv fwd hwf localrank j s h.1 h.2)

/-- With increasing columns in every row and every column local, every cursor
ends at the end of its row. -/
theorem reverseWalk_done (fwd : ForwardMatrix) (hwf : fwd.WF) (hs : fwd.RowsSorted)
    (localrank : Nat → Bool) (hloc : ∀ j < fwd.n_cols, localrank j = true)
    (bkw : BackwardMatrix) (hb : bkw.entries = []) :
    ∀ i < fwd.m_rows, (reverseWalk fwd localrank bkw).rowwalker.getD i 0 = fwd.get_rowptr (i + 1) := by
  have h : (WalkInv fwd (reverseWalk fwd localrank bkw) ∧
      WalkPassed fwd fwd.n_cols 0 (reverseWalk fwd localrank bkw)) ∧
      WalkFront fwd fwd.n_cols 0 (reverseWalk fwd localrank bkw) := by
    unfold reverseWalk
    exact foldl_range_inv (walkCol fwd localrank fwd.m_rows)
      (fun j s => (WalkInv fwd s ∧ WalkPassed fwd j 0 s) ∧ WalkFront fwd j 0 s) fwd.n_cols _
      ⟨⟨(walk_start fwd hwf bkw hb).1, (walk_start fwd hwf bkw hb).2.1⟩,
        (walk_start fwd hwf bkw hb).2.2⟩
      (fun j s hj h => ⟨walkCol_inv fwd hwf localrank j s h.1.1 h.1.2,
        walkCol_front fwd hwf hs localrank j (hloc j hj) s h.1.1 h.1.2 h.2⟩)
  intro i hi
  have hhi := h.1.1.hi i hi
  by_contra hne
  have hlt : (reverseWalk fwd localrank bkw).rowwalker.getD i 0 < fwd.get_rowptr (i + 1) := by
    omega
  have h1 := h.2 i hi _ le_rfl hlt
  simp only [Nat.not_lt_zero, if_false] at h1
  have h2 := hwf.colAt_lt (hwf.cell_lt hi hlt)
  omega

end Auryn

namespace Auryn

theorem ForwardMatrix.WF.row_of_cell {m : ForwardMatrix} (h : m.WF) {k : Nat}
    (hk : k < m.n_nonzero) :
    ∃ i < m.m_rows, m.get_rowptr i ≤ k ∧ k < m.get_rowptr (i + 1) := by
  have key : ∀ n, n ≤ m.m_rows → k < m.get_rowptr n →
      ∃ i < n, m.get_rowptr i ≤ k ∧ k < m.get_rowptr (i + 1) := by
    intro n
    induction n with
    | zero =>
      intro _ h0
      rw [h.2.2.1] at h0
      omega
    | succ n ih =>
      intro hn hkn
      by_cases hlt : k < m.get_rowptr n
      · obtain ⟨i, hi, hik⟩ := ih (by omega) hlt
        exact ⟨i, by omega, hik⟩
      · exact ⟨n, by omega, by omega, hkn⟩
  exact key m.m_rows le_rfl (by rw [h.2.2.2.1]; exact hk)

/-- What `compute_reverse_matrix` leaves in the backward matrix is the store
of the walk begun on an emptied store. -/
theorem compute_reverse_matrix_fst (fwd : ForwardMatrix) (localrank : Nat → Bool)
    (bkw : BackwardMatrix) (log : List LogMessageType) :
    ∃ b0 : BackwardMatrix, b0.entries = [] ∧
      (compute_reverse_matrix fwd localrank bkw log).1 = (reverseWalk fwd localrank b0).bkw := by
  unfold compute_reverse_matrix
  by_cases h : fwd.get_nonzero ≤ bkw.get_datasize
  · refine ⟨bkw.clear, rfl, ?_⟩
    simp only [h, if_true, BackwardMatrix.fill_zeros]
    split_ifs <;> rfl
  · refine ⟨bkw.resize_buffer_and_clear fwd.get_datasize, rfl, ?_⟩
    simp only [h, if_false, BackwardMatrix.fill_zeros]
    split_ifs <;> rfl

/-- Every element of a backward matrix built by `compute_reverse_matrix` holds
the address of the forward cell of its own row and column. -/
theorem compute_reverse_matrix_sound (fwd : ForwardMatrix) (hwf : fwd.WF)
    (localrank : Nat → Bool) (bkw : BackwardMatrix) (log : List LogMessageType) :
    ∀ e ∈ (compute_reverse_matrix fwd localrank bkw log).1.entries, e.col < fwd.m_rows ∧
      ∃ k, e.data = some k ∧ k ∈ fwd.rowCells e.col ∧ fwd.colAt k = e.row ∧
        fwd.get_ptr e.col e.row = some k := by
  obtain ⟨b0, hb0, heq⟩ := compute_reverse_matrix_fst fwd localrank bkw log
  rw [heq]
  have inv := (reverseWalk_inv fwd hwf localrank b0 hb0).1
  intro e he
  obtain ⟨hc, k, hk1, hk2, hk3, hk4, hk5⟩ := inv.sound e he
  have := inv.hi e.col hc
  exact ⟨hc, k, hk1, (fwd.mem_rowCells _ _).2 ⟨hk2, by omega⟩, hk4, hk5⟩

theorem compute_reverse_matrix_nodup (fwd : ForwardMatrix) (hwf : fwd.WF)
    (localrank : Nat → Bool) (bkw : BackwardMatrix) (log : List LogMessageType) :
    ((compute_reverse_matrix fwd localrank bkw log).1.entries.map (fun e => e.data)).Nodup := by
  obtain ⟨b0, hb0, heq⟩ := compute_reverse_matrix_fst fwd localrank bkw log
  rw [heq]
  exact (reverseWalk_inv fwd hwf localrank b0 hb0).1.nodup

theorem compute_reverse_matrix_complete (fwd : ForwardMatrix) (hwf : fwd.WF)
    (hs : fwd.RowsSorted) (localrank : Nat → Bool)
    (hloc : ∀ j < fwd.n_cols, localrank j = true)
    (bkw : BackwardMatrix) (log : List LogMessageType) :
    ∀ i < fwd.m_rows, ∀ k ∈ fwd.rowCells i,
      (⟨fwd.colAt k, i, some k⟩ : BkwEntry) ∈
        (compute_reverse_matrix fwd localrank bkw log).1.entries := by
  obtain ⟨b0, hb0, heq⟩ := compute_reverse_matrix_fst fwd localrank bkw log
  rw [heq]
  have inv := (reverseWalk_inv fwd hwf localrank b0 hb0).1
  have hdone := reverseWalk_done fwd hwf hs localrank hloc b0 hb0
  intro i hi k hk
  rw [fwd.mem_rowCells] at hk
  exact inv.complete i hi k hk.1 (by rw [hdone i hi]; exact hk.2)

theorem compute_reverse_matrix_isMirror (fwd : ForwardMatrix) (hwf : fwd.WF)
    (hs : fwd.RowsSorted) (localrank : Nat → Bool)
    (hloc : ∀ j < fwd.n_cols, localrank j = true)
    (bkw : BackwardMatrix) (log : List LogMessageType) :
    IsMirror fwd (compute_reverse_matrix fwd localrank bkw log).1 := by
  refine ⟨?_, compute_reverse_matrix_nodup fwd hwf localrank bkw log, ?_⟩
  · intro e he
    obtain ⟨hc, k, hk1, hk2, hk3, -⟩ := compute_reverse_matrix_sound fwd hwf localrank bkw log e he
    exact ⟨hc, k, by simp [hk1], hk2, hk3⟩
  · intro i hi k hk
    exact ⟨_, compute_reverse_matrix_complete fwd hwf hs localrank hloc bkw log i hi k hk, rfl⟩

/-- A mirror holds as many elements as the forward matrix. -/
theorem IsMirror.length_eq {fwd : ForwardMatrix} {bkw : BackwardMatrix} (hwf : fwd.WF)
    (h : IsMirror fwd bkw) : bkw.entries.length = fwd.n_nonzero := by
  obtain ⟨h1, h2, h3⟩ := h
  unfold MirrorSound at h1
  have hperm : (bkw.entries.map (fun e => e.data)).Perm ((List.range fwd.n_nonzero).map some) := by
    rw [List.perm_ext_iff_of_nodup h2
      ((List.nodup_range _).map (Option.some_injective _))]
    intro x
    constructor
    · intro hx
      obtain ⟨e, he, hex⟩ := List.mem_map.mp hx
      obtain ⟨hc, k, hk1, hk2, -⟩ := h1 e he
      rw [fwd.mem_rowCells] at hk2
      rw [← hex, Option.mem_def.mp hk1]
      exact List.mem_map.mpr ⟨k, List.mem_range.mpr (hwf.cell_lt hc hk2.2), rfl⟩
    · intro hx
      obtain ⟨k, hk, hkx⟩ := List.mem_map.mp hx
      obtain ⟨i, hi, hik⟩ := hwf.row_of_cell (List.mem_range.mp hk)
      obtain ⟨e, he, hed⟩ := h3 i hi k ((fwd.mem_rowCells _ _).2 hik)
      rw [← hkx, ← hed]
      exact List.mem_map.mpr ⟨e, he, rfl⟩
  have := hperm.length_eq
  simpa using this

end Auryn

namespace Auryn

theorem foldl_rel {σ α : Type} (R : σ → σ → Prop) (f : σ → α → σ)
    (h : ∀ s1 s2 a, R s1 s2 → R (f s1 a) (f s2 a)) :
    ∀ (l : List α) (s1 s2 : σ), R s1 s2 → R (l.foldl f s1) (l.foldl f s2) := by
  intro l
  induction l with
  | nil => intro s1 s2 hR; simpa using hR
  | cons a l ih => intro s1 s2 hR; simpa using ih _ _ (h s1 s2 a hR)

/-- The walk reads nothing of the backward matrix it is given but appends to
its store: two walks begun on equal stores end with equal cursors and equal
stores. -/
theorem reverseWalk_store (fwd : ForwardMatrix) (localrank : Nat → Bool)
    (b1 b2 : BackwardMatrix) (h : b1.entries = b2.entries) :
    (reverseWalk fwd localrank b1).rowwalker = (reverseWalk fwd localrank b2).rowwalker ∧
      (reverseWalk fwd localrank b1).bkw.entries = (reverseWalk fwd localrank b2).bkw.entries := by
  have hrow : ∀ j (s1 s2 : Walk) (i : Nat),
      (s1.rowwalker = s2.rowwalker ∧ s1.bkw.entries = s2.bkw.entries) →
      ((walkRow fwd j s1 i).rowwalker = (walkRow fwd j s2 i).rowwalker ∧
        (walkRow fwd j s1 i).bkw.entries = (walkRow fwd j s2 i).bkw.entries) := by
    rintro j s1 s2 i ⟨h1, h2⟩
    unfold walkRow
    rw [h1]
    split_ifs
    · exact ⟨rfl, by simp [BackwardMatrix.push_back, h2]⟩
    · exact ⟨h1, h2⟩
    · exact ⟨h1, h2⟩
  have hcol : ∀ (s1 s2 : Walk) (j : Nat),
      (s1.rowwalker = s2.rowwalker ∧ s1.bkw.entries = s2.bkw.entries) →
      ((walkCol fwd localrank fwd.m_rows s1 j).rowwalker =
          (walkCol fwd localrank fwd.m_rows s2 j).rowwalker ∧
        (walkCol fwd localrank fwd.m_rows s1 j).bkw.entries =
          (walkCol fwd localrank fwd.m_rows s2 j).bkw.entries) := by
    intro s1 s2 j hR
    unfold walkCol
    split_ifs
    · exact foldl_rel (fun s1 s2 : Walk =>
        s1.rowwalker = s2.rowwalker ∧ s1.bkw.entries = s2.bkw.entries) _ (hrow j) _ _ _ hR
    · exact hR
  unfold reverseWalk
  exact foldl_rel (fun s1 s2 : Walk =>
    s1.rowwalker = s2.rowwalker ∧ s1.bkw.entries = s2.bkw.entries) _ hcol _ _ _ ⟨rfl, h⟩

theorem compute_reverse_matrix_entries (fwd : ForwardMatrix) (localrank : Nat → Bool)
    (b1 b2 : BackwardMatrix) (log1 log2 : List LogMessageType) :
    (compute_reverse_matrix fwd localrank b1 log1).1.entries =
      (compute_reverse_matrix fwd localrank b2 log2).1.entries := by
  obtain ⟨c1, hc1, e1⟩ := compute_reverse_matrix_fst fwd localrank b1 log1
  obtain ⟨c2, hc2, e2⟩ := compute_reverse_matrix_fst fwd localrank b2 log2
  rw [e1, e2]
  exact (reverseWalk_store fwd localrank c1 c2 (by rw [hc1, hc2])).2

/-- C2. For a forward matrix whose rows have strictly increasing columns and
whose columns are all local to this rank, the backward matrix that
`compute_reverse_matrix` builds holds an element `(j, i)` exactly when the
forward matrix holds an element `(i, j)`, and it holds as many elements as the
forward matrix. -/
theorem C2_reverse_matrix_mirrors_forward (fwd : ForwardMatrix) (localrank : Nat → Bool)
    (bkw : BackwardMatrix) (log : List LogMessageType)
    (hwf : fwd.WF) (hs : fwd.RowsSorted) (hloc : ∀ j < fwd.n_cols, localrank j = true) :
    (∀ i j, (compute_reverse_matrix fwd localrank bkw log).1.HasEntry j i ↔ fwd.HasEntry i j) ∧
      (compute_reverse_matrix fwd localrank bkw log).1.get_nonzero = fwd.get_nonzero := by
  constructor
  · intro i j
    constructor
    · rintro ⟨e, he, rfl, rfl⟩
      obtain ⟨hc, k, -, hk2, hk3, -⟩ :=
        compute_reverse_matrix_sound fwd hwf localrank bkw log e he
      exact ⟨hc, k, hk2, hk3⟩
    · rintro ⟨hi, k, hk, rfl⟩
      exact ⟨_, compute_reverse_matrix_complete fwd hwf hs localrank hloc bkw log i hi k hk,
        rfl, rfl⟩
  · exact (compute_reverse_matrix_isMirror fwd hwf hs localrank hloc bkw log).length_eq hwf

theorem C2_reverse_matrix_mirrors_forward_witness :
    (sampleForward.WF ∧ sampleForward.RowsSorted) ∧
    (∀ i j, (compute_reverse_matrix sampleForward (fun _ => true) sampleBackward []).1.HasEntry j i
        ↔ sampleForward.HasEntry i j) ∧
      (compute_reverse_matrix sampleForward (fun _ => true) sampleBackward []).1.get_nonzero =
        sampleForward.get_nonzero :=
  ⟨by decide, C2_reverse_matrix_mirrors_forward sampleForward (fun _ => true) sampleBackward []
    (by decide) (by decide) (fun _ _ => rfl)⟩

end Auryn

namespace Auryn

/-! ## Updates of the weight store -/

theorem applyWrite_length (l : List F32) (w : Nat × (F32 → F32)) :
    (applyWrite l w).length = l.length := by
  simp [applyWrite]

theorem applyWrites_length (ws : List (Nat × (F32 → F32))) (l : List F32) :
    (applyWrites ws l).length = l.length := by
  induction ws generalizing l with
  | nil => rfl
  | cons w ws ih =>
    show (applyWrites ws (applyWrite l w)).length = l.length
    rw [ih, applyWrite_length]

theorem applyWrites_cons (w : Nat × (F32 → F32)) (ws : List (Nat × (F32 → F32))) (l : List F32) :
    applyWrites (w :: ws) l = applyWrites ws (applyWrite l w) := rfl

theorem applyWrites_append (ws1 ws2 : List (Nat × (F32 → F32))) (l : List F32) :
    applyWrites (ws1 ++ ws2) l = applyWrites ws2 (applyWrites ws1 l) := by
  simp [applyWrites, List.foldl_append]

theorem applyWrite_getD_other (l : List F32) (w : Nat × (F32 → F32)) (k : Nat) (h : w.1 ≠ k) :
    (applyWrite l w).getD k 0 = l.getD k 0 := by
  simp [applyWrite, List.getD_eq_getElem?_getD, List.getElem?_set_ne h]

theorem applyWrite_getD_self (l : List F32) (w : Nat × (F32 → F32)) (h : w.1 < l.length) :
    (applyWrite l w).getD w.1 0 = w.2 (l.getD w.1 0) := by
  simp [applyWrite, List.getD_eq_getElem?_getD, List.getElem?_set, h]

theorem set_getD_self (l : List F32) (c : Nat) : l.set c (l.getD c 0) = l := by
  induction l generalizing c with
  | nil => rfl
  | cons a l ih =>
    cases c with
    | zero => rfl
    | succ c => simpa using ih c

/-- A cell that no update addresses keeps its weight. -/
theorem applyWrites_getD_of_not_mem (ws : List (Nat × (F32 → F32))) (l : List F32) (k : Nat)
    (h : k ∉ ws.map Prod.fst) : (applyWrites ws l).getD k 0 = l.getD k 0 := by
  induction ws generalizing l with
  | nil => rfl
  | cons w ws ih =>
    simp only [List.map_cons, List.mem_cons, not_or] at h
    rw [applyWrites_cons, ih _ h.2, applyWrite_getD_other _ _ _ (Ne.symm h.1)]

/-- A cell that exactly one update addresses holds what that update makes of
its weight. -/
theorem applyWrites_getD_of_mem (ws : List (Nat × (F32 → F32))) (l : List F32) (k : Nat)
    (g : F32 → F32) (hnd : (ws.map Prod.fst).Nodup) (hk : k < l.length) (hmem : (k, g) ∈ ws) :
    (applyWrites ws l).getD k 0 = g (l.getD k 0) := by
  induction ws generalizing l with
  | nil => simp at hmem
  | cons w ws ih =>
    simp only [List.map_cons, List.nodup_cons] at hnd
    rw [applyWrites_cons]
    rcases List.mem_cons.mp hmem with heq | hin
    · subst heq
      rw [applyWrites_getD_of_not_mem _ _ _ hnd.1]
      exact applyWrite_getD_self l (k, g) hk
    · have hne : w.1 ≠ k := by
        intro h
        apply hnd.1
        rw [h]
        exact List.mem_map.mpr ⟨(k, g), hin, rfl⟩
      rw [ih _ hnd.2 (by rw [applyWrite_length]; exact hk) hin,
        applyWrite_getD_other _ _ _ hne]

/-- A property of weights that every update keeps is kept by the store. -/
theorem applyWrites_forall (P : F32 → Prop) (ws : List (Nat × (F32 → F32))) (l : List F32)
    (hl : ∀ x ∈ l, P x) (hw : ∀ w ∈ ws, ∀ x, P x → P (w.2 x)) :
    ∀ x ∈ applyWrites ws l, P x := by
  induction ws generalizing l with
  | nil => exact hl
  | cons w ws ih =>
    rw [applyWrites_cons]
    apply ih
    · intro x hx
      by_cases hc : w.1 < l.length
      · rcases List.mem_or_eq_of_mem_set hx with h | h
        · exact hl x h
        · rw [h, List.getD_eq_getElem _ _ hc]
          exact hw w (List.mem_cons_self _ _) _ (hl _ (List.getElem_mem _))
      · unfold applyWrite at hx
        rw [List.set_eq_of_length_le (by omega)] at hx
        exact hl x hx
    · exact fun w2 hw2 => hw w2 (List.mem_cons_of_mem _ hw2)

/-- Updates that change no weight leave the store as it is. -/
theorem applyWrites_id (ws : List (Nat × (F32 → F32))) (l : List F32)
    (hw : ∀ w ∈ ws, ∀ x, w.2 x = x) : applyWrites ws l = l := by
  induction ws generalizing l with
  | nil => rfl
  | cons w ws ih =>
    have h1 : applyWrite l w = l := by
      unfold applyWrite
      rw [hw w (List.mem_cons_self _ _)]
      exact set_getD_self l w.1
    rw [applyWrites_cons, h1]
    exact ih l (fun w2 hw2 => hw w2 (List.mem_cons_of_mem _ hw2))

theorem eventsOf_append (col : Nat → Nat) (ws1 ws2 : List (Nat × (F32 → F32))) (l : List F32) :
    eventsOf col (ws1 ++ ws2) l = eventsOf col ws1 l ++ eventsOf col ws2 (applyWrites ws1 l) := by
  induction ws1 generalizing l with
  | nil => rfl
  | cons w ws ih => simp [eventsOf, ih, applyWrites_cons]

/-- When no cell is addressed twice, every event carries the weight its cell
held before the first update. -/
theorem eventsOf_nodup (col : Nat → Nat) (ws : List (Nat × (F32 → F32))) (l : List F32)
    (hnd : (ws.map Prod.fst).Nodup) :
    eventsOf col ws l = ws.map (fun w => (col w.1, l.getD w.1 0)) := by
  induction ws generalizing l with
  | nil => rfl
  | cons w ws ih =>
    simp only [List.map_cons, List.nodup_cons] at hnd
    simp only [eventsOf, List.map_cons, ih _ hnd.2]
    congr 1
    apply List.map_congr_left
    intro w2 hw2
    have hne : w.1 ≠ w2.1 := by
      intro h
      apply hnd.1
      rw [h]
      exact List.mem_map.mpr ⟨w2, hw2, rfl⟩
    rw [applyWrite_getD_other _ _ _ hne]

/-- When the updates change no weight, every event carries the stored weight. -/
theorem eventsOf_id (col : Nat → Nat) (ws : List (Nat × (F32 → F32))) (l : List F32)
    (hw : ∀ w ∈ ws, ∀ x, w.2 x = x) :
    eventsOf col ws l = ws.map (fun w => (col w.1, l.getD w.1 0)) := by
  induction ws generalizing l with
  | nil => rfl
  | cons w ws ih =>
    have h1 : applyWrite l w = l :=
      applyWrites_id [w] l (fun w2 hw2 => by
        rw [List.mem_singleton.mp hw2]; exact hw w (List.mem_cons_self _ _))
    simp only [eventsOf, List.map_cons, h1]
    rw [ih l (fun w2 hw2 => hw w2 (List.mem_cons_of_mem _ hw2))]

end Auryn

namespace Auryn

/-! ## The two passes of `propagate` as sequences of updates -/

theorem set_clipBelow (l : List F32) (c : Nat) (v mn : F32) :
    (if F32.lt ((l.set c v).getD c 0) mn then (l.set c v).set c mn else l.set c v) =
      l.set c (F32.clipBelow v mn) := by
  unfold F32.clipBelow
  by_cases hc : c < l.length
  · rw [getD_set_self l c v 0 hc]
    split_ifs with h
    · rw [List.set_set]
    · rfl
  · have hs : ∀ x, l.set c x = l := fun x => List.set_eq_of_length_le (by omega)
    simp only [hs, ite_self]

theorem set_clipAbove (l : List F32) (c : Nat) (v mx : F32) :
    (if F32.lt mx ((l.set c v).getD c 0) then (l.set c v).set c mx else l.set c v) =
      l.set c (F32.clipAbove v mx) := by
  unfold F32.clipAbove
  by_cases hc : c < l.length
  · rw [getD_set_self l c v 0 hc]
    split_ifs with h
    · rw [List.set_set]
    · rfl
  · have hs : ∀ x, l.set c x = l := fun x => List.set_eq_of_length_le (by omega)
    simp only [hs, ite_self]

namespace STDPConnection

theorem forwardCell_eq (t : Tick) (s : STDPConnection) (c : Nat) :
    forwardCell t s c = s.forwardResult [(c, s.forwardUpdate t c)] := by
  obtain ⟨w, bkw, A, B, mn, mx, act, del⟩ := s
  obtain ⟨m, n, ds, nz, rp, ci, cd⟩ := w
  have h := set_clipBelow cd c
    (F32.add (cd.getD c 0) (F32.mul A (t.tr_post (t.global2rank (ci.getD c 0))))) mn
  cases act with
  | false =>
    simp only [forwardCell, forwardResult, forwardUpdate, applyWrites, applyWrite, eventsOf,
      transmit, ForwardMatrix.read, ForwardMatrix.get_data_ptr, ForwardMatrix.colAt,
      Bool.false_eq_true, if_false, List.foldl_cons, List.foldl_nil]
    rw [set_getD_self]
  | true =>
    simp only [forwardCell, forwardResult, forwardUpdate, applyWrites, applyWrite, eventsOf,
      transmit, ForwardMatrix.read, ForwardMatrix.get_data_ptr, ForwardMatrix.colAt,
      ForwardMatrix.write, dw_pre, get_min_weight, if_true, List.foldl_cons, List.foldl_nil]
    rw [← h]
    split_ifs <;> rfl

theorem forwardResult_forwardResult (s : STDPConnection) (ws1 ws2 : List (Nat × (F32 → F32))) :
    (s.forwardResult ws1).forwardResult ws2 = s.forwardResult (ws1 ++ ws2) := by
  simp only [forwardResult, applyWrites_append, eventsOf_append, List.append_assoc]
  rfl

theorem forwardResult_nil (s : STDPConnection) : s.forwardResult [] = s := by
  simp [forwardResult, applyWrites, eventsOf]

theorem forward_fold (t : Tick) (cs : List Nat) (s : STDPConnection) :
    cs.foldl (forwardCell t) s = s.forwardResult (cs.map (fun c => (c, s.forwardUpdate t c))) := by
  induction cs generalizing s with
  | nil => exact (forwardResult_nil s).symm
  | cons c cs ih =>
    rw [List.foldl_cons, forwardCell_eq, ih, forwardResult_forwardResult]
    rfl

theorem propagate_forward_eq (s : STDPConnection) (t : Tick) :
    s.propagate_forward t = s.forwardResult (s.forwardWrites t) := by
  have key : ∀ (spikes : List Nat) (s : STDPConnection),
      spikes.foldl (forwardSpike t) s =
        s.forwardResult ((spikes.flatMap s.w.rowCells).map (fun c => (c, s.forwardUpdate t c))) := by
    intro spikes
    induction spikes with
    | nil => intro s; exact (forwardResult_nil s).symm
    | cons i rest ih =>
      intro s
      have h1 : forwardSpike t s i =
          s.forwardResult ((s.w.rowCells i).map (fun c => (c, s.forwardUpdate t c))) :=
        forward_fold t _ s
      rw [List.foldl_cons, h1, ih, forwardResult_forwardResult, List.flatMap_cons,
        List.map_append]
      rfl
  exact key t.src_spikes s

theorem backwardEntry_eq (t : Tick) (s : STDPConnection) (e : BkwEntry) :
    backwardEntry t s e = s.backwardResult (s.writesOf t [e]) := by
  obtain ⟨w, bkw, A, B, mn, mx, act, del⟩ := s
  obtain ⟨m, n, ds, nz, rp, ci, cd⟩ := w
  obtain ⟨r, c, d⟩ := e
  cases d with
  | none => simp [backwardEntry, backwardResult, writesOf, applyWrites]
  | some p =>
    have h := set_clipAbove cd p (F32.add (cd.getD p 0) (F32.mul B (t.tr_pre c))) mx
    simp only [backwardEntry, backwardResult, writesOf, backwardUpdate, applyWrites, applyWrite,
      ForwardMatrix.read, ForwardMatrix.write, dw_post, get_max_weight, List.filterMap_cons,
      List.filterMap_nil, Option.map_some', List.foldl_cons, List.foldl_nil]
    rw [← h]
    split_ifs <;> rfl

theorem backwardResult_backwardResult (s : STDPConnection) (ws1 ws2 : List (Nat × (F32 → F32))) :
    (s.backwardResult ws1).backwardResult ws2 = s.backwardResult (ws1 ++ ws2) := by
  simp [backwardResult, applyWrites_append]

theorem backwardResult_nil (s : STDPConnection) : s.backwardResult [] = s := by
  simp [backwardResult, applyWrites]

theorem writesOf_append (s : STDPConnection) (t : Tick) (es1 es2 : List BkwEntry) :
    s.writesOf t (es1 ++ es2) = s.writesOf t es1 ++ s.writesOf t es2 := by
  simp [writesOf, List.filterMap_append]

theorem backward_fold (t : Tick) (es : List BkwEntry) (s : STDPConnection) :
    es.foldl (backwardEntry t) s = s.backwardResult (s.writesOf t es) := by
  induction es generalizing s with
  | nil => exact (backwardResult_nil s).symm
  | cons e es ih =>
    have h2 : s.writesOf t (e :: es) = s.writesOf t [e] ++ s.writesOf t es :=
      writesOf_append s t [e] es
    rw [List.foldl_cons, backwardEntry_eq, ih, backwardResult_backwardResult, h2]
    rfl

theorem propagate_backward_eq (s : STDPConnection) (t : Tick) :
    s.propagate_backward t =
      if s.stdp_active then s.backwardResult (s.writesOf t (s.backwardEntries t)) else s := by
  have key : ∀ (spikes : List Nat) (s : STDPConnection),
      spikes.foldl (backwardSpike t) s =
        s.backwardResult (s.writesOf t (spikes.flatMap s.bkw.rowEntries)) := by
    intro spikes
    induction spikes with
    | nil => intro s; exact (backwardResult_nil s).symm
    | cons i rest ih =>
      intro s
      have h1 : backwardSpike t s i = s.backwardResult (s.writesOf t (s.bkw.rowEntries i)) :=
        backward_fold t _ s
      rw [List.foldl_cons, h1, ih, backwardResult_backwardResult, List.flatMap_cons,
        writesOf_append]
      rfl
  unfold propagate_backward
  split_ifs
  · exact key t.dst_spikes_immediate s
  · rfl

/-- One `propagate()` call: the updates of the forward pass, each preceded by
its synaptic event, then (with plasticity enabled) those of the backward pass. -/
theorem propagate_eq (s : STDPConnection) (t : Tick) :
    s.propagate t =
      if s.stdp_active then
        (s.forwardResult (s.forwardWrites t)).backwardResult (s.writesOf t (s.backwardEntries t))
      else s.forwardResult (s.forwardWrites t) := by
  unfold propagate
  rw [propagate_forward_eq, propagate_backward_eq]
  rfl

end STDPConnection

end Auryn

namespace Auryn

/-! ## Which cells the passes address -/

namespace ForwardMatrix

theorem WF.row_lt {m : ForwardMatrix} (h : m.WF) {i k : Nat} (hk : k ∈ m.rowCells i) :
    i < m.m_rows := by
  rw [mem_rowCells] at hk
  by_contra hi
  have : m.get_rowptr (i + 1) = 0 := by
    unfold get_rowptr
    exact List.getD_eq_default _ _ (by rw [h.1]; omega)
  omega

theorem WF.row_unique {m : ForwardMatrix} (h : m.WF) {i i2 k : Nat} (hk : k ∈ m.rowCells i)
    (hk2 : k ∈ m.rowCells i2) : i = i2 := by
  have hi := h.row_lt hk
  have hi2 := h.row_lt hk2
  rw [mem_rowCells] at hk hk2
  rcases Nat.lt_trichotomy i i2 with hlt | heq | hgt
  · have := h.rowptr_mono (a := i + 1) (b := i2) hlt (le_of_lt hi2)
    omega
  · exact heq
  · have := h.rowptr_mono (a := i2 + 1) (b := i) hgt (le_of_lt hi)
    omega

theorem WF.cell_lt_length {m : ForwardMatrix} (h : m.WF) {i k : Nat} (hk : k ∈ m.rowCells i) :
    k < m.coldata.length := by
  have hi := h.row_lt hk
  rw [mem_rowCells] at hk
  rw [h.2.2.2.2.2.1]
  exact h.cell_lt hi hk.2

theorem rowCells_nodup (m : ForwardMatrix) (i : Nat) : (m.rowCells i).Nodup :=
  List.nodup_range' _ _

end ForwardMatrix

namespace STDPConnection

theorem forwardWrites_fst (s : STDPConnection) (t : Tick) :
    (s.forwardWrites t).map Prod.fst = s.forwardCells t := by
  simp [forwardWrites, List.map_map, Function.comp_def]

theorem forwardCells_nodup (s : STDPConnection) (t : Tick) (hwf : s.w.WF)
    (hsrc : t.src_spikes.Nodup) : (s.forwardCells t).Nodup := by
  unfold forwardCells
  rw [List.nodup_flatMap]
  refine ⟨fun i _ => s.w.rowCells_nodup i, ?_⟩
  refine hsrc.imp ?_
  intro i i2 hne k hk hk2
  exact hne (hwf.row_unique hk hk2)

theorem mem_forwardCells (s : STDPConnection) (t : Tick) (k : Nat) :
    k ∈ s.forwardCells t ↔ ∃ i ∈ t.src_spikes, k ∈ s.w.rowCells i := by
  simp [forwardCells]

/-- The weight store after one `propagate()` call. -/
theorem propagate_coldata (s : STDPConnection) (t : Tick) :
    (s.propagate t).w.coldata =
      if s.stdp_active then
        applyWrites (s.writesOf t (s.backwardEntries t))
          (applyWrites (s.forwardWrites t) s.w.coldata)
      else applyWrites (s.forwardWrites t) s.w.coldata := by
  rw [propagate_eq]
  split_ifs <;> rfl

/-- The events delivered up to the end of one `propagate()` call. -/
theorem propagate_delivered (s : STDPConnection) (t : Tick) :
    (s.propagate t).delivered =
      s.delivered ++ eventsOf s.w.colAt (s.forwardWrites t) s.w.coldata := by
  rw [propagate_eq]
  split_ifs <;> rfl

/-- A call of `propagate()` changes the weight store and the delivered events and
nothing else. -/
theorem propagate_frame (s : STDPConnection) (t : Tick) :
    (s.propagate t).A = s.A ∧ (s.propagate t).B = s.B ∧
      (s.propagate t).min_weight = s.min_weight ∧ (s.propagate t).max_weight = s.max_weight ∧
      (s.propagate t).stdp_active = s.stdp_active ∧ (s.propagate t).bkw = s.bkw ∧
      (s.propagate t).w.rowptrs = s.w.rowptrs ∧ (s.propagate t).w.colinds = s.w.colinds := by
  rw [propagate_eq]
  split_ifs <;> exact ⟨rfl, rfl, rfl, rfl, rfl, rfl, rfl, rfl⟩

end STDPConnection

/-! ## Some binary32 values -/

theorem round_one : F32.round 1 = F32.fin 1 :=
  F32.round_eval 0 8388608 (by norm_num) (by norm_num) (by norm_num) (by norm_num)
    (by norm_num) (by norm_num) (by norm_num)

theorem round_two : F32.round 2 = F32.fin 2 :=
  F32.round_eval 1 8388608 (by norm_num) (by norm_num) (by norm_num) (by norm_num)
    (by norm_num) (by norm_num) (by norm_num)

theorem round_eighth : F32.round (1 / 8) = F32.fin (1 / 8) :=
  F32.round_eval (-3) 8388608 (by norm_num) (by norm_num) (by norm_num) (by norm_num)
    (by norm_num) (by norm_num) (by norm_num)

theorem round_two_eighth : F32.round (17 / 8) = F32.fin (17 / 8) :=
  F32.round_eval 1 8912896 (by norm_num) (by norm_num) (by norm_num) (by norm_num)
    (by norm_num) (by norm_num) (by norm_num)

/-- The `float` nearest to `0.1`. -/
theorem round_tenth : F32.round (1 / 10) = F32.fin (13421773 / 134217728) :=
  F32.round_eval (-4) 13421773 (by norm_num) (by norm_num) (by norm_num) (by norm_num)
    (by norm_num [abs_lt]) (by norm_num) (by norm_num)

theorem round_tenth_rep : F32.round (13421773 / 134217728) = F32.fin (13421773 / 134217728) :=
  F32.round_eval (-4) 13421773 (by norm_num) (by norm_num) (by norm_num) (by norm_num)
    (by norm_num) (by norm_num) (by norm_num)

/-- The `float` nearest to `0.2`. -/
theorem round_fifth : F32.round (1 / 5) = F32.fin (13421773 / 67108864) :=
  F32.round_eval (-3) 13421773 (by norm_num) (by norm_num) (by norm_num) (by norm_num)
    (by norm_num [abs_lt]) (by norm_num) (by norm_num)

theorem round_fifth_rep : F32.round (13421773 / 67108864) = F32.fin (13421773 / 67108864) :=
  F32.round_eval (-3) 13421773 (by norm_num) (by norm_num) (by norm_num) (by norm_num)
    (by norm_num) (by norm_num) (by norm_num)

/-- In `float`, `1.0f + 0.1f` is the `float` nearest to `1.1`. -/
theorem round_one_tenth :
    F32.round (1 + 13421773 / 134217728) = F32.fin (9227469 / 8388608) :=
  F32.round_eval 0 9227469 (by norm_num) (by norm_num) (by norm_num) (by norm_num)
    (by norm_num [abs_lt]) (by norm_num) (by norm_num)

/-- In `float`, `2.0f + 0.1f` is the `float` nearest to `2.1`. -/
theorem round_two_tenth :
    F32.round (2 + 13421773 / 134217728) = F32.fin (4404019 / 2097152) :=
  F32.round_eval 1 8808038 (by norm_num) (by norm_num) (by norm_num) (by norm_num)
    (by norm_num [abs_lt]) (by norm_num) (by norm_num)

/-- In `float`, `1.1f + 0.2f` is the `float` nearest to `1.3`, below it. -/
theorem round_one_three :
    F32.round (9227469 / 8388608 + 13421773 / 67108864) = F32.fin (10905191 / 8388608) :=
  F32.round_eval 0 10905191 (by norm_num) (by norm_num) (by norm_num) (by norm_num)
    (by norm_num [abs_lt]) (by norm_num) (by norm_num)

/-- In `float`, adding 1 to `2 ^ 24` changes nothing. -/
theorem round_big : F32.round (16777216 + 1) = F32.fin 16777216 :=
  F32.round_eval_tie 24 8388608 (by norm_num) (by norm_num) (by norm_num) (by norm_num)
    (by norm_num) (by decide) (by norm_num) (by norm_num)

theorem round_eleven_tenth : F32.round (11 / 10) = F32.fin (9227469 / 8388608) :=
  F32.round_eval 0 9227469 (by norm_num) (by norm_num) (by norm_num) (by norm_num)
    (by norm_num [abs_lt]) (by norm_num) (by norm_num)

theorem mul_tenth_one :
    F32.mul (.fin (13421773 / 134217728)) (.fin 1) = .fin (13421773 / 134217728) := by
  simp only [F32.mul, mul_one]
  exact round_tenth_rep

theorem mul_fifth_one :
    F32.mul (.fin (13421773 / 67108864)) (.fin 1) = .fin (13421773 / 67108864) := by
  simp only [F32.mul, mul_one]
  exact round_fifth_rep

theorem add_one_tenth :
    F32.add (.fin 1) (.fin (13421773 / 134217728)) = .fin (9227469 / 8388608) :=
  round_one_tenth

theorem add_two_tenth :
    F32.add (.fin 2) (.fin (13421773 / 134217728)) = .fin (4404019 / 2097152) :=
  round_two_tenth

theorem add_tenth_fifth :
    F32.add (.fin (9227469 / 8388608)) (.fin (13421773 / 67108864)) =
      .fin (10905191 / 8388608) :=
  round_one_three

namespace STDPConnection

/-! ## A connection with one synapse -/

/-- The weight of the one synapse after a tick in which only its source
neuron spikes. -/
theorem twoNeuron_source (w A B mn mx pre post : F32) :
    ((twoNeuron w A B mn mx true).propagate (tickOf [0] [] pre post)).w.coldata =
      [F32.clipBelow (F32.add w (F32.mul A post)) mn] := by
  rw [propagate_coldata]
  simp only [forwardWrites, forwardCells, backwardEntries, writesOf, forwardUpdate,
    applyWrites, applyWrite, twoNeuron, tickOf, ForwardMatrix.rowCells,
    ForwardMatrix.get_row_begin, ForwardMatrix.get_row_end, ForwardMatrix.get_rowptr,
    ForwardMatrix.colAt, List.flatMap_cons, List.flatMap_nil, List.filterMap_nil,
    List.foldl_nil, if_true]
  simp only [List.getD_cons_succ, List.getD_cons_zero, Nat.sub_zero, List.range'_one,
    List.append_nil, List.map_cons, List.map_nil, List.foldl_cons, List.foldl_nil,
    List.set_cons_zero, id, applyWrite, forwardUpdate, ForwardMatrix.colAt, if_true]

/-- The weight of the one synapse after a tick in which only its destination
neuron spikes. -/
theorem twoNeuron_destination (w A B mn mx pre post : F32) :
    ((twoNeuron w A B mn mx true).propagate (tickOf [] [0] pre post)).w.coldata =
      [F32.clipAbove (F32.add w (F32.mul B pre)) mx] := by
  rw [propagate_coldata]
  simp only [forwardWrites, forwardCells, backwardEntries, writesOf, backwardUpdate,
    applyWrites, applyWrite, twoNeuron, tickOf, BackwardMatrix.rowEntries,
    List.flatMap_cons, List.flatMap_nil, List.map_nil, List.foldl_nil, if_true]
  simp [applyWrite, backwardUpdate]

end STDPConnection

namespace STDPConnection

/-! ## The weight bounds -/

/-- The forward update keeps the lower bound when `B` is not negative and the
upper bound when `A` is not positive. -/
theorem forwardUpdate_keeps (s : STDPConnection) (t : Tick) (c : Nat) (x : F32)
    (mn mx a b : ℚ) (hmin : s.min_weight = F32.fin mn)
    (hrmn : F32.round mn = F32.fin mn) (hrmx : F32.round mx = F32.fin mx) (hmm : mn ≤ mx)
    (hA : s.A = F32.fin a)
    (htr : ∀ n, (t.tr_post n).IsFinite ∧ F32.le 0 (t.tr_post n) = true)
    (hx : (0 ≤ b → F32.le (F32.fin mn) x = true) ∧ (a ≤ 0 → F32.le x (F32.fin mx) = true)) :
    (0 ≤ b → F32.le (F32.fin mn) (s.forwardUpdate t c x) = true) ∧
      (a ≤ 0 → F32.le (s.forwardUpdate t c x) (F32.fin mx) = true) := by
  unfold forwardUpdate
  split_ifs
  swap
  · exact hx
  obtain ⟨hf, hp0⟩ := htr (t.global2rank (s.w.colAt c))
  obtain ⟨p, hp⟩ := F32.isFinite_exists hf
  rw [hp] at hp0 ⊢
  have hp1 : (0 : ℚ) ≤ p := by
    have : F32.le (F32.fin 0) (F32.fin p) = true := hp0
    simpa [F32.le] using this
  rw [hmin, hA]
  have hmm2 : F32.le (F32.fin mn) (F32.fin mx) = true := by simpa [F32.le] using hmm
  by_cases ha : a ≤ 0
  · have hd : F32.le (F32.mul (F32.fin a) (F32.fin p)) 0 = true :=
      F32.mul_nonpos_of (mul_nonpos_of_nonpos_of_nonneg ha hp1)
    have h1 := F32.add_le_of_nonpos hrmx (hx.2 ha) hd
    exact ⟨fun _ => F32.le_clipBelow (F32.le_nan_left _ _ h1),
      fun _ => F32.clipBelow_le h1 hmm2⟩
  · refine ⟨fun hb => ?_, fun h => absurd h ha⟩
    have hd : F32.le 0 (F32.mul (F32.fin a) (F32.fin p)) = true :=
      F32.mul_nonneg_of (mul_nonneg (le_of_lt (not_le.mp ha)) hp1)
    have h1 := F32.le_add_of_nonneg hrmn (hx.1 hb) hd
    exact F32.le_clipBelow (F32.le_nan_right _ _ h1)

/-- The backward update keeps the lower bound when `B` is not negative and the
upper bound when `A` is not positive. -/
theorem backwardUpdate_keeps (s : STDPConnection) (t : Tick) (pre : Nat) (x : F32)
    (mn mx a b : ℚ) (hmax : s.max_weight = F32.fin mx)
    (hrmn : F32.round mn = F32.fin mn) (hrmx : F32.round mx = F32.fin mx) (hmm : mn ≤ mx)
    (hB : s.B = F32.fin b)
    (htr : ∀ n, (t.tr_pre n).IsFinite ∧ F32.le 0 (t.tr_pre n) = true)
    (hx : (0 ≤ b → F32.le (F32.fin mn) x = true) ∧ (a ≤ 0 → F32.le x (F32.fin mx) = true)) :
    (0 ≤ b → F32.le (F32.fin mn) (s.backwardUpdate t pre x) = true) ∧
      (a ≤ 0 → F32.le (s.backwardUpdate t pre x) (F32.fin mx) = true) := by
  unfold backwardUpdate
  obtain ⟨hf, hp0⟩ := htr pre
  obtain ⟨p, hp⟩ := F32.isFinite_exists hf
  rw [hp] at hp0 ⊢
  have hp1 : (0 : ℚ) ≤ p := by
    have : F32.le (F32.fin 0) (F32.fin p) = true := hp0
    simpa [F32.le] using this
  rw [hmax, hB]
  have hmm2 : F32.le (F32.fin mn) (F32.fin mx) = true := by simpa [F32.le] using hmm
  by_cases hb : 0 ≤ b
  · have hd : F32.le 0 (F32.mul (F32.fin b) (F32.fin p)) = true :=
      F32.mul_nonneg_of (mul_nonneg hb hp1)
    have h1 := F32.le_add_of_nonneg hrmn (hx.1 hb) hd
    exact ⟨fun _ => F32.le_clipAbove h1 hmm2,
      fun _ => F32.clipAbove_le (F32.le_nan_right _ _ h1)⟩
  · refine ⟨fun h => absurd h hb, fun ha => ?_⟩
    have hd : F32.le (F32.mul (F32.fin b) (F32.fin p)) 0 = true :=
      F32.mul_nonpos_of (mul_nonpos_of_nonpos_of_nonneg (le_of_lt (not_le.mp hb)) hp1)
    have h1 := F32.add_le_of_nonpos hrmx (hx.2 ha) hd
    exact F32.clipAbove_le (F32.le_nan_left _ _ h1)

/-- One `propagate()` call keeps the lower bound when `B` is not negative and
the upper bound when `A` is not positive. -/
theorem propagate_keeps (s : STDPConnection) (t : Tick)
    (mn mx a b : ℚ) (hmin : s.min_weight = F32.fin mn) (hmax : s.max_weight = F32.fin mx)
    (hrmn : F32.round mn = F32.fin mn) (hrmx : F32.round mx = F32.fin mx) (hmm : mn ≤ mx)
    (hA : s.A = F32.fin a) (hB : s.B = F32.fin b)
    (htr : ∀ n, ((t.tr_pre n).IsFinite ∧ F32.le 0 (t.tr_pre n) = true) ∧
      ((t.tr_post n).IsFinite ∧ F32.le 0 (t.tr_post n) = true))
    (h0 : ∀ x ∈ s.w.coldata,
      (0 ≤ b → F32.le (F32.fin mn) x = true) ∧ (a ≤ 0 → F32.le x (F32.fin mx) = true)) :
    ∀ x ∈ (s.propagate t).w.coldata,
      (0 ≤ b → F32.le (F32.fin mn) x = true) ∧ (a ≤ 0 → F32.le x (F32.fin mx) = true) := by
  have hf : ∀ x ∈ applyWrites (s.forwardWrites t) s.w.coldata,
      (0 ≤ b → F32.le (F32.fin mn) x = true) ∧ (a ≤ 0 → F32.le x (F32.fin mx) = true) := by
    apply applyWrites_forall _ _ _ h0
    intro w hw x hx
    obtain ⟨c, -, rfl⟩ := List.mem_map.mp hw
    exact forwardUpdate_keeps s t c x mn mx a b hmin hrmn hrmx hmm hA
      (fun n => (htr n).2) hx
  rw [propagate_coldata]
  split_ifs
  · apply applyWrites_forall _ _ _ hf
    intro w hw x hx
    obtain ⟨e, -, he⟩ := List.mem_filterMap.mp hw
    obtain ⟨p, -, rfl⟩ := Option.map_eq_some'.mp he
    exact backwardUpdate_keeps s t e.col x mn mx a b hmax hrmn hrmx hmm hB
      (fun n => (htr n).1) hx
  · exact hf

/-- Any number of `propagate()` calls keep the lower bound when `B` is not
negative and the upper bound when `A` is not positive. -/
theorem run_keeps (ticks : List Tick) (s : STDPConnection)
    (mn mx a b : ℚ) (hmin : s.min_weight = F32.fin mn) (hmax : s.max_weight = F32.fin mx)
    (hrmn : F32.round mn = F32.fin mn) (hrmx : F32.round mx = F32.fin mx) (hmm : mn ≤ mx)
    (hA : s.A = F32.fin a) (hB : s.B = F32.fin b)
    (htr : ∀ t ∈ ticks, ∀ n, ((t.tr_pre n).IsFinite ∧ F32.le 0 (t.tr_pre n) = true) ∧
      ((t.tr_post n).IsFinite ∧ F32.le 0 (t.tr_post n) = true))
    (h0 : ∀ x ∈ s.w.coldata,
      (0 ≤ b → F32.le (F32.fin mn) x = true) ∧ (a ≤ 0 → F32.le x (F32.fin mx) = true)) :
    ∀ x ∈ (s.run ticks).w.coldata,
      (0 ≤ b → F32.le (F32.fin mn) x = true) ∧ (a ≤ 0 → F32.le x (F32.fin mx) = true) := by
  induction ticks generalizing s with
  | nil => exact h0
  | cons t ticks ih =>
    obtain ⟨fA, fB, fmin, fmax, -⟩ := propagate_frame s t
    exact ih (s.propagate t) (by rw [fmin]; exact hmin) (by rw [fmax]; exact hmax)
      (by rw [fA]; exact hA) (by rw [fB]; exact hB)
      (fun t2 ht2 => htr t2 (List.mem_cons_of_mem _ ht2))
      (propagate_keeps s t mn mx a b hmin hmax hrmn hrmx hmm hA hB
        (htr t (List.mem_cons_self _ _)) h0)

end STDPConnection

open STDPConnection

/-- C1, as the code has it. The forward pass clips from below only and the
backward pass from above only. For a connection with finite rates `A` and `B`,
binary32 bounds `min_weight <= max_weight`, weights that start in
`[min_weight, max_weight]` and finite non-negative traces, after any number of
`propagate()` calls every weight is at least `min_weight` when `B` is not
negative, whatever `A` is, and at most `max_weight` when `A` is not positive,
whatever `B` is. -/
theorem C1_weights_stay_in_bounds (s : STDPConnection) (ticks : List Tick)
    (hmin : s.min_weight.IsRep) (hmax : s.max_weight.IsRep)
    (hmm : F32.le s.min_weight s.max_weight = true)
    (hA : s.A.IsFinite) (hB : s.B.IsFinite)
    (htr : ∀ t ∈ ticks, ∀ n, ((t.tr_pre n).IsFinite ∧ F32.le 0 (t.tr_pre n) = true) ∧
      ((t.tr_post n).IsFinite ∧ F32.le 0 (t.tr_post n) = true))
    (h0 : ∀ x ∈ s.w.coldata,
      F32.le s.min_weight x = true ∧ F32.le x s.max_weight = true) :
    (F32.le 0 s.B = true →
        ∀ x ∈ (s.run ticks).w.coldata, F32.le s.min_weight x = true) ∧
      (F32.le s.A 0 = true →
        ∀ x ∈ (s.run ticks).w.coldata, F32.le x s.max_weight = true) := by
  obtain ⟨mn, hmn, hrmn⟩ := F32.isRep_exists hmin
  obtain ⟨mx, hmx, hrmx⟩ := F32.isRep_exists hmax
  obtain ⟨a, ha⟩ := F32.isFinite_exists hA
  obtain ⟨b, hb⟩ := F32.isFinite_exists hB
  rw [hmn, hmx] at hmm h0 ⊢
  rw [ha, hb]
  have hmm2 : mn ≤ mx := by simpa [F32.le] using hmm
  have key := run_keeps ticks s mn mx a b hmn hmx hrmn hrmx hmm2 ha hb htr
    (fun x hx => ⟨fun _ => (h0 x hx).1, fun _ => (h0 x hx).2⟩)
  constructor
  · intro h x hx
    have h2 : F32.le (F32.fin 0) (F32.fin b) = true := h
    exact (key x hx).1 (by simpa [F32.le] using h2)
  · intro h x hx
    have h2 : F32.le (F32.fin a) (F32.fin 0) = true := h
    exact (key x hx).2 (by simpa [F32.le] using h2)

theorem C1_weights_stay_in_bounds_witness :
    (F32.le 0 (twoNeuron (.fin 1) (.fin (1/8)) (.fin (1/8)) (.fin 0) (.fin 2) true).B = true ∧
      F32.le (twoNeuron (.fin 1) (.fin (-(1/8))) (.fin (1/8)) (.fin 0) (.fin 2) true).A 0
        = true) ∧
    (∀ x ∈ ((twoNeuron (.fin 1) (.fin (1/8)) (.fin (1/8)) (.fin 0) (.fin 2) true).run
        [tickOf [0] [0] (.fin 1) (.fin 1), tickOf [0] [] (.fin 1) (.fin 1)]).w.coldata,
      F32.le (twoNeuron (.fin 1) (.fin (1/8)) (.fin (1/8)) (.fin 0) (.fin 2) true).min_weight x
        = true) ∧
    (∀ x ∈ ((twoNeuron (.fin 1) (.fin (-(1/8))) (.fin (1/8)) (.fin 0) (.fin 2) true).run
        [tickOf [0] [0] (.fin 1) (.fin 1), tickOf [0] [] (.fin 1) (.fin 1)]).w.coldata,
      F32.le x (twoNeuron (.fin 1) (.fin (-(1/8))) (.fin (1/8)) (.fin 0) (.fin 2) true).max_weight
        = true) :=
  ⟨by simp [twoNeuron, F32.le, show (0 : F32) = F32.fin 0 from rfl],
    (C1_weights_stay_in_bounds (twoNeuron (.fin 1) (.fin (1/8)) (.fin (1/8)) (.fin 0) (.fin 2) true)
      [tickOf [0] [0] (.fin 1) (.fin 1), tickOf [0] [] (.fin 1) (.fin 1)]
      F32.round_zero round_two (by simp [twoNeuron, F32.le]) trivial trivial
      (by simp [tickOf, F32.IsFinite, F32.le, show (0 : F32) = F32.fin 0 from rfl])
      (by simp [twoNeuron, F32.le])).1
      (by simp [twoNeuron, F32.le, show (0 : F32) = F32.fin 0 from rfl]),
    (C1_weights_stay_in_bounds
      (twoNeuron (.fin 1) (.fin (-(1/8))) (.fin (1/8)) (.fin 0) (.fin 2) true)
      [tickOf [0] [0] (.fin 1) (.fin 1), tickOf [0] [] (.fin 1) (.fin 1)]
      F32.round_zero round_two (by simp [twoNeuron, F32.le]) trivial trivial
      (by simp [tickOf, F32.IsFinite, F32.le, show (0 : F32) = F32.fin 0 from rfl])
      (by simp [twoNeuron, F32.le])).2
      (by simp [twoNeuron, F32.le, show (0 : F32) = F32.fin 0 from rfl])⟩

/-- C1 as stated fails in both directions. With `A = B = 1/8`, bounds `[0, 2]`
and post-trace 1, a synapse of weight 2 whose source spikes holds
`17/8 > max_weight` after one `propagate()` call; with `A = B = -1/8` and
pre-trace 1, a synapse of weight 0 whose destination spikes holds
`-1/8 < min_weight`. A rate or a trace that is not finite breaks both bounds:
with `A = +∞` and post-trace 0, or `A = 0` and post-trace `+∞`, the product,
and then the weight, is not a number. -/
theorem C1_counterexample :
    (¬ ∀ (s : STDPConnection) (ticks : List Tick),
      s.min_weight.IsRep → s.max_weight.IsRep → F32.le s.min_weight s.max_weight = true →
      s.A.IsFinite → s.B.IsFinite →
      (∀ t ∈ ticks, ∀ n, ((t.tr_pre n).IsFinite ∧ F32.le 0 (t.tr_pre n) = true) ∧
        ((t.tr_post n).IsFinite ∧ F32.le 0 (t.tr_post n) = true)) →
      (∀ x ∈ s.w.coldata, F32.le s.min_weight x = true ∧ F32.le x s.max_weight = true) →
      ∀ x ∈ (s.run ticks).w.coldata,
        F32.le s.min_weight x = true ∧ F32.le x s.max_weight = true) ∧
    ((twoNeuron (.fin 2) (.fin (1/8)) (.fin (1/8)) (.fin 0) (.fin 2) true).run
        [tickOf [0] [] (.fin 1) (.fin 1)]).w.coldata = [.fin (17/8)] ∧
    ((twoNeuron (.fin 0) (.fin (-(1/8))) (.fin (-(1/8))) (.fin 0) (.fin 2) true).run
        [tickOf [] [0] (.fin 1) (.fin 1)]).w.coldata = [.fin (-(1/8))] ∧
    ((twoNeuron (.fin 1) .pinf (.fin (1/8)) (.fin 0) (.fin 2) true).run
        [tickOf [0] [] (.fin 1) (.fin 0)]).w.coldata = [.nan] ∧
    ((twoNeuron (.fin 1) (.fin 0) (.fin 0) (.fin 0) (.fin 2) true).run
        [tickOf [0] [] (.fin 1) .pinf]).w.coldata = [.nan] := by
  have h1 : ((twoNeuron (.fin 2) (.fin (1/8)) (.fin (1/8)) (.fin 0) (.fin 2) true).run
      [tickOf [0] [] (.fin 1) (.fin 1)]).w.coldata = [.fin (17/8)] := by
    show ((twoNeuron (.fin 2) (.fin (1/8)) (.fin (1/8)) (.fin 0) (.fin 2) true).propagate
      (tickOf [0] [] (.fin 1) (.fin 1))).w.coldata = _
    rw [twoNeuron_source]
    have e1 : F32.mul (.fin (1/8)) (.fin 1) = .fin (1/8) := by
      simp only [F32.mul, mul_one]; exact round_eighth
    have e2 : F32.add (.fin 2) (.fin (1/8)) = .fin (17/8) := by
      simp only [F32.add]
      rw [show (2 : ℚ) + 1/8 = 17/8 by norm_num]; exact round_two_eighth
    rw [e1, e2]
    norm_num [F32.clipBelow, F32.lt]
  have h2 : ((twoNeuron (.fin 0) (.fin (-(1/8))) (.fin (-(1/8))) (.fin 0) (.fin 2) true).run
      [tickOf [] [0] (.fin 1) (.fin 1)]).w.coldata = [.fin (-(1/8))] := by
    show ((twoNeuron (.fin 0) (.fin (-(1/8))) (.fin (-(1/8))) (.fin 0) (.fin 2) true).propagate
      (tickOf [] [0] (.fin 1) (.fin 1))).w.coldata = _
    rw [twoNeuron_destination]
    have e1 : F32.mul (.fin (-(1/8))) (.fin 1) = .fin (-(1/8)) := by
      simp only [F32.mul, mul_one]
      rw [F32.round_neg, round_eighth]; rfl
    have e2 : F32.add (.fin 0) (.fin (-(1/8))) = .fin (-(1/8)) := by
      simp only [F32.add, zero_add]
      rw [F32.round_neg, round_eighth]; rfl
    rw [e1, e2]
    norm_num [F32.clipAbove, F32.lt]
  have h4 : ((twoNeuron (.fin 1) .pinf (.fin (1/8)) (.fin 0) (.fin 2) true).run
      [tickOf [0] [] (.fin 1) (.fin 0)]).w.coldata = [.nan] := by
    show ((twoNeuron (.fin 1) .pinf (.fin (1/8)) (.fin 0) (.fin 2) true).propagate
      (tickOf [0] [] (.fin 1) (.fin 0))).w.coldata = _
    rw [twoNeuron_source]
    simp [F32.mul, F32.mulInf, F32.add, F32.clipBelow, F32.lt]
  have h5 : ((twoNeuron (.fin 1) (.fin 0) (.fin 0) (.fin 0) (.fin 2) true).run
      [tickOf [0] [] (.fin 1) .pinf]).w.coldata = [.nan] := by
    show ((twoNeuron (.fin 1) (.fin 0) (.fin 0) (.fin 0) (.fin 2) true).propagate
      (tickOf [0] [] (.fin 1) .pinf)).w.coldata = _
    rw [twoNeuron_source]
    simp [F32.mul, F32.mulInf, F32.add, F32.clipBelow, F32.lt]
  refine ⟨?_, h1, h2, h4, h5⟩
  intro h
  have h3 := h (twoNeuron (.fin 2) (.fin (1/8)) (.fin (1/8)) (.fin 0) (.fin 2) true)
    [tickOf [0] [] (.fin 1) (.fin 1)] F32.round_zero round_two (by simp [twoNeuron, F32.le])
    trivial trivial
    (by simp [tickOf, F32.IsFinite, F32.le, show (0 : F32) = F32.fin 0 from rfl])
    (by simp [twoNeuron, F32.le]) (.fin (17/8)) (by rw [h1]; simp)
  norm_num [twoNeuron, F32.le] at h3

end Auryn

namespace Auryn
open STDPConnection

namespace STDPConnection

theorem forwardWrites_events (s : STDPConnection) (t : Tick) :
    (s.forwardWrites t).map (fun w => (s.w.colAt w.1, s.w.coldata.getD w.1 0)) =
      t.src_spikes.flatMap (fun i => (s.w.rowCells i).map
        (fun c => (s.w.colAt c, s.w.read (s.w.get_data_ptr c)))) := by
  simp only [forwardWrites, forwardCells, List.map_map, List.map_flatMap]
  rfl

/-- The events of a forward pass over a duplicate-free spike list carry the
weights stored at the start of the pass. -/
theorem propagate_forward_delivered (s : STDPConnection) (t : Tick) (hwf : s.w.WF)
    (hsrc : t.src_spikes.Nodup) :
    (s.propagate_forward t).delivered =
      s.delivered ++ t.src_spikes.flatMap (fun i => (s.w.rowCells i).map
        (fun c => (s.w.colAt c, s.w.read (s.w.get_data_ptr c)))) := by
  rw [propagate_forward_eq, ← forwardWrites_events]
  show s.delivered ++ eventsOf s.w.colAt (s.forwardWrites t) s.w.coldata = _
  rw [eventsOf_nodup]
  rw [forwardWrites_fst]
  exact forwardCells_nodup s t hwf hsrc

end STDPConnection

/-- C5. For a duplicate-free source spike list, `propagate_forward` delivers,
for each spiking source neuron in spike-list order and each element of its row
in stored order, the event (destination column, weight stored at the start of
the call); so the delivered events do not depend on whether plasticity is
enabled. -/
theorem C5_forward_events (s : STDPConnection) (t : Tick) (hwf : s.w.WF)
    (hsrc : t.src_spikes.Nodup) :
    (s.propagate_forward t).delivered =
        s.delivered ++ t.src_spikes.flatMap (fun i => (s.w.rowCells i).map
          (fun c => (s.w.colAt c, s.w.read (s.w.get_data_ptr c)))) ∧
      ({ s with stdp_active := true }.propagate_forward t).delivered =
        ({ s with stdp_active := false }.propagate_forward t).delivered := by
  exact ⟨propagate_forward_delivered s t hwf hsrc,
    (propagate_forward_delivered { s with stdp_active := true } t hwf hsrc).trans
      (propagate_forward_delivered { s with stdp_active := false } t hwf hsrc).symm⟩

theorem C5_forward_events_witness :
    (sampleConnection.w.WF ∧ (tickOf [2, 0] [] (.fin 1) (.fin 1)).src_spikes.Nodup) ∧
    ((sampleConnection.propagate_forward (tickOf [2, 0] [] (.fin 1) (.fin 1))).delivered =
        sampleConnection.delivered ++ (tickOf [2, 0] [] (.fin 1) (.fin 1)).src_spikes.flatMap
          (fun i => (sampleConnection.w.rowCells i).map
            (fun c => (sampleConnection.w.colAt c,
              sampleConnection.w.read (sampleConnection.w.get_data_ptr c)))) ∧
      ({ sampleConnection with stdp_active := true }.propagate_forward
          (tickOf [2, 0] [] (.fin 1) (.fin 1))).delivered =
        ({ sampleConnection with stdp_active := false }.propagate_forward
          (tickOf [2, 0] [] (.fin 1) (.fin 1))).delivered) :=
  ⟨by decide,
    C5_forward_events sampleConnection (tickOf [2, 0] [] (.fin 1) (.fin 1)) (by decide) (by decide)⟩

/-- C7. With plasticity disabled, `propagate()` leaves the forward matrix, and
so every weight cell, unchanged, and every element of the row of a spiking
source neuron delivers its stored weight. -/
theorem C7_disabled_plasticity (s : STDPConnection) (t : Tick) (hoff : s.stdp_active = false) :
    (s.propagate t).w = s.w ∧
      (s.propagate t).delivered =
        s.delivered ++ t.src_spikes.flatMap (fun i => (s.w.rowCells i).map
          (fun c => (s.w.colAt c, s.w.read (s.w.get_data_ptr c)))) := by
  have hid : ∀ w ∈ s.forwardWrites t, ∀ x, w.2 x = x := by
    intro w hw x
    obtain ⟨c, -, rfl⟩ := List.mem_map.mp hw
    simp [forwardUpdate, hoff]
  rw [propagate_eq, ← forwardWrites_events]
  simp only [hoff, Bool.false_eq_true, if_false, forwardResult]
  rw [applyWrites_id _ _ hid, eventsOf_id _ _ _ hid]
  exact ⟨rfl, rfl⟩

theorem C7_disabled_plasticity_witness :
    (twoNeuron (.fin 1) (.fin (1/8)) (.fin (1/8)) (.fin 0) (.fin 2) false).stdp_active = false ∧
    (((twoNeuron (.fin 1) (.fin (1/8)) (.fin (1/8)) (.fin 0) (.fin 2) false).propagate
          (tickOf [0] [] (.fin 1) (.fin 1))).w =
        (twoNeuron (.fin 1) (.fin (1/8)) (.fin (1/8)) (.fin 0) (.fin 2) false).w ∧
      ((twoNeuron (.fin 1) (.fin (1/8)) (.fin (1/8)) (.fin 0) (.fin 2) false).propagate
          (tickOf [0] [] (.fin 1) (.fin 1))).delivered =
        (twoNeuron (.fin 1) (.fin (1/8)) (.fin (1/8)) (.fin 0) (.fin 2) false).delivered ++
          (tickOf [0] [] (.fin 1) (.fin 1)).src_spikes.flatMap (fun i =>
            ((twoNeuron (.fin 1) (.fin (1/8)) (.fin (1/8)) (.fin 0) (.fin 2) false).w.rowCells i).map
              (fun c => ((twoNeuron (.fin 1) (.fin (1/8)) (.fin (1/8)) (.fin 0) (.fin 2) false).w.colAt c,
                (twoNeuron (.fin 1) (.fin (1/8)) (.fin (1/8)) (.fin 0) (.fin 2) false).w.read
                  ((twoNeuron (.fin 1) (.fin (1/8)) (.fin (1/8)) (.fin 0) (.fin 2) false).w.get_data_ptr c))))) ∧
    [(0, F32.fin 1)] = (tickOf [0] [] (.fin 1) (.fin 1)).src_spikes.flatMap (fun i =>
            ((twoNeuron (.fin 1) (.fin (1/8)) (.fin (1/8)) (.fin 0) (.fin 2) false).w.rowCells i).map
              (fun c => ((twoNeuron (.fin 1) (.fin (1/8)) (.fin (1/8)) (.fin 0) (.fin 2) false).w.colAt c,
                (twoNeuron (.fin 1) (.fin (1/8)) (.fin (1/8)) (.fin 0) (.fin 2) false).w.read
                  ((twoNeuron (.fin 1) (.fin (1/8)) (.fin (1/8)) (.fin 0) (.fin 2) false).w.get_data_ptr c)))) :=
  ⟨rfl,
    C7_disabled_plasticity (twoNeuron (.fin 1) (.fin (1/8)) (.fin (1/8)) (.fin 0) (.fin 2) false)
      (tickOf [0] [] (.fin 1) (.fin 1)) rfl,
    by simp [tickOf, twoNeuron, ForwardMatrix.rowCells, ForwardMatrix.get_row_begin,
      ForwardMatrix.get_row_end, ForwardMatrix.get_rowptr, ForwardMatrix.colAt,
      ForwardMatrix.read, ForwardMatrix.get_data_ptr]⟩

end Auryn

namespace Auryn
open STDPConnection

namespace STDPConnection

theorem mem_backwardEntries (s : STDPConnection) (t : Tick) (e : BkwEntry) :
    e ∈ s.backwardEntries t ↔ e ∈ s.bkw.entries ∧ e.row ∈ t.dst_spikes_immediate := by
  simp only [backwardEntries, BackwardMatrix.rowEntries, List.mem_flatMap, List.mem_filter,
    beq_iff_eq]
  constructor
  · rintro ⟨j, hj, he, rfl⟩
    exact ⟨he, hj⟩
  · rintro ⟨he, hj⟩
    exact ⟨e.row, hj, he, rfl⟩

theorem mem_writesOf (s : STDPConnection) (t : Tick) (es : List BkwEntry) (w : Nat × (F32 → F32)) :
    w ∈ s.writesOf t es ↔ ∃ e ∈ es, e.data = some w.1 ∧ w.2 = s.backwardUpdate t e.col := by
  simp only [writesOf, List.mem_filterMap, Option.map_eq_some']
  constructor
  · rintro ⟨e, he, p, hp, rfl⟩
    exact ⟨e, he, hp, rfl⟩
  · rintro ⟨e, he, hp, hg⟩
    exact ⟨e, he, w.1, hp, by rw [← hg]⟩

theorem mem_writesOf_fst (s : STDPConnection) (t : Tick) (es : List BkwEntry) (k : Nat) :
    k ∈ (s.writesOf t es).map Prod.fst ↔ ∃ e ∈ es, e.data = some k := by
  rw [List.mem_map]
  constructor
  · rintro ⟨w, hw, rfl⟩
    obtain ⟨e, he, hd, -⟩ := (mem_writesOf s t es w).mp hw
    exact ⟨e, he, hd⟩
  · rintro ⟨e, he, hd⟩
    exact ⟨(k, s.backwardUpdate t e.col), (mem_writesOf s t es _).mpr ⟨e, he, hd, rfl⟩, rfl⟩

theorem writesOf_fst (s : STDPConnection) (t : Tick) (es : List BkwEntry) :
    ((s.writesOf t es).map Prod.fst).map some =
      (es.map (fun e => e.data)).filter (fun o => o.isSome) := by
  induction es with
  | nil => rfl
  | cons e es ih =>
    obtain ⟨r, c, d⟩ := e
    cases d with
    | none => simpa [writesOf] using ih
    | some p => simpa [writesOf] using ih

theorem backwardEntries_nodup (s : STDPConnection) (t : Tick)
    (hnd : (s.bkw.entries.map (fun e => e.data)).Nodup) (hdst : t.dst_spikes_immediate.Nodup) :
    ((s.writesOf t (s.backwardEntries t)).map Prod.fst).Nodup := by
  apply List.Nodup.of_map some
  rw [writesOf_fst]
  apply List.Nodup.filter
  have hes : (s.backwardEntries t).Nodup := by
    unfold backwardEntries
    rw [List.nodup_flatMap]
    refine ⟨fun j _ => (List.Nodup.of_map _ hnd).filter _, ?_⟩
    refine hdst.imp ?_
    intro j j2 hne e he he2
    simp only [BackwardMatrix.rowEntries, List.mem_filter, beq_iff_eq] at he he2
    exact hne (he.2.symm.trans he2.2)
  refine List.Nodup.map_on ?_ hes
  intro x hx y hy hxy
  exact List.inj_on_of_nodup_map hnd ((mem_backwardEntries s t x).mp hx).1
    ((mem_backwardEntries s t y).mp hy).1 hxy

/-- A cell whose destination column did not spike is not addressed by the
backward pass. -/
theorem not_mem_backward_of_col (s : STDPConnection) (t : Tick) (hm : MirrorSound s.w s.bkw)
    (k : Nat) (hk : s.w.colAt k ∉ t.dst_spikes_immediate) :
    k ∉ (s.writesOf t (s.backwardEntries t)).map Prod.fst := by
  rw [mem_writesOf_fst]
  rintro ⟨e, he, hd⟩
  obtain ⟨he1, he2⟩ := (mem_backwardEntries s t e).mp he
  obtain ⟨-, k2, hk2, -, hc⟩ := hm e he1
  rw [hd] at hk2
  have : k2 = k := (Option.some.inj (Option.mem_def.mp hk2)).symm
  rw [this] at hc
  exact hk (by rw [hc]; exact he2)

/-- The weight of a cell after the forward pass. -/
theorem forward_value (s : STDPConnection) (t : Tick) (hwf : s.w.WF)
    (hsrc : t.src_spikes.Nodup) (i k : Nat) (hk : k ∈ s.w.rowCells i) :
    (applyWrites (s.forwardWrites t) s.w.coldata).getD k 0 =
      if i ∈ t.src_spikes then s.forwardUpdate t k (s.w.coldata.getD k 0)
      else s.w.coldata.getD k 0 := by
  split_ifs with hi
  · apply applyWrites_getD_of_mem
    · rw [forwardWrites_fst]; exact forwardCells_nodup s t hwf hsrc
    · exact hwf.cell_lt_length hk
    · exact List.mem_map.mpr ⟨k, (mem_forwardCells s t k).mpr ⟨i, hi, hk⟩, rfl⟩
  · apply applyWrites_getD_of_not_mem
    rw [forwardWrites_fst, mem_forwardCells]
    rintro ⟨i2, hi2, hk2⟩
    exact hi (by rw [hwf.row_unique hk hk2]; exact hi2)

/-- The weight of a cell after the backward pass over a complete mirror. -/
theorem backward_value (s : STDPConnection) (t : Tick) (hwf : s.w.WF)
    (hm : IsMirror s.w s.bkw) (hdst : t.dst_spikes_immediate.Nodup) (i k : Nat)
    (hk : k ∈ s.w.rowCells i) (l : List F32) (hl : l.length = s.w.coldata.length) :
    (applyWrites (s.writesOf t (s.backwardEntries t)) l).getD k 0 =
      if s.w.colAt k ∈ t.dst_spikes_immediate then s.backwardUpdate t i (l.getD k 0)
      else l.getD k 0 := by
  split_ifs with hc
  · obtain ⟨e, he, hd⟩ := hm.2.2 i (hwf.row_lt hk) k hk
    obtain ⟨-, k2, hk2, hrow, hcol⟩ := hm.1 e he
    rw [hd] at hk2
    have hkk : k2 = k := (Option.some.inj (Option.mem_def.mp hk2)).symm
    rw [hkk] at hrow hcol
    have hei : e.col = i := hwf.row_unique hrow hk
    apply applyWrites_getD_of_mem
    · exact backwardEntries_nodup s t hm.2.1 hdst
    · rw [hl]; exact hwf.cell_lt_length hk
    · rw [mem_writesOf]
      exact ⟨e, (mem_backwardEntries s t e).mpr ⟨he, by rw [← hcol]; exact hc⟩, hd,
        by rw [hei]⟩
  · exact applyWrites_getD_of_not_mem _ _ _ (not_mem_backward_of_col s t hm.1 k hc)

end STDPConnection

/-- C4. One `propagate()` call with plasticity enabled, duplicate-free spike
lists and a complete backward mirror leaves in the cell of the synapse from
source `i` to destination `c` (start value `w`): `max (w + A*post(c)) min_weight`
if only `i` spiked, `min (w + B*pre(i)) max_weight` if only `c` spiked,
`min (max (w + A*post(c)) min_weight + B*pre(i)) max_weight` if both spiked,
and `w` if neither did; `post(c)` is the post-trace at `global2rank c` and
`pre(i)` the pre-trace at `i`, as `dw_pre` and `dw_post` read them. Here `+`
and `*` are the `float` operations of the code, each rounded to binary32, and
`max x min_weight`, `min x max_weight` are the two clips of the code, which on
finite values are the larger and the smaller of the two numbers. -/
theorem C4_propagate_cell_value (s : STDPConnection) (t : Tick) (hwf : s.w.WF)
    (hm : IsMirror s.w s.bkw) (hact : s.stdp_active = true) (hsrc : t.src_spikes.Nodup)
    (hdst : t.dst_spikes_immediate.Nodup) (i k : Nat) (hk : k ∈ s.w.rowCells i) :
    ((s.propagate t).w.read k =
      if i ∈ t.src_spikes then
        if s.w.colAt k ∈ t.dst_spikes_immediate then
          F32.clipAbove (F32.add
            (F32.clipBelow (F32.add (s.w.read k)
              (F32.mul s.A (t.tr_post (t.global2rank (s.w.colAt k))))) s.min_weight)
            (F32.mul s.B (t.tr_pre i))) s.max_weight
        else
          F32.clipBelow (F32.add (s.w.read k)
            (F32.mul s.A (t.tr_post (t.global2rank (s.w.colAt k))))) s.min_weight
      else
        if s.w.colAt k ∈ t.dst_spikes_immediate then
          F32.clipAbove (F32.add (s.w.read k) (F32.mul s.B (t.tr_pre i))) s.max_weight
        else s.w.read k) ∧
    (∀ x m : ℚ, F32.clipBelow (F32.fin x) (F32.fin m) = F32.fin (max x m)) ∧
    (∀ x m : ℚ, F32.clipAbove (F32.fin x) (F32.fin m) = F32.fin (min x m)) := by
  refine ⟨?_, F32.clipBelow_fin, F32.clipAbove_fin⟩
  unfold ForwardMatrix.read
  rw [propagate_coldata, if_pos hact,
    backward_value s t hwf hm hdst i k hk _ (applyWrites_length _ _),
    forward_value s t hwf hsrc i k hk]
  simp only [forwardUpdate, backwardUpdate, hact, if_true]
  split_ifs <;> rfl

theorem C4_propagate_cell_value_witness :
    ((twoNeuron (.fin 1) (.fin (13421773/134217728)) (.fin (13421773/67108864)) (.fin 0)
        (.fin 2) true).w.WF ∧
      IsMirror
        (twoNeuron (.fin 1) (.fin (13421773/134217728)) (.fin (13421773/67108864)) (.fin 0)
          (.fin 2) true).w
        (twoNeuron (.fin 1) (.fin (13421773/134217728)) (.fin (13421773/67108864)) (.fin 0)
          (.fin 2) true).bkw) ∧
    ((twoNeuron (.fin 1) (.fin (13421773/134217728)) (.fin (13421773/67108864)) (.fin 0)
        (.fin 2) true).propagate (tickOf [0] [0] (.fin 1) (.fin 1))).w.read 0 =
      .fin (10905191/8388608) :=
  ⟨by decide,
    (C4_propagate_cell_value
      (twoNeuron (.fin 1) (.fin (13421773/134217728)) (.fin (13421773/67108864)) (.fin 0)
        (.fin 2) true) (tickOf [0] [0] (.fin 1) (.fin 1))
      (by decide) (by decide) rfl (by decide) (by decide) 0 0 (by decide)).1.trans
      (by
        simp only [twoNeuron, tickOf, ForwardMatrix.read, ForwardMatrix.colAt,
          List.getD_cons_zero, List.mem_singleton, if_true, id]
        rw [mul_tenth_one, add_one_tenth, F32.clipBelow_fin, mul_fifth_one]
        rw [show max (9227469 / 8388608 : ℚ) 0 = 9227469 / 8388608 by norm_num,
          add_tenth_fifth, F32.clipAbove_fin]
        norm_num)⟩

end Auryn

namespace Auryn
open STDPConnection

/-- C6 as stated fails: a synapse of weight 2 with bounds `[0, 2]`, `A` the
`float` nearest to `0.1` and post-trace 1 whose source alone spikes is not
clamped to `max_weight`: it holds `2.0f + 0.1f = 4404019/2097152`, which is
above 2. -/
theorem C6_counterexample :
    (¬ ∀ (w A B mn mx pre post : F32),
      w.IsRep → A.IsRep → B.IsRep → mn.IsRep → mx.IsRep → pre.IsRep → post.IsRep →
      F32.le mn mx = true → F32.le mn w = true → F32.le w mx = true →
      ((twoNeuron w A B mn mx true).propagate (tickOf [0] [] pre post)).w.coldata =
        [F32.clipAbove (F32.add w (F32.mul A post)) mx]) ∧
    ((twoNeuron (.fin 2) (.fin (13421773/134217728)) (.fin (13421773/134217728)) (.fin 0)
        (.fin 2) true).propagate (tickOf [0] [] (.fin 1) (.fin 1))).w.coldata =
      [.fin (4404019/2097152)] ∧
    F32.lt (.fin 2) (.fin (4404019/2097152)) = true := by
  have h1 : ((twoNeuron (.fin 2) (.fin (13421773/134217728)) (.fin (13421773/134217728))
      (.fin 0) (.fin 2) true).propagate (tickOf [0] [] (.fin 1) (.fin 1))).w.coldata =
      [.fin (4404019/2097152)] := by
    rw [twoNeuron_source, mul_tenth_one, add_two_tenth, F32.clipBelow_fin]
    norm_num
  refine ⟨?_, h1, by norm_num [F32.lt]⟩
  intro h
  have h2 := h (.fin 2) (.fin (13421773/134217728)) (.fin (13421773/134217728)) (.fin 0)
    (.fin 2) (.fin 1) (.fin 1) round_two round_tenth_rep round_tenth_rep F32.round_zero
    round_two round_one round_one (by norm_num [F32.le]) (by norm_num [F32.le])
    (by norm_num [F32.le])
  rw [h1, mul_tenth_one, add_two_tenth, F32.clipAbove_fin] at h2
  norm_num at h2

/-- C6, as the code has it. In a two-neuron connection with one synapse of
weight `w` whose source neuron alone spikes, with plasticity enabled, the
stored weight after `propagate()` is the `float` sum `w + A*post_trace` when
that sum is not below `min_weight` and `min_weight` when it is; there is no
upper clamp. With `w = 1`, bounds `[0, 2]`, `A` the `float` nearest to `0.1`
and post-trace 1 it is the `float` nearest to `1.1`, which is
`9227469/8388608`. -/
theorem C6_single_synapse_source_spike (w A B mn mx pre post : F32) :
    ((twoNeuron w A B mn mx true).propagate (tickOf [0] [] pre post)).w.coldata =
        [if F32.lt (F32.add w (F32.mul A post)) mn then mn
          else F32.add w (F32.mul A post)] ∧
      ((twoNeuron (.fin 1) (F32.round (1/10)) B (.fin 0) (.fin 2) true).propagate
          (tickOf [0] [] pre (.fin 1))).w.coldata = [F32.round (11/10)] ∧
      F32.round (11/10) = .fin (9227469/8388608) := by
  refine ⟨twoNeuron_source w A B mn mx pre post, ?_, round_eleven_tenth⟩
  rw [twoNeuron_source, round_tenth, mul_tenth_one, add_one_tenth, F32.clipBelow_fin,
    round_eleven_tenth]
  norm_num

end Auryn

namespace Auryn
open STDPConnection

namespace ForwardMatrix

theorem read_write (m : ForwardMatrix) (cell : Nat) (v : F32) (h : cell < m.coldata.length)
    (c2 : Nat) : (m.write cell v).read c2 = if c2 = cell then v else m.read c2 := by
  unfold read write
  split_ifs with hc
  · subst hc; exact getD_set_self _ _ _ _ h
  · exact getD_set_other _ _ _ _ _ (Ne.symm hc)

end ForwardMatrix

/-- C3. Every element `(j, i)` of a backward matrix built by
`compute_reverse_matrix` holds the address of the weight cell of the forward
element `(i, j)`; a value written through that address is what the forward
cell then reads, and no other forward cell changes. The step of
`propagate_backward` at the element writes the `float` sum
`weight + B*pre_trace(i)`, clipped to `max_weight` from above, there. -/
theorem C3_backward_entry_aliases_forward_cell (fwd : ForwardMatrix) (localrank : Nat → Bool)
    (bkw0 : BackwardMatrix) (log : List LogMessageType) (hwf : fwd.WF) (e : BkwEntry)
    (he : e ∈ (compute_reverse_matrix fwd localrank bkw0 log).1.entries) :
    ∃ cell, e.data = some cell ∧ fwd.get_ptr e.col e.row = some cell ∧
      cell ∈ fwd.rowCells e.col ∧ fwd.colAt cell = e.row ∧
      (∀ v c2, (fwd.write cell v).read c2 = if c2 = cell then v else fwd.read c2) ∧
      ∀ (bkw : BackwardMatrix) (A B mn mx : F32) (act : Bool) (del : List (Nat × F32))
          (t : Tick),
        (backwardEntry t ⟨fwd, bkw, A, B, mn, mx, act, del⟩ e).w =
          fwd.write cell
            (F32.clipAbove (F32.add (fwd.read cell) (F32.mul B (t.tr_pre e.col))) mx) := by
  obtain ⟨-, cell, h1, h2, h3, h4⟩ := compute_reverse_matrix_sound fwd hwf localrank bkw0 log e he
  refine ⟨cell, h1, h4, h2, h3, fun v c2 => fwd.read_write cell v (hwf.cell_lt_length h2) c2,
    ?_⟩
  intro bkw A B mn mx act del t
  rw [backwardEntry_eq]
  simp only [backwardResult, writesOf, h1, List.filterMap_cons, List.filterMap_nil,
    Option.map_some', applyWrites, List.foldl_cons, List.foldl_nil, applyWrite, backwardUpdate]
  rfl

theorem C3_backward_entry_aliases_forward_cell_witness :
    (sampleForward.WF ∧ (⟨1, 2, some 3⟩ : BkwEntry) ∈
      (compute_reverse_matrix sampleForward (fun _ => true) sampleBackward []).1.entries) ∧
    ∃ cell, (⟨1, 2, some 3⟩ : BkwEntry).data = some cell ∧
      sampleForward.get_ptr 2 1 = some cell ∧
      cell ∈ sampleForward.rowCells 2 ∧ sampleForward.colAt cell = 1 ∧
      (∀ v c2, (sampleForward.write cell v).read c2 =
        if c2 = cell then v else sampleForward.read c2) ∧
      ∀ (bkw : BackwardMatrix) (A B mn mx : F32) (act : Bool) (del : List (Nat × F32))
          (t : Tick),
        (backwardEntry t ⟨sampleForward, bkw, A, B, mn, mx, act, del⟩ ⟨1, 2, some 3⟩).w =
          sampleForward.write cell
            (F32.clipAbove (F32.add (sampleForward.read cell) (F32.mul B (t.tr_pre 2))) mx) :=
  ⟨by decide,
    C3_backward_entry_aliases_forward_cell sampleForward (fun _ => true) sampleBackward []
      (by decide) ⟨1, 2, some 3⟩ (by decide)⟩

/-- C8. What `compute_reverse_matrix` stores depends on the forward matrix and
the column ownership only, not on the backward matrix or the log it starts
from: any two runs store the same elements and the same number of them, a
second run on its own result stores them again, and so does `finalize()`. -/
theorem C8_reverse_matrix_independent_of_previous_backward (fwd : ForwardMatrix)
    (localrank : Nat → Bool) (b1 b2 : BackwardMatrix) (log1 log2 : List LogMessageType)
    (flag : Bool) :
    (compute_reverse_matrix fwd localrank b1 log1).1.entries =
        (compute_reverse_matrix fwd localrank b2 log2).1.entries ∧
      (compute_reverse_matrix fwd localrank b1 log1).1.get_nonzero =
        (compute_reverse_matrix fwd localrank b2 log2).1.get_nonzero ∧
      (compute_reverse_matrix fwd localrank (compute_reverse_matrix fwd localrank b1 log1).1
          (compute_reverse_matrix fwd localrank b1 log1).2).1.entries =
        (compute_reverse_matrix fwd localrank b1 log1).1.entries ∧
      (compute_reverse_matrix fwd localrank (compute_reverse_matrix fwd localrank b1 log1).1
          (compute_reverse_matrix fwd localrank b1 log1).2).1.get_nonzero =
        (compute_reverse_matrix fwd localrank b1 log1).1.get_nonzero ∧
      ((DuplexConnection.finalize ⟨fwd, some b1, flag, log1⟩ localrank).map
          (fun c => (c.w, c.bkw.map (fun b => (b.entries, b.get_nonzero))))) =
        some (fwd, some ((compute_reverse_matrix fwd localrank b2 log2).1.entries,
          (compute_reverse_matrix fwd localrank b2 log2).1.get_nonzero)) := by
  have h := compute_reverse_matrix_entries fwd localrank
  refine ⟨h b1 b2 log1 log2, ?_, h _ b1 _ log1, ?_, ?_⟩
  · unfold BackwardMatrix.get_nonzero; rw [h b1 b2 log1 log2]
  · unfold BackwardMatrix.get_nonzero; rw [h _ b1 _ log1]
  · simp only [DuplexConnection.finalize, Option.map_some', BackwardMatrix.get_nonzero]
    rw [h _ b2 _ log2]

/-- C9. `propagate()` over a connection whose backward elements hold the
addresses of the right forward cells changes no weight cell outside the rows
of the spiking source neurons and the columns of the spiking destination
neurons; with no nonzero element it changes no weight and delivers no event. -/
theorem C9_propagate_changes_only_spiking_synapses (s : STDPConnection) (t : Tick)
    (hwf : s.w.WF) (hm : MirrorSound s.w s.bkw) :
    (∀ k, (∀ i ∈ t.src_spikes, k ∉ s.w.rowCells i) →
        s.w.colAt k ∉ t.dst_spikes_immediate → (s.propagate t).w.read k = s.w.read k) ∧
      (s.w.get_nonzero = 0 →
        (s.propagate t).w = s.w ∧ (s.propagate t).delivered = s.delivered) := by
  constructor
  · intro k hsrc hdst
    have hf : (applyWrites (s.forwardWrites t) s.w.coldata).getD k 0 = s.w.coldata.getD k 0 := by
      apply applyWrites_getD_of_not_mem
      rw [forwardWrites_fst, mem_forwardCells]
      rintro ⟨i, hi, hk⟩
      exact hsrc i hi hk
    unfold ForwardMatrix.read
    rw [propagate_coldata]
    split_ifs
    · rw [applyWrites_getD_of_not_mem _ _ _ (not_mem_backward_of_col s t hm k hdst), hf]
    · exact hf
  · intro hz
    have hrows : ∀ i, s.w.rowCells i = [] := by
      intro i
      rw [List.eq_nil_iff_forall_not_mem]
      intro k hk
      have := hwf.cell_lt_length hk
      rw [hwf.2.2.2.2.2.1] at this
      unfold ForwardMatrix.get_nonzero at hz
      omega
    have hfw : s.forwardWrites t = [] := by
      unfold forwardWrites forwardCells
      rw [List.map_eq_nil_iff, List.flatMap_eq_nil_iff]
      exact fun i _ => hrows i
    have hbw : s.writesOf t (s.backwardEntries t) = [] := by
      rw [List.eq_nil_iff_forall_not_mem]
      intro w hw
      obtain ⟨e, he, -⟩ := (mem_writesOf s t _ w).mp hw
      obtain ⟨-, k, -, hk, -⟩ := hm e ((mem_backwardEntries s t e).mp he).1
      rw [hrows] at hk
      exact List.not_mem_nil _ hk
    rw [propagate_eq, hfw, hbw]
    split_ifs
    · rw [backwardResult_nil, forwardResult_nil]; exact ⟨rfl, rfl⟩
    · rw [forwardResult_nil]; exact ⟨rfl, rfl⟩

theorem C9_propagate_changes_only_spiking_synapses_witness :
    ((sampleConnection.w.WF ∧ MirrorSound sampleConnection.w sampleConnection.bkw) ∧
      (emptyConnection.w.WF ∧ MirrorSound emptyConnection.w emptyConnection.bkw ∧
        emptyConnection.w.get_nonzero = 0)) ∧
    (sampleConnection.propagate (tickOf [0] [3] (.fin 1) (.fin 1))).w.read 2 = sampleConnection.w.read 2 ∧
    (emptyConnection.propagate (tickOf [0, 1] [0, 1] (.fin 1) (.fin 1))).w = emptyConnection.w ∧
    (emptyConnection.propagate (tickOf [0, 1] [0, 1] (.fin 1) (.fin 1))).delivered = emptyConnection.delivered :=
  ⟨by decide,
    (C9_propagate_changes_only_spiking_synapses sampleConnection (tickOf [0] [3] (.fin 1) (.fin 1))
      (by decide) (by decide)).1 2 (by decide) (by decide),
    (C9_propagate_changes_only_spiking_synapses emptyConnection (tickOf [0, 1] [0, 1] (.fin 1) (.fin 1))
      (by decide) (by decide)).2 rfl⟩

/-- C10 at the failing input. The constructor that takes a weight and a
sparseness never assigns `allocated_bkw`; with an empty destination it does
not run `init()` either, so when the member happens to hold `true` the
destructor frees a backward matrix that this instance never allocated. -/
theorem C10_sparseness_constructor_leaves_flag_unset :
    (DuplexConnection.construct Constructor.fromSparseness sampleForward 0 (fun _ => true)
        true).destructorFrees = true ∧
      (DuplexConnection.construct Constructor.fromSparseness sampleForward 0 (fun _ => true)
        true).allocatedMirror = false := by
  decide

/-- On every other path through the constructors the flag tells whether
`init()` allocated the backward matrix. -/
theorem construct_flag (k : Constructor) (w : ForwardMatrix) (post_size : Nat)
    (localrank : Nat → Bool) (uninit : Bool) (h : k ≠ Constructor.fromSparseness ∨ 0 < post_size) :
    (DuplexConnection.construct k w post_size localrank uninit).destructorFrees =
      (DuplexConnection.construct k w post_size localrank uninit).allocatedMirror := by
  cases k <;>
    simp only [DuplexConnection.construct, DuplexConnection.destructorFrees,
      DuplexConnection.allocatedMirror, DuplexConnection.init] <;>
    first
    | rfl
    | (split_ifs with hp
       · rfl
       · first
         | rfl
         | (exfalso; rcases h with h | h
            · exact h rfl
            · exact hp h))

end Auryn

namespace Auryn

/-! ## The order of the backward store -/

theorem walkRow_order (fwd : ForwardMatrix) (j i0 : Nat) (s : Walk) (h : WalkOrder j i0 s) :
    WalkOrder j (i0 + 1) (walkRow fwd j s i0) := by
  obtain ⟨hp, hb⟩ := h
  unfold walkRow
  split_ifs
  · constructor
    · simp only [BackwardMatrix.push_back]
      rw [List.pairwise_append]
      refine ⟨hp, List.pairwise_singleton _ _, ?_⟩
      intro a ha b hb2
      rw [List.mem_singleton.mp hb2]
      exact hb a ha
    · intro e he
      simp only [BackwardMatrix.push_back, List.mem_append, List.mem_singleton] at he
      rcases he with he | rfl
      · rcases hb e he with h1 | ⟨h1, h2⟩
        · exact Or.inl h1
        · exact Or.inr ⟨h1, by omega⟩
      · exact Or.inr ⟨rfl, Nat.lt_succ_self _⟩
  all_goals
    refine ⟨hp, fun e he => ?_⟩
    rcases hb e he with h1 | ⟨h1, h2⟩
    · exact Or.inl h1
    · exact Or.inr ⟨h1, by omega⟩

theorem walkCol_order (fwd : ForwardMatrix) (localrank : Nat → Bool) (maxrows j : Nat)
    (s : Walk) (h : WalkOrder j 0 s) :
    WalkOrder (j + 1) 0 (walkCol fwd localrank maxrows s j) := by
  have key : ∀ s2, WalkOrder j maxrows s2 → WalkOrder (j + 1) 0 s2 := by
    rintro s2 ⟨hp, hb⟩
    refine ⟨hp, fun e he => Or.inl ?_⟩
    rcases hb e he with h1 | ⟨h1, -⟩ <;> omega
  have key0 : ∀ s2, WalkOrder j 0 s2 → WalkOrder (j + 1) 0 s2 := by
    rintro s2 ⟨hp, hb⟩
    refine ⟨hp, fun e he => Or.inl ?_⟩
    rcases hb e he with h1 | ⟨h1, h2⟩ <;> omega
  unfold walkCol
  split_ifs
  · exact key _ (foldl_range_inv (walkRow fwd j) (fun i s2 => WalkOrder j i s2) maxrows s h
      (fun i s2 _ h2 => walkRow_order fwd j i s2 h2))
  · exact key0 s h

/-- The walk of `compute_reverse_matrix`, begun on an empty store, appends in
the order of the store. -/
theorem reverseWalk_order (fwd : ForwardMatrix) (localrank : Nat → Bool) (bkw : BackwardMatrix)
    (hb : bkw.entries = []) :
    (reverseWalk fwd localrank bkw).bkw.entries.Pairwise BkwEntry.before := by
  unfold reverseWalk
  exact (foldl_range_inv (walkCol fwd localrank fwd.m_rows) (fun j s => WalkOrder j 0 s)
    fwd.n_cols _ ⟨by simp [hb], by simp [hb]⟩
    (fun j s _ h => walkCol_order fwd localrank fwd.m_rows j s h)).1

/-- A cursor of the walk never moves back in a step of the inner loop. -/
theorem walkRow_cursor_le (fwd : ForwardMatrix) (j i : Nat) (s : Walk) (i2 : Nat) :
    s.rowwalker.getD i2 0 ≤ (walkRow fwd j s i).rowwalker.getD i2 0 := by
  unfold walkRow
  split_ifs
  · by_cases hi : i = i2
    · subst hi
      by_cases hlen : i < s.rowwalker.length
      · simp only [getD_set_self _ _ _ _ hlen]; omega
      · simp only [List.set_eq_of_length_le (Nat.le_of_not_lt hlen)]
        exact le_rfl
    · simp only [getD_set_other _ _ _ _ _ hi]
      exact le_rfl
  · exact le_rfl
  · exact le_rfl

theorem foldl_cursor_le {α : Type} (f : Walk → α → Walk) (i2 : Nat)
    (h : ∀ s a, s.rowwalker.getD i2 0 ≤ (f s a).rowwalker.getD i2 0) (l : List α) (s : Walk) :
    s.rowwalker.getD i2 0 ≤ (l.foldl f s).rowwalker.getD i2 0 := by
  induction l generalizing s with
  | nil => exact le_rfl
  | cons a l ih => exact le_trans (h s a) (ih (f s a))

theorem walkCol_cursor_le (fwd : ForwardMatrix) (localrank : Nat → Bool) (maxrows j : Nat)
    (s : Walk) (i2 : Nat) :
    s.rowwalker.getD i2 0 ≤ (walkCol fwd localrank maxrows s j).rowwalker.getD i2 0 := by
  unfold walkCol
  split_ifs
  · exact foldl_cursor_le _ i2 (fun s2 i => walkRow_cursor_le fwd j i s2 i2) _ s
  · exact le_rfl

/-- A list in the order of the store holds the elements of one row in one
block, after the rows before it and before the rows after it. -/
theorem rows_contiguous (l : List BkwEntry) (h : l.Pairwise BkwEntry.before) (j : Nat) :
    l = l.filter (fun e => decide (e.row < j)) ++ l.filter (fun e => e.row == j) ++
      l.filter (fun e => decide (j < e.row)) := by
  induction l with
  | nil => rfl
  | cons a l ih =>
    rw [List.pairwise_cons] at h
    have hrow : ∀ b ∈ l, a.row ≤ b.row := by
      intro b hb
      rcases h.1 b hb with h1 | ⟨h1, -⟩ <;> omega
    have ih2 := ih h.2
    rcases Nat.lt_trichotomy a.row j with hlt | heq | hgt
    · have h1 : decide (a.row < j) = true := by simpa using hlt
      have h2 : (a.row == j) = false := by simp; omega
      have h3 : decide (j < a.row) = false := by simp; omega
      simp only [List.filter_cons, h1, h2, h3, if_true, List.cons_append]
      simp only [Bool.false_eq_true, if_false]
      rw [← ih2]
    · have e1 : l.filter (fun e => decide (e.row < j)) = [] := by
        rw [List.filter_eq_nil_iff]
        intro b hb
        have := hrow b hb
        simp; omega
      have h1 : decide (a.row < j) = false := by simp; omega
      have h2 : (a.row == j) = true := by simpa using heq
      have h3 : decide (j < a.row) = false := by simp; omega
      rw [e1] at ih2
      simp only [List.filter_cons, h1, h2, h3, if_true, e1, List.nil_append, List.cons_append]
      simp only [Bool.false_eq_true, if_false, List.nil_append]
      rw [List.nil_append] at ih2
      rw [List.cons_append, ← ih2]
    · have e1 : l.filter (fun e => decide (e.row < j)) = [] := by
        rw [List.filter_eq_nil_iff]
        intro b hb
        have := hrow b hb
        simp; omega
      have e2 : l.filter (fun e => e.row == j) = [] := by
        rw [List.filter_eq_nil_iff]
        intro b hb
        have := hrow b hb
        simp; omega
      have h1 : decide (a.row < j) = false := by simp; omega
      have h2 : (a.row == j) = false := by simp; omega
      have h3 : decide (j < a.row) = true := by simpa using hgt
      rw [e1, e2] at ih2
      simp only [List.filter_cons, h1, h2, h3, if_true, e1, e2, List.nil_append]
      simp only [Bool.false_eq_true, if_false, List.nil_append]
      rw [List.nil_append, List.nil_append] at ih2
      rw [← ih2]

/-- C12. For every forward matrix `compute_reverse_matrix` appends to the
backward store in ascending destination column and, within one destination
column, in strictly ascending source row, and no cursor ever moves back; so
the store is in the order `push_back` asks for, and the elements of one
destination column, which `propagate_backward` traverses, form one block of
the store. -/
theorem C12_backward_store_in_push_order (fwd : ForwardMatrix) (localrank : Nat → Bool)
    (bkw : BackwardMatrix) (log : List LogMessageType) :
    (compute_reverse_matrix fwd localrank bkw log).1.entries.Pairwise BkwEntry.before ∧
      (∀ (s : Walk) (j i i2 : Nat),
        s.rowwalker.getD i2 0 ≤ (walkRow fwd j s i).rowwalker.getD i2 0) ∧
      (∀ i, i ≤ fwd.m_rows →
        fwd.get_rowptr i ≤ (reverseWalk fwd localrank bkw).rowwalker.getD i 0) ∧
      ∀ j, (compute_reverse_matrix fwd localrank bkw log).1.entries =
        (compute_reverse_matrix fwd localrank bkw log).1.entries.filter
            (fun e => decide (e.row < j)) ++
          (compute_reverse_matrix fwd localrank bkw log).1.rowEntries j ++
          (compute_reverse_matrix fwd localrank bkw log).1.entries.filter
            (fun e => decide (j < e.row)) := by
  have hord : (compute_reverse_matrix fwd localrank bkw log).1.entries.Pairwise
      BkwEntry.before := by
    obtain ⟨b0, hb0, heq⟩ := compute_reverse_matrix_fst fwd localrank bkw log
    rw [heq]
    exact reverseWalk_order fwd localrank b0 hb0
  refine ⟨hord, fun s j i i2 => walkRow_cursor_le fwd j i s i2, ?_,
    fun j => rows_contiguous _ hord j⟩
  intro i hi
  have h0 : fwd.get_rowptr i =
      (({ rowwalker := (List.range (fwd.m_rows + 1)).map fwd.get_rowptr, bkw := bkw } :
        Walk)).rowwalker.getD i 0 := by
    simp only [List.getD_eq_getElem?_getD]
    rw [List.getElem?_map, List.getElem?_range (by omega)]
    rfl
  rw [h0]
  unfold reverseWalk
  exact foldl_cursor_le _ i (fun s j => walkCol_cursor_le fwd localrank fwd.m_rows j s i) _ _

end Auryn

namespace Auryn

/-! ## The mirrored part of a row -/

theorem find?_range'_spec (p : Nat → Bool) (n a : Nat) :
    (∀ k, (List.range' a n).find? p = some k →
        a ≤ k ∧ k < a + n ∧ p k = true ∧ ∀ k2, a ≤ k2 → k2 < k → p k2 = false) ∧
      ((List.range' a n).find? p = none → ∀ k2, a ≤ k2 → k2 < a + n → p k2 = false) := by
  induction n generalizing a with
  | zero =>
    refine ⟨fun k hk => by simp at hk, fun _ k2 h1 h2 => by omega⟩
  | succ n ih =>
    rw [List.range'_succ, List.find?_cons]
    cases hp : p a with
    | true =>
      refine ⟨fun k hk => ?_, fun h => by simp at h⟩
      simp only [Option.some.injEq] at hk
      subst hk
      exact ⟨le_rfl, by omega, hp, fun k2 h1 h2 => by omega⟩
    | false =>
      obtain ⟨ih1, ih2⟩ := ih (a + 1)
      refine ⟨fun k hk => ?_, fun h k2 h1 h2 => ?_⟩
      · obtain ⟨h1, h2, h3, h4⟩ := ih1 k hk
        refine ⟨by omega, by omega, h3, fun k2 hk2 hlt => ?_⟩
        rcases Nat.eq_or_lt_of_le hk2 with rfl | hgt
        · exact hp
        · exact h4 k2 hgt hlt
      · rcases Nat.eq_or_lt_of_le h1 with rfl | hgt
        · exact hp
        · exact ih2 h k2 hgt (by omega)

/-- What `mirroredEnd` means for a row whose pointers are in order: it lies
in the row, no element before it ends the mirrored part, and the element at
it, if there is one, does. -/
theorem mirroredEnd_spec (fwd : ForwardMatrix) (localrank : Nat → Bool) (i : Nat)
    (hrow : fwd.get_rowptr i ≤ fwd.get_rowptr (i + 1)) :
    fwd.get_rowptr i ≤ mirroredEnd fwd localrank i ∧
      mirroredEnd fwd localrank i ≤ fwd.get_rowptr (i + 1) ∧
      (∀ k, fwd.get_rowptr i ≤ k → k < mirroredEnd fwd localrank i →
        endsMirror fwd localrank i k = false) ∧
      (mirroredEnd fwd localrank i < fwd.get_rowptr (i + 1) →
        endsMirror fwd localrank i (mirroredEnd fwd localrank i) = true) := by
  obtain ⟨h1, h2⟩ := find?_range'_spec (endsMirror fwd localrank i)
    (fwd.get_rowptr (i + 1) - fwd.get_rowptr i) (fwd.get_rowptr i)
  unfold mirroredEnd ForwardMatrix.rowCells ForwardMatrix.get_row_begin ForwardMatrix.get_row_end
  cases hf : (List.range' (fwd.get_rowptr i) (fwd.get_rowptr (i + 1) - fwd.get_rowptr i)).find?
      (endsMirror fwd localrank i) with
  | none =>
    simp only [Option.getD_none]
    exact ⟨hrow, le_rfl, fun k hk1 hk2 => h2 hf k hk1 (by omega), fun h => by omega⟩
  | some k0 =>
    simp only [Option.getD_some]
    obtain ⟨a1, a2, a3, a4⟩ := h1 k0 hf
    exact ⟨a1, by omega, a4, fun _ => a3⟩

theorem endsMirror_false (fwd : ForwardMatrix) (localrank : Nat → Bool) (i k : Nat) :
    endsMirror fwd localrank i k = false ↔
      (∀ k2 ∈ fwd.rowCells i, k2 < k → fwd.colAt k2 < fwd.colAt k) ∧
        localrank (fwd.colAt k) = true := by
  simp [endsMirror]

theorem walkRow_ahead (fwd : ForwardMatrix) (hwf : fwd.WF) (localrank : Nat → Bool)
    (j i0 : Nat) (hl : localrank j = true) (s : Walk) (hi0 : i0 < fwd.m_rows)
    (inv : WalkInv fwd s) (ps : WalkPassed fwd j i0 s) (ah : WalkAhead fwd localrank j i0 s) :
    WalkAhead fwd localrank j (i0 + 1) (walkRow fwd j s i0) := by
  have hlen : i0 < s.rowwalker.length := by rw [inv.len]; omega
  have hother : ∀ i, i ≠ i0 → ((i < i0 + 1) ↔ (i < i0)) := fun i hi => by omega
  have hrow := hwf.rowptr_mono (Nat.le_succ i0) hi0
  obtain ⟨e1, e2, e3, e4⟩ := mirroredEnd_spec fwd localrank i0 hrow
  have hlo := inv.lo i0 hi0
  have hah := ah i0 hi0
  simp only [lt_irrefl, if_false] at hah
  -- later elements of the mirrored part have larger columns than the one at the cursor
  have hlater : s.rowwalker.getD i0 0 < fwd.get_rowptr (i0 + 1) →
      ∀ k, s.rowwalker.getD i0 0 < k → k < mirroredEnd fwd localrank i0 →
        fwd.colAt (s.rowwalker.getD i0 0) < fwd.colAt k := by
    intro h1 k hk1 hk2
    have := ((endsMirror_false fwd localrank i0 k).mp (e3 k (by omega) hk2)).1
    exact this _ ((fwd.mem_rowCells _ _).2 ⟨hlo, h1⟩) hk1
  unfold walkRow
  split_ifs with h1 h2
  · have hin : s.rowwalker.getD i0 0 < mirroredEnd fwd localrank i0 := by
      by_contra hge
      have heq : mirroredEnd fwd localrank i0 = s.rowwalker.getD i0 0 := by omega
      have hstop := e4 (by rw [heq]; exact h1)
      rw [heq] at hstop
      have hgood : endsMirror fwd localrank i0 (s.rowwalker.getD i0 0) = false := by
        rw [endsMirror_false]
        refine ⟨fun k2 hk2 hlt => ?_, by rw [h2]; exact hl⟩
        have := ps i0 hi0 k2 ((fwd.mem_rowCells _ _).1 hk2).1 hlt
        simp only [lt_irrefl, if_false] at this
        omega
      rw [hgood] at hstop
      exact Bool.false_ne_true hstop
    intro i hi
    by_cases hii : i = i0
    · subst hii
      simp only [getD_set_self _ _ _ _ hlen, Nat.lt_succ_self, if_true]
      refine ⟨hin, fun k hk1 hk2 => ?_⟩
      have := hlater h1 k (by omega) hk2
      omega
    · simp only [getD_set_other _ _ _ _ _ (Ne.symm hii)]
      simpa only [hother i hii] using ah i hi
  · intro i hi
    by_cases hii : i = i0
    · subst hii
      simp only [Nat.lt_succ_self, if_true]
      refine ⟨hah.1, fun k hk1 hk2 => ?_⟩
      have hc := hah.2 _ le_rfl (lt_of_le_of_lt hk1 hk2)
      rcases Nat.eq_or_lt_of_le hk1 with hkc | hkc
      · rw [← hkc]; omega
      · have := hlater h1 k hkc hk2
        omega
    · simpa only [hother i hii] using ah i hi
  · intro i hi
    by_cases hii : i = i0
    · subst hii
      simp only [Nat.lt_succ_self, if_true]
      exact ⟨hah.1, fun k hk1 hk2 => by omega⟩
    · simpa only [hother i hii] using ah i hi

theorem walkCol_ahead (fwd : ForwardMatrix) (hwf : fwd.WF) (localrank : Nat → Bool) (j : Nat)
    (s : Walk) (inv : WalkInv fwd s) (ps : WalkPassed fwd j 0 s)
    (ah : WalkAhead fwd localrank j 0 s) :
    WalkAhead fwd localrank (j + 1) 0 (walkCol fwd localrank fwd.m_rows s j) := by
  unfold walkCol
  split_ifs with hl
  · have h := foldl_range_inv (walkRow fwd j)
      (fun i s2 => (WalkInv fwd s2 ∧ WalkPassed fwd j i s2) ∧ WalkAhead fwd localrank j i s2)
      fwd.m_rows s ⟨⟨inv, ps⟩, ah⟩
      (fun i s2 hi h => ⟨walkRow_inv fwd hwf j i s2 hi h.1.1 h.1.2,
        walkRow_ahead fwd hwf localrank j i hl s2 hi h.1.1 h.1.2 h.2⟩)
    intro i hi
    have := h.2 i hi
    simpa [hi] using this
  · intro i hi
    obtain ⟨a1, a2⟩ := ah i hi
    simp only [Nat.not_lt_zero, if_false] at a2 ⊢
    refine ⟨a1, fun k hk1 hk2 => ?_⟩
    have hc := a2 k hk1 hk2
    have hrow := hwf.rowptr_mono (Nat.le_succ i) hi
    obtain ⟨-, -, e3, -⟩ := mirroredEnd_spec fwd localrank i hrow
    have hloc := ((endsMirror_false fwd localrank i k).mp
      (e3 k (le_trans (inv.lo i hi) hk1) hk2)).2
    have hne : fwd.colAt k ≠ j := by
      intro h
      rw [h] at hloc
      exact hl hloc
    omega

theorem start_cursor (fwd : ForwardMatrix) (bkw : BackwardMatrix) (i : Nat)
    (hi : i ≤ fwd.m_rows) :
    (Walk.mk ((List.range (fwd.m_rows + 1)).map fwd.get_rowptr) bkw).rowwalker.getD i 0 =
      fwd.get_rowptr i := by
  simp only [List.getD_eq_getElem?_getD]
  rw [List.getElem?_map, List.getElem?_range (by omega)]
  rfl

/-- Every cursor of the walk of `compute_reverse_matrix` ends where the
mirrored part of its row ends. -/
theorem reverseWalk_cursor (fwd : ForwardMatrix) (hwf : fwd.WF) (localrank : Nat → Bool)
    (bkw : BackwardMatrix) (hb : bkw.entries = []) :
    ∀ i < fwd.m_rows,
      (reverseWalk fwd localrank bkw).rowwalker.getD i 0 = mirroredEnd fwd localrank i := by
  have hstart := walk_start fwd hwf bkw hb
  have h : (WalkInv fwd (reverseWalk fwd localrank bkw) ∧
      WalkPassed fwd fwd.n_cols 0 (reverseWalk fwd localrank bkw)) ∧
      WalkAhead fwd localrank fwd.n_cols 0 (reverseWalk fwd localrank bkw) := by
    unfold reverseWalk
    refine foldl_range_inv (walkCol fwd localrank fwd.m_rows)
      (fun j s => (WalkInv fwd s ∧ WalkPassed fwd j 0 s) ∧ WalkAhead fwd localrank j 0 s)
      fwd.n_cols _ ⟨⟨hstart.1, hstart.2.1⟩, ?_⟩
      (fun j s _ h => ⟨walkCol_inv fwd hwf localrank j s h.1.1 h.1.2,
        walkCol_ahead fwd hwf localrank j s h.1.1 h.1.2 h.2⟩)
    intro i hi
    have hrow := hwf.rowptr_mono (Nat.le_succ i) hi
    rw [start_cursor fwd bkw i (le_of_lt hi)]
    exact ⟨(mirroredEnd_spec fwd localrank i hrow).1, fun k _ _ => by simp⟩
  intro i hi
  obtain ⟨a1, a2⟩ := h.2 i hi
  simp only [Nat.not_lt_zero, if_false] at a2
  by_contra hne
  have hlt : (reverseWalk fwd localrank bkw).rowwalker.getD i 0 < mirroredEnd fwd localrank i := by
    omega
  have h1 := a2 _ le_rfl hlt
  have hrow := hwf.rowptr_mono (Nat.le_succ i) hi
  have hend := (mirroredEnd_spec fwd localrank i hrow).2.1
  have h2 := hwf.colAt_lt (hwf.cell_lt hi (lt_of_lt_of_le hlt hend))
  omega

/-- The backward matrix never holds more elements than the forward matrix. -/
theorem compute_reverse_matrix_count_le (fwd : ForwardMatrix) (hwf : fwd.WF)
    (localrank : Nat → Bool) (bkw : BackwardMatrix) (log : List LogMessageType) :
    (compute_reverse_matrix fwd localrank bkw log).1.get_nonzero ≤ fwd.get_nonzero := by
  have hnd := compute_reverse_matrix_nodup fwd hwf localrank bkw log
  have hsub : (compute_reverse_matrix fwd localrank bkw log).1.entries.map (fun e => e.data) ⊆
      (List.range fwd.n_nonzero).map some := by
    intro x hx
    obtain ⟨e, he, rfl⟩ := List.mem_map.mp hx
    obtain ⟨hc, k, hk1, hk2, -⟩ := compute_reverse_matrix_sound fwd hwf localrank bkw log e he
    rw [fwd.mem_rowCells] at hk2
    rw [hk1]
    exact List.mem_map.mpr ⟨k, List.mem_range.mpr (hwf.cell_lt hc hk2.2), rfl⟩
  have := (List.subperm_of_subset hnd hsub).length_le
  simpa [BackwardMatrix.get_nonzero, ForwardMatrix.get_nonzero] using this

/-- C13. With no assumption on column order or column ownership, the elements
of forward row `i` that `compute_reverse_matrix` mirrors are the elements
before `mirroredEnd`: every stored element is the mirror of a forward element,
the forward element at offset `k` of row `i` is mirrored exactly when `k` is
before the first element of the row whose column is not greater than all
earlier columns of the row or is not local, and so the backward matrix holds
no more elements than the forward matrix. -/
theorem C13_mirrored_part_of_row (fwd : ForwardMatrix) (localrank : Nat → Bool)
    (bkw : BackwardMatrix) (log : List LogMessageType) (hwf : fwd.WF) :
    (∀ e ∈ (compute_reverse_matrix fwd localrank bkw log).1.entries,
        e.col < fwd.m_rows ∧ ∃ k ∈ fwd.rowCells e.col, e = ⟨fwd.colAt k, e.col, some k⟩) ∧
      (∀ i < fwd.m_rows, ∀ k ∈ fwd.rowCells i,
        ((⟨fwd.colAt k, i, some k⟩ : BkwEntry) ∈
            (compute_reverse_matrix fwd localrank bkw log).1.entries ↔
          k < mirroredEnd fwd localrank i)) ∧
      (∀ i j, (compute_reverse_matrix fwd localrank bkw log).1.HasEntry j i ↔
        (i < fwd.m_rows ∧
          ∃ k ∈ fwd.rowCells i, k < mirroredEnd fwd localrank i ∧ fwd.colAt k = j)) ∧
      (compute_reverse_matrix fwd localrank bkw log).1.get_nonzero ≤ fwd.get_nonzero := by
  refine ⟨?_, ?_, ?_, compute_reverse_matrix_count_le fwd hwf localrank bkw log⟩
  rotate_left 2
  · obtain ⟨b0, hb0, heq⟩ := compute_reverse_matrix_fst fwd localrank bkw log
    rw [heq]
    have inv := (reverseWalk_inv fwd hwf localrank b0 hb0).1
    have hcur := reverseWalk_cursor fwd hwf localrank b0 hb0
    intro i j
    constructor
    · rintro ⟨e, he, rfl, rfl⟩
      obtain ⟨hc, k, -, hk2, hk3, hk4, -⟩ := inv.sound e he
      have := inv.hi e.col hc
      rw [hcur e.col hc] at hk3
      exact ⟨hc, k, (fwd.mem_rowCells _ _).2 ⟨hk2, by rw [hcur e.col hc] at this; omega⟩,
        hk3, hk4⟩
    · rintro ⟨hi, k, hk, hlt, rfl⟩
      rw [fwd.mem_rowCells] at hk
      exact ⟨_, inv.complete i hi k hk.1 (by rw [hcur i hi]; exact hlt), rfl, rfl⟩
  · intro e he
    obtain ⟨hc, k, hk1, hk2, hk3, -⟩ :=
      compute_reverse_matrix_sound fwd hwf localrank bkw log e he
    refine ⟨hc, k, hk2, ?_⟩
    obtain ⟨r, c, d⟩ := e
    simp only at hk1 hk3
    rw [hk1, hk3]
  · obtain ⟨b0, hb0, heq⟩ := compute_reverse_matrix_fst fwd localrank bkw log
    rw [heq]
    have inv := (reverseWalk_inv fwd hwf localrank b0 hb0).1
    have hcur := reverseWalk_cursor fwd hwf localrank b0 hb0
    intro i hi k hk
    rw [fwd.mem_rowCells] at hk
    constructor
    · intro hmem
      obtain ⟨-, k2, hk1, -, hk3, -⟩ := inv.sound _ hmem
      simp only [Option.some.injEq] at hk1
      rw [← hk1, hcur i hi] at hk3
      exact hk3
    · intro hlt
      exact inv.complete i hi k hk.1 (by rw [hcur i hi]; exact hlt)

theorem C13_mirrored_part_of_row_witness :
    unsortedForward.WF ∧
    ((∀ e ∈ (compute_reverse_matrix unsortedForward (fun j => decide (j ≠ 2))
          (BackwardMatrix.build 8 2 5) []).1.entries,
        e.col < unsortedForward.m_rows ∧
          ∃ k ∈ unsortedForward.rowCells e.col, e = ⟨unsortedForward.colAt k, e.col, some k⟩) ∧
      (∀ i < unsortedForward.m_rows, ∀ k ∈ unsortedForward.rowCells i,
        ((⟨unsortedForward.colAt k, i, some k⟩ : BkwEntry) ∈
            (compute_reverse_matrix unsortedForward (fun j => decide (j ≠ 2))
              (BackwardMatrix.build 8 2 5) []).1.entries ↔
          k < mirroredEnd unsortedForward (fun j => decide (j ≠ 2)) i)) ∧
      (∀ i j, (compute_reverse_matrix unsortedForward (fun j => decide (j ≠ 2))
          (BackwardMatrix.build 8 2 5) []).1.HasEntry j i ↔
        (i < unsortedForward.m_rows ∧ ∃ k ∈ unsortedForward.rowCells i,
          k < mirroredEnd unsortedForward (fun j => decide (j ≠ 2)) i ∧
            unsortedForward.colAt k = j)) ∧
      (compute_reverse_matrix unsortedForward (fun j => decide (j ≠ 2))
          (BackwardMatrix.build 8 2 5) []).1.get_nonzero ≤ unsortedForward.get_nonzero) ∧
    (compute_reverse_matrix unsortedForward (fun j => decide (j ≠ 2))
        (BackwardMatrix.build 8 2 5) []).1.entries = [⟨1, 1, some 3⟩, ⟨5, 0, some 0⟩] ∧
    mirroredEnd unsortedForward (fun j => decide (j ≠ 2)) 0 = 1 ∧
    mirroredEnd unsortedForward (fun j => decide (j ≠ 2)) 1 = 4 :=
  ⟨by decide,
    C13_mirrored_part_of_row unsortedForward (fun j => decide (j ≠ 2))
      (BackwardMatrix.build 8 2 5) [] (by decide),
    by decide, by decide, by decide⟩

end Auryn

namespace Auryn

/-! ## The outcome of `compute_reverse_matrix` -/

theorem foldl_keeps {σ α : Type} (P : σ → Prop) (f : σ → α → σ)
    (h : ∀ s a, P s → P (f s a)) (l : List α) (s : σ) (hs : P s) : P (l.foldl f s) := by
  induction l generalizing s with
  | nil => exact hs
  | cons a l ih => exact ih (f s a) (h s a hs)

/-- The walk does not change the capacity of the backward buffer. -/
theorem reverseWalk_datasize (fwd : ForwardMatrix) (localrank : Nat → Bool)
    (bkw : BackwardMatrix) : (reverseWalk fwd localrank bkw).bkw.datasize = bkw.datasize := by
  have hrow : ∀ j (s : Walk) (i : Nat), s.bkw.datasize = bkw.datasize →
      (walkRow fwd j s i).bkw.datasize = bkw.datasize := by
    intro j s i hs
    unfold walkRow
    split_ifs <;> simpa [BackwardMatrix.push_back] using hs
  have hcol : ∀ (s : Walk) (j : Nat), s.bkw.datasize = bkw.datasize →
      (walkCol fwd localrank fwd.m_rows s j).bkw.datasize = bkw.datasize := by
    intro s j hs
    unfold walkCol
    split_ifs
    · exact foldl_keeps (fun s2 : Walk => s2.bkw.datasize = bkw.datasize) _ (hrow j) _ s hs
    · exact hs
  unfold reverseWalk
  exact foldl_keeps (fun s2 : Walk => s2.bkw.datasize = bkw.datasize) _ hcol _ _ rfl

/-- After `compute_reverse_matrix` on a well-formed forward matrix the
backward buffer has room for as many elements as the forward matrix holds. -/
theorem compute_reverse_matrix_datasize (fwd : ForwardMatrix) (hwf : fwd.WF)
    (localrank : Nat → Bool) (bkw : BackwardMatrix) (log : List LogMessageType) :
    fwd.get_nonzero ≤ (compute_reverse_matrix fwd localrank bkw log).1.get_datasize := by
  have hcap : fwd.n_nonzero ≤ fwd.datasize := hwf.2.2.2.2.2.2.1
  unfold compute_reverse_matrix
  by_cases h : fwd.get_nonzero ≤ bkw.get_datasize
  · simp only [h, if_true, BackwardMatrix.fill_zeros]
    split_ifs <;>
      simpa [BackwardMatrix.get_datasize, reverseWalk_datasize, BackwardMatrix.clear] using h
  · simp only [h, if_false, BackwardMatrix.fill_zeros]
    split_ifs <;>
      simpa [BackwardMatrix.get_datasize, reverseWalk_datasize,
        BackwardMatrix.resize_buffer_and_clear, ForwardMatrix.get_nonzero,
        ForwardMatrix.get_datasize] using hcap

/-- C11. For every forward matrix, sorted or not, `compute_reverse_matrix`
returns the backward matrix its walk built, whatever the counts, and among the
messages it adds to the log there is one at `ERROR` level exactly when the
backward and the forward nonzero counts differ. What could stop the walk does
not happen on a well-formed forward matrix: the stored elements never
outnumber the capacity of the backward buffer and stay within the dimensions. -/
theorem C11_count_mismatch_is_logged_not_fatal (fwd : ForwardMatrix) (localrank : Nat → Bool)
    (bkw : BackwardMatrix) (log : List LogMessageType) :
    (∃ msgs, (compute_reverse_matrix fwd localrank bkw log).2 = log ++ msgs ∧
        (LogMessageType.ERROR ∈ msgs ↔
          (compute_reverse_matrix fwd localrank bkw log).1.get_nonzero ≠ fwd.get_nonzero)) ∧
      (compute_reverse_matrix fwd localrank bkw log).1.entries =
        (reverseWalk fwd localrank bkw.clear).bkw.entries ∧
      (fwd.WF →
        (compute_reverse_matrix fwd localrank bkw log).1.get_nonzero ≤
            (compute_reverse_matrix fwd localrank bkw log).1.get_datasize ∧
          ∀ e ∈ (compute_reverse_matrix fwd localrank bkw log).1.entries,
            e.row < fwd.n_cols ∧ e.col < fwd.m_rows) := by
  refine ⟨?_, ?_, ?_⟩
  · unfold compute_reverse_matrix
    by_cases h : fwd.get_nonzero ≤ bkw.get_datasize
    · simp only [h, if_true]
      split_ifs with h2
      · exact ⟨[LogMessageType.NOTIFICATION, LogMessageType.ERROR], by simp,
          by simpa using fun h3 => h2 h3.symm⟩
      · exact ⟨[LogMessageType.NOTIFICATION, LogMessageType.DEBUG], by simp,
          by simpa using (not_not.mp h2).symm⟩
    · simp only [h, if_false]
      split_ifs with h2
      · exact ⟨[LogMessageType.NOTIFICATION, LogMessageType.NOTIFICATION,
          LogMessageType.ERROR], by simp, by simpa using fun h3 => h2 h3.symm⟩
      · exact ⟨[LogMessageType.NOTIFICATION, LogMessageType.NOTIFICATION,
          LogMessageType.DEBUG], by simp, by simpa using (not_not.mp h2).symm⟩
  · obtain ⟨b0, hb0, heq⟩ := compute_reverse_matrix_fst fwd localrank bkw log
    rw [heq]
    exact (reverseWalk_store fwd localrank b0 bkw.clear (by rw [hb0]; rfl)).2
  · intro hwf
    refine ⟨le_trans (compute_reverse_matrix_count_le fwd hwf localrank bkw log)
      (compute_reverse_matrix_datasize fwd hwf localrank bkw log), ?_⟩
    intro e he
    obtain ⟨hc, k, -, hk2, hk3, -⟩ := compute_reverse_matrix_sound fwd hwf localrank bkw log e he
    rw [fwd.mem_rowCells] at hk2
    rw [← hk3]
    exact ⟨hwf.colAt_lt (hwf.cell_lt hc hk2.2), hc⟩

theorem C11_count_mismatch_is_logged_not_fatal_witness :
    unsortedForward.WF ∧
    ((compute_reverse_matrix unsortedForward (fun _ => true) (BackwardMatrix.build 8 2 5)
          []).1.get_nonzero ≤
        (compute_reverse_matrix unsortedForward (fun _ => true) (BackwardMatrix.build 8 2 5)
          []).1.get_datasize ∧
      ∀ e ∈ (compute_reverse_matrix unsortedForward (fun _ => true) (BackwardMatrix.build 8 2 5)
          []).1.entries, e.row < unsortedForward.n_cols ∧ e.col < unsortedForward.m_rows) ∧
    (compute_reverse_matrix unsortedForward (fun _ => true) (BackwardMatrix.build 8 2 5) []).2 =
      [LogMessageType.NOTIFICATION, LogMessageType.ERROR] ∧
    (compute_reverse_matrix unsortedForward (fun _ => true) (BackwardMatrix.build 8 2 5)
      []).1.get_nonzero = 3 ∧
    unsortedForward.get_nonzero = 5 :=
  ⟨by decide,
    (C11_count_mismatch_is_logged_not_fatal unsortedForward (fun _ => true)
      (BackwardMatrix.build 8 2 5) []).2.2 (by decide),
    by decide, by decide, by decide⟩

end Auryn
